import Mathlib

/-!
# Fixed-arena memory pool (`src/src/mempool.c`)

Shallow embedding of the allocator of `mempool.c` for an LP64 target
(`alignof(max_align_t) = 16`, `sizeof(memblock_admin_t) = 16`, 64-bit
`uintptr_t`, 32-bit `uint32_t`).

* Addresses are natural numbers below `2^64`; `0` is `NULL`.
* The arena is seen through the block headers stored in it: `Mem` maps an
  address to the `memblock_admin_t` read at that address.  Every header the
  code touches sits at a multiple of 16 and is 16 bytes long, so two headers
  at different addresses never share a byte.
* The two `while (current != NULL)` loops take a fuel argument and return
  `none` when it runs out.
* `MY_ASSERT` is compiled out unless `DEBUG` is set; the embedding executes
  the release behaviour and records in `asserts_ok` whether every assertion
  met so far held.
-/

namespace Mempool

/-! ## Machine arithmetic -/

/-- Number of values of a `uint32_t`. -/
def UINT32 : Nat := 4294967296

/-- Number of values of a `uintptr_t` / `size_t`. -/
def UINTPTR : Nat := 18446744073709551616

/-- Conversion to `uint32_t`. -/
def to_u32 (v : Nat) : Nat := v % UINT32

/-- Subtraction of two `uint32_t` values. -/
def u32_sub (a b : Nat) : Nat := (a + UINT32 - b % UINT32) % UINT32

/-- Addition in `uintptr_t`. -/
def uptr_add (a b : Nat) : Nat := (a + b) % UINTPTR

/-- Subtraction in `uintptr_t`. -/
def uptr_sub (a b : Nat) : Nat := (a + UINTPTR - b % UINTPTR) % UINTPTR

/-! ## Constants and alignment helpers (`mempool.c` lines 23-34) -/

/-- The value of `alignof(max_align_t)`. -/
def MAX_ALIGN : Nat := 16

/-- The value of `sizeof(memblock_admin_t)`: a `uint32_t`, padding, a pointer. -/
def sizeof_memblock_admin_t : Nat := 16

/-- Macro `ALIGN_UP(var)`, evaluated in `size_t`. -/
def ALIGN_UP (var : Nat) : Nat := (uptr_add var (MAX_ALIGN - 1) / MAX_ALIGN) * MAX_ALIGN

/-- Macro `ALIGN_DOWN(var)`. -/
def ALIGN_DOWN (var : Nat) : Nat := (var / MAX_ALIGN) * MAX_ALIGN

/-- Macro `ALIGN_ADDR_UP(addr)`. -/
def ALIGN_ADDR_UP (addr : Nat) : Nat := ALIGN_UP addr

/-- Macro `ALIGN_ADDR_DOWN(addr)`. -/
def ALIGN_ADDR_DOWN (addr : Nat) : Nat := ALIGN_DOWN addr

/-- Macro `MEM_BLOCK_ADMIN_SIZE`. -/
def MEM_BLOCK_ADMIN_SIZE : Nat := ALIGN_UP sizeof_memblock_admin_t

/-- Macro `MIN_ALLOC_SIZE`. -/
def MIN_ALLOC_SIZE : Nat := MAX_ALIGN

/-- Macro `MIN_MEM_BLOCK_SIZE`. -/
def MIN_MEM_BLOCK_SIZE : Nat := MEM_BLOCK_ADMIN_SIZE + MIN_ALLOC_SIZE

/-! ## Data model -/

/-- The block header `memblock_admin_t`; `next = 0` is the null pointer. -/
structure memblock_admin_t where
  size : Nat
  next : Nat
deriving DecidableEq, Repr

/-- The headers stored in memory, by address. -/
abbrev Mem := Nat → memblock_admin_t

/-- The enum `mempool_status_t`. -/
inductive mempool_status_t where
  | MEMPOOL_SUCCESS
  | MEMPOOL_INVALID_PARAM
deriving DecidableEq, Repr

open mempool_status_t

/-- The globals `HEAD` and `TAIL`, the memory, and the assertion record. -/
structure Pool where
  HEAD : Nat
  TAIL : Nat
  mem : Mem
  asserts_ok : Bool

/-- Store `v` into `a->size`. -/
def set_size (m : Mem) (a v : Nat) : Mem :=
  fun x => if x = a then { m x with size := v } else m x

/-- Store `v` into `a->next`. -/
def set_next (m : Mem) (a v : Nat) : Mem :=
  fun x => if x = a then { m x with next := v } else m x

/-- The effect of `MY_ASSERT(c)`. -/
def my_assert (s : Pool) (c : Bool) : Pool :=
  { s with asserts_ok := s.asserts_ok && c }

/-- The pool before `mempool_init`: null globals over a given memory. -/
def fresh (m : Mem) : Pool :=
  { HEAD := 0, TAIL := 0, mem := m, asserts_ok := true }

/-- A memory of zero bytes, as a static array starts out. -/
def zero_mem : Mem := fun _ => { size := 0, next := 0 }

/-! ## The operations -/

/-- Function `init_mem_block_admin` (lines 38-49). -/
def init_mem_block_admin (s : Pool) (start available_space : Nat) : Nat × Pool :=
  let start_aligned := ALIGN_ADDR_UP start
  let freeblock := start_aligned
  let align_space_consumed := to_u32 (uptr_sub start_aligned start)
  let s1 := my_assert s (decide (available_space > align_space_consumed))
  let s2 := { s1 with mem := set_size s1.mem freeblock (u32_sub available_space align_space_consumed) }
  let s3 := { s2 with mem := set_next s2.mem freeblock 0 }
  (freeblock, s3)

/-- The found-a-block branch of `freememblocklist_get_memblock` (lines 62-81). -/
def take_memblock (s : Pool) (required_size previous current : Nat) : Pool :=
  let space_left := u32_sub (s.mem current).size required_size
  if space_left ≥ MIN_MEM_BLOCK_SIZE then
    let r := init_mem_block_admin s (uptr_add current required_size) space_left
    let block := r.1
    let s1 := r.2
    let s2 := { s1 with mem := set_next s1.mem previous block }
    let s3 := { s2 with mem := set_next s2.mem block (s2.mem current).next }
    { s3 with mem := set_size s3.mem current required_size }
  else
    { s with mem := set_next s.mem previous (s.mem current).next }

/-- The loop of `freememblocklist_get_memblock` (lines 58-86). -/
def get_memblock_loop (required_size : Nat) : Nat → Pool → Nat → Nat → Option (Nat × Pool)
  | 0, _, _, _ => none
  | fuel + 1, s, previous, current =>
    if current = 0 then some (current, s)
    else if (s.mem current).size ≥ required_size then
      some (current, take_memblock s required_size previous current)
    else get_memblock_loop required_size fuel s current (s.mem current).next

/-- Function `freememblocklist_get_memblock` (lines 53-89). -/
def freememblocklist_get_memblock (fuel : Nat) (s : Pool) (required_size : Nat) :
    Option (Nat × Pool) :=
  get_memblock_loop required_size fuel s s.HEAD (s.mem s.HEAD).next

/-- Function `memblock_coalesce` (lines 92-99). -/
def memblock_coalesce (s : Pool) (f1 f2 : Nat) : Pool :=
  let s1 := my_assert s (decide ((s.mem f1).next = f2))
  let s2 := { s1 with mem := set_next s1.mem f1 (s1.mem f2).next }
  let merged_size := to_u32 (uptr_sub (uptr_add f2 (s2.mem f2).size) f1)
  let s3 := { s2 with mem := set_size s2.mem f1 merged_size }
  my_assert s3 (decide (uptr_add f1 (s3.mem f1).size ≤ s3.TAIL))

/-- Function `memblock_check_coalesce` (lines 102-115). -/
def memblock_check_coalesce (s : Pool) (f1 f2 : Nat) : Bool × Pool :=
  let s1 := my_assert s (decide ((s.mem f1).next = f2))
  if f2 = s1.TAIL ∨ f1 = s1.HEAD then (false, s1)
  else
    let gap := uptr_sub (uptr_sub f2 f1) (s1.mem f1).size
    (decide (gap < MIN_MEM_BLOCK_SIZE), s1)

/-- Function `coalesce_mem_blocks` (lines 118-134). -/
def coalesce_mem_blocks (s : Pool) (previous current next : Nat) : Pool :=
  let c1 := memblock_check_coalesce s previous current
  let s1 := if c1.1 then memblock_coalesce c1.2 previous current else c1.2
  let block := if c1.1 then previous else current
  let c2 := memblock_check_coalesce s1 block next
  if c2.1 then memblock_coalesce c2.2 block next else c2.2

/-- The loop of `freememblocklist_insert` (lines 143-166) and the fall-through
after it (lines 168-169). -/
def insert_loop (block : Nat) : Nat → Pool → Nat → Nat → Option (mempool_status_t × Pool)
  | 0, _, _, _ => none
  | fuel + 1, s, previous, current =>
    if current = 0 then
      some (mempool_status_t.MEMPOOL_INVALID_PARAM, my_assert s false)
    else
      let s1 := my_assert s (decide (current ≠ block))
      if current < block then
        insert_loop block fuel s1 current (s1.mem current).next
      else
        let s2 := { s1 with mem := set_next s1.mem previous block }
        let s3 := { s2 with mem := set_next s2.mem block current }
        some (mempool_status_t.MEMPOOL_SUCCESS, coalesce_mem_blocks s3 previous block current)

/-- Function `freememblocklist_insert` (lines 136-170). -/
def freememblocklist_insert (fuel : Nat) (s : Pool) (block : Nat) :
    Option (mempool_status_t × Pool) :=
  let current := (s.mem s.HEAD).next
  let previous := s.HEAD
  let s1 := my_assert s (decide ((s.mem block).size ≥ MIN_MEM_BLOCK_SIZE))
  insert_loop block fuel s1 previous current

/-- Function `mempool_init` (lines 172-202). -/
def mempool_init (s : Pool) (storage size : Nat) : mempool_status_t × Pool :=
  let min_pool_size := to_u32 (2 * MEM_BLOCK_ADMIN_SIZE + MIN_ALLOC_SIZE)
  if storage = 0 ∨ size < min_pool_size then
    (mempool_status_t.MEMPOOL_INVALID_PARAM, s)
  else
    let r1 := init_mem_block_admin s storage MEM_BLOCK_ADMIN_SIZE
    let s1 := { r1.2 with HEAD := r1.1 }
    let end_addr := ALIGN_ADDR_DOWN (uptr_sub (uptr_add storage size) MEM_BLOCK_ADMIN_SIZE)
    let r2 := init_mem_block_admin s1 end_addr MEM_BLOCK_ADMIN_SIZE
    let s2 := { r2.2 with TAIL := r2.1 }
    let available_space :=
      to_u32 (uptr_sub s2.TAIL (uptr_add s2.HEAD (s2.mem s2.HEAD).size))
    let r3 := init_mem_block_admin s2 (uptr_add s2.HEAD MEM_BLOCK_ADMIN_SIZE) available_space
    let freeblock := r3.1
    let s3 := r3.2
    let s4 := { s3 with mem := set_next s3.mem s3.HEAD freeblock }
    let s5 := { s4 with mem := set_next s4.mem freeblock s4.TAIL }
    (mempool_status_t.MEMPOOL_SUCCESS, s5)

/-- Function `mempool_free` (lines 204-227). -/
def mempool_free (fuel : Nat) (s : Pool) (loc : Nat) : Option (mempool_status_t × Pool) :=
  if loc = 0 ∨ loc % MAX_ALIGN ≠ 0 then
    some (mempool_status_t.MEMPOOL_INVALID_PARAM, s)
  else
    let block := uptr_sub loc MEM_BLOCK_ADMIN_SIZE
    if block < uptr_add s.HEAD (s.mem s.HEAD).size ∨
        uptr_add block (s.mem block).size > s.TAIL then
      some (mempool_status_t.MEMPOOL_INVALID_PARAM, s)
    else
      freememblocklist_insert fuel s block

/-- Function `mempool_alloc` (lines 229-248); the result `0` is `NULL`. -/
def mempool_alloc (fuel : Nat) (s : Pool) (size : Nat) : Option (Nat × Pool) :=
  if size = 0 then some (0, s)
  else
    let req_size := to_u32 (uptr_add (ALIGN_UP size) MEM_BLOCK_ADMIN_SIZE)
    match freememblocklist_get_memblock fuel s req_size with
    | none => none
    | some r =>
      if r.1 ≠ 0 then some (uptr_add r.1 MEM_BLOCK_ADMIN_SIZE, r.2)
      else some (0, r.2)

/-- The call `mempool_alloc(size)` returns `p` and leaves the pool in `s1`. -/
def AllocReturns (s : Pool) (size p : Nat) (s1 : Pool) : Prop :=
  ∃ fuel, mempool_alloc fuel s size = some (p, s1)

/-- The call `mempool_free(loc)` returns `st` and leaves the pool in `s1`. -/
def FreeReturns (s : Pool) (loc : Nat) (st : mempool_status_t) (s1 : Pool) : Prop :=
  ∃ fuel, mempool_free fuel s loc = some (st, s1)

/-! ## Reading the free list out of memory -/

/-- Following `next` from address `a` visits exactly the nodes `l`, none of
them null, and then arrives at `e`. -/
def Seg (m : Mem) : Nat → List Nat → Nat → Prop
  | a, [], e => a = e
  | a, x :: l, e => a = x ∧ x ≠ 0 ∧ Seg m (m x).next l e

instance Seg_decide (m : Mem) : (a : Nat) → (l : List Nat) → (e : Nat) → Decidable (Seg m a l e)
  | a, [], e => inferInstanceAs (Decidable (a = e))
  | a, x :: l, e =>
    have := Seg_decide m (m x).next l e
    inferInstanceAs (Decidable (a = x ∧ x ≠ 0 ∧ Seg m (m x).next l e))

/-- The byte range `[p, p + n)` lies inside the arena `[storage, storage + size)`. -/
def InArena (storage size p n : Nat) : Prop :=
  storage ≤ p ∧ p + n ≤ storage + size

instance InArena_decide (storage size p n : Nat) : Decidable (InArena storage size p n) :=
  inferInstanceAs (Decidable (_ ∧ _))

/-- A well-formed pool state with free blocks `l` (in list order): following
`next` from `HEAD` visits `l`, then `TAIL`, then ends; addresses increase
strictly along `HEAD`, `l`, `TAIL`; the sentinel `TAIL` is a bare header; and
the header of `TAIL` ends inside the address space. -/
def WellFormed (s : Pool) (l : List Nat) : Prop :=
  s.HEAD ≠ 0 ∧
  Seg s.mem (s.mem s.HEAD).next (l ++ [s.TAIL]) 0 ∧
  List.Sorted (fun a b => a < b) (s.HEAD :: (l ++ [s.TAIL])) ∧
  (s.mem s.TAIL).size = MEM_BLOCK_ADMIN_SIZE ∧
  s.TAIL + MEM_BLOCK_ADMIN_SIZE ≤ UINTPTR

instance WellFormed_decide (s : Pool) (l : List Nat) : Decidable (WellFormed s l) :=
  inferInstanceAs (Decidable (_ ∧ _ ∧ _ ∧ _ ∧ _))

/-- The node reached last when a scan starts at `p` and walks over `l`. -/
def last_of : Nat → List Nat → Nat
  | p, [] => p
  | _, x :: l => last_of x l

/-- Any run of the pool: a successful `mempool_init`, then calls of
`mempool_alloc` and `mempool_free` in any order and with any arguments, each
of which returns. -/
inductive Run (m0 : Mem) (storage size : Nat) : Pool → Prop
  | init {s : Pool} :
      mempool_init (fresh m0) storage size = (MEMPOOL_SUCCESS, s) → Run m0 storage size s
  | alloc {s s1 : Pool} {n p : Nat} :
      Run m0 storage size s → AllocReturns s n p s1 → Run m0 storage size s1
  | free {s s1 : Pool} {loc : Nat} {st : mempool_status_t} :
      Run m0 storage size s → FreeReturns s loc st s1 → Run m0 storage size s1

/-- Every address in `W` is 16-aligned and its `next` field is null or again in `W`. -/
def Closed (W : Nat → Prop) (m : Mem) : Prop :=
  ∀ a, W a → a % 16 = 0 ∧ ((m a).next = 0 ∨ W (m a).next)

/-- Alignment invariant: `HEAD` lies in a set of aligned addresses closed under `next`. -/
def AlignInv (s : Pool) : Prop :=
  ∃ W : Nat → Prop, W s.HEAD ∧ Closed W s.mem

/-- What a block of the arena is used for: one of the two sentinels, a block
on the free list, or a block handed out for a request of `n` bytes. -/
inductive Kind where
  | sentinel
  | free
  | live (n : Nat)
deriving DecidableEq, Repr

/-- Whether a block is handed out. -/
def Kind.is_live : Kind → Bool
  | Kind.live _ => true
  | _ => false

/-- A block of the arena: the address of its header, its size with the header
included, and its use. -/
structure Blk where
  addr : Nat
  size : Nat
  kind : Kind
deriving DecidableEq, Repr

/-- The addresses of the blocks that are linked into the list (sentinels and
free blocks), in order. -/
def nodes : List Blk → List Nat
  | [] => []
  | b :: bs => if b.kind.is_live then nodes bs else b.addr :: nodes bs

/-- The blocks `bs` lie back to back and cover `[a, e)`. -/
def Tiles : Nat → List Blk → Nat → Prop
  | a, [], e => a = e
  | a, b :: bs, e => b.addr = a ∧ Tiles (a + b.size) bs e

/-- Shape of one block in a pool with sentinels at `H` and `T`. -/
def BlkOk (H T : Nat) (b : Blk) : Prop :=
  16 ≤ b.size ∧ b.size % 16 = 0 ∧
  (b.kind = Kind.sentinel ↔ (b.addr = H ∨ b.addr = T)) ∧
  (b.kind = Kind.sentinel → b.size = 16) ∧
  (∀ n, b.kind = Kind.live n → 0 < n ∧ n + 16 ≤ b.size)

/-- No two neighbouring blocks are both free. -/
def NoAdjFree (bs : List Blk) : Prop :=
  List.Chain' (fun b1 b2 => ¬ (b1.kind = Kind.free ∧ b2.kind = Kind.free)) bs

/-- The pool state `s` lays the arena out as the blocks `bs`: the blocks tile
`[HEAD, TAIL + 16)`, starting with the sentinel `HEAD` and ending with the
sentinel `TAIL`; every header records its block's size; and the list that
starts at `HEAD` links exactly the sentinels and the free blocks, in address
order, and ends with a null `next`. -/
structure Layout (s : Pool) (bs : List Blk) : Prop where
  head_pos : 0 < s.HEAD
  head_al : s.HEAD % 16 = 0
  head_tail : s.HEAD + 32 ≤ s.TAIL
  tail_top : s.TAIL + 16 ≤ UINTPTR
  span : s.TAIL + 16 - s.HEAD < UINT32
  tiles : Tiles s.HEAD bs (s.TAIL + 16)
  tail_mem : ∃ b ∈ bs, b.addr = s.TAIL
  ok : ∀ b ∈ bs, BlkOk s.HEAD s.TAIL b
  sizes : ∀ b ∈ bs, (s.mem b.addr).size = b.size
  links : Seg s.mem s.HEAD (nodes bs) 0
  asserts : s.asserts_ok = true

/-- The recorded live allocations are exactly the handed-out blocks. -/
def LiveRel (live : List (Nat × Nat)) (bs : List Blk) : Prop :=
  ∀ p n, (p, n) ∈ live ↔ ∃ b ∈ bs, b.kind = Kind.live n ∧ b.addr + 16 = p

/-- Pool states reached under the contract: `mempool_init` succeeds on
16-aligned storage that fits the address space; then `mempool_alloc` is called
with 32-bit sizes whose required size does not wrap, and `mempool_free` is
called on pointers that `mempool_alloc` returned and that were not freed
since.  The second index records the live allocations as pairs of the pointer
returned and the size asked for. -/
inductive Reachable (m0 : Mem) (storage size : Nat) : Pool → List (Nat × Nat) → Prop
  | init {s : Pool} :
      storage % MAX_ALIGN = 0 → size < UINT32 → storage + size ≤ UINTPTR →
      mempool_init (fresh m0) storage size = (MEMPOOL_SUCCESS, s) →
      Reachable m0 storage size s []
  | alloc {s s1 : Pool} {live : List (Nat × Nat)} {n p : Nat} :
      Reachable m0 storage size s live →
      n < UINT32 → ALIGN_UP n + MEM_BLOCK_ADMIN_SIZE < UINT32 →
      AllocReturns s n p s1 →
      Reachable m0 storage size s1 (if p = 0 then live else (p, n) :: live)
  | free {s s1 : Pool} {live : List (Nat × Nat)} {p n : Nat} {st : mempool_status_t} :
      Reachable m0 storage size s live →
      (p, n) ∈ live → FreeReturns s p st s1 →
      Reachable m0 storage size s1 (live.filter (fun x => decide (x.1 ≠ p)))

/-- The blocks that replace the free block `c` when it serves a request of `n`
bytes with required size `req`: the handed-out part and, if at least
`MIN_MEM_BLOCK_SIZE` bytes are left, the free remainder. -/
def alloc_blocks (req n : Nat) (c : Blk) : List Blk :=
  if req + 32 ≤ c.size then
    [⟨c.addr, req, Kind.live n⟩, ⟨c.addr + req, c.size - req, Kind.free⟩]
  else [⟨c.addr, c.size, Kind.live n⟩]

/-- The state after lines 160-161 of `freememblocklist_insert`. -/
def link_block (s : Pool) (previous block current : Nat) : Pool :=
  { s with mem := set_next (set_next s.mem previous block) block current }

/-- One half of `coalesce_mem_blocks`: test two neighbours of the list and
merge them if the test holds (lines 121-125, and again lines 130-133). -/
def coalesce_step (s : Pool) (f1 f2 : Nat) : Pool :=
  if (memblock_check_coalesce s f1 f2).1 then
    memblock_coalesce (memblock_check_coalesce s f1 f2).2 f1 f2
  else (memblock_check_coalesce s f1 f2).2

/-- What holds in every state reached under the contract. -/
structure Good (storage size : Nat) (s : Pool) (live : List (Nat × Nat)) (bs : List Blk) :
    Prop where
  layout : Layout s bs
  noadj : NoAdjFree bs
  rel : LiveRel live bs
  nodup : (live.map Prod.fst).Nodup
  head_eq : s.HEAD = storage
  tail_eq : s.TAIL = storage + size / 16 * 16 - 16

/-- The pool after `mempool_alloc(n)` in state `s`, computed with the given fuel. -/
def alloc_state (fuel : Nat) (s : Pool) (n : Nat) : Pool :=
  ((mempool_alloc fuel s n).map Prod.snd).getD s

/-- The pool after `mempool_free(p)` in state `s`, computed with the given fuel. -/
def free_state (fuel : Nat) (s : Pool) (p : Nat) : Pool :=
  ((mempool_free fuel s p).map Prod.snd).getD s

/-- The pool of `test.c` after `mempool_init`: 2000 zeroed bytes, placed at address 4096. -/
def test_pool : Pool := (mempool_init (fresh zero_mem) 4096 2000).2

/-- A run of successful allocations: `mempool_alloc` is called with the sizes
`ns` in turn, and each call returns the matching non-null pointer of `ps`. -/
inductive AllocAll : Pool → List Nat → List Nat → Pool → Prop
  | nil (s : Pool) : AllocAll s [] [] s
  | cons {s s1 s2 : Pool} {n p : Nat} {ns ps : List Nat} :
      AllocReturns s n p s1 → p ≠ 0 → AllocAll s1 ns ps s2 →
      AllocAll s (n :: ns) (p :: ps) s2

/-- A run of frees: `mempool_free` is called on the pointers `ps` in turn, and
each call returns `MEMPOOL_SUCCESS`. -/
inductive FreeAll : Pool → List Nat → Pool → Prop
  | nil (s : Pool) : FreeAll s [] s
  | cons {s s1 s2 : Pool} {p : Nat} {ps : List Nat} :
      FreeReturns s p MEMPOOL_SUCCESS s1 → FreeAll s1 ps s2 → FreeAll s (p :: ps) s2

/-- Sum over the free blocks `l` of their payload capacity, the `size` field
less the header. -/
def free_payload (s : Pool) (l : List Nat) : Nat :=
  (l.map (fun f => (s.mem f).size - MEM_BLOCK_ADMIN_SIZE)).sum

/-- Sum of the sizes asked for by the live allocations. -/
def requested (live : List (Nat × Nat)) : Nat :=
  (live.map Prod.snd).sum

/-- Sum over the free blocks `l` of their `size` field. -/
def free_sizes (s : Pool) (l : List Nat) : Nat :=
  (l.map (fun f => (s.mem f).size)).sum

/-- Sum over the live allocations of the `size` field of the block behind the
pointer handed out. -/
def live_sizes (s : Pool) (live : List (Nat × Nat)) : Nat :=
  (live.map (fun x => (s.mem (x.1 - MEM_BLOCK_ADMIN_SIZE)).size)).sum

/-- How a call ends over a memory of which only part may be read: it reads a
header at an address that may not be read, or it comes back with a result. -/
inductive Outcome (α : Type) where
  | fault (addr : Nat)
  | ret (r : α)

/-- Function `mempool_free` (lines 204-227) with the reads of its range test
made explicit.  Line 218 reads `HEAD->size`; line 219 reads `block->size` when
the test of line 218 is false, and at that point nothing bounds `block` from
above.  A read of a header for which `readable` is false ends the call; when
both reads are allowed the call goes on as `mempool_free` does. -/
def mempool_free_mapped (readable : Nat → Bool) (fuel : Nat) (s : Pool) (loc : Nat) :
    Outcome (Option (mempool_status_t × Pool)) :=
  if loc = 0 ∨ loc % MAX_ALIGN ≠ 0 then
    Outcome.ret (some (mempool_status_t.MEMPOOL_INVALID_PARAM, s))
  else
    let block := uptr_sub loc MEM_BLOCK_ADMIN_SIZE
    if readable s.HEAD = false then Outcome.fault s.HEAD
    else if block < uptr_add s.HEAD (s.mem s.HEAD).size then
      Outcome.ret (some (mempool_status_t.MEMPOOL_INVALID_PARAM, s))
    else if readable block = false then Outcome.fault block
    else if uptr_add block (s.mem block).size > s.TAIL then
      Outcome.ret (some (mempool_status_t.MEMPOOL_INVALID_PARAM, s))
    else Outcome.ret (freememblocklist_insert fuel s block)

/-! ## Basic facts -/

@[simp] theorem MAX_ALIGN_eq : MAX_ALIGN = 16 := rfl

@[simp] theorem MEM_BLOCK_ADMIN_SIZE_eq : MEM_BLOCK_ADMIN_SIZE = 16 := by decide

@[simp] theorem MIN_ALLOC_SIZE_eq : MIN_ALLOC_SIZE = 16 := rfl

@[simp] theorem MIN_MEM_BLOCK_SIZE_eq : MIN_MEM_BLOCK_SIZE = 32 := by decide

@[simp] theorem set_size_size (m : Mem) (a v x : Nat) :
    (set_size m a v x).size = if x = a then v else (m x).size := by
  unfold set_size; split <;> rfl

@[simp] theorem set_size_next (m : Mem) (a v x : Nat) :
    (set_size m a v x).next = (m x).next := by
  unfold set_size; split <;> rfl

@[simp] theorem set_next_next (m : Mem) (a v x : Nat) :
    (set_next m a v x).next = if x = a then v else (m x).next := by
  unfold set_next; split <;> rfl

@[simp] theorem set_next_size (m : Mem) (a v x : Nat) :
    (set_next m a v x).size = (m x).size := by
  unfold set_next; split <;> rfl

@[simp] theorem my_assert_mem (s : Pool) (c : Bool) : (my_assert s c).mem = s.mem := rfl

@[simp] theorem my_assert_HEAD (s : Pool) (c : Bool) : (my_assert s c).HEAD = s.HEAD := rfl

@[simp] theorem my_assert_TAIL (s : Pool) (c : Bool) : (my_assert s c).TAIL = s.TAIL := rfl

@[simp] theorem my_assert_ok (s : Pool) (c : Bool) :
    (my_assert s c).asserts_ok = (s.asserts_ok && c) := rfl

theorem ALIGN_UP_eq (n : Nat) (h : n < UINT32) : ALIGN_UP n = (n + 15) / 16 * 16 := by
  simp only [ALIGN_UP, uptr_add, UINTPTR, MAX_ALIGN, UINT32] at *
  omega

theorem ALIGN_DOWN_eq (n : Nat) : ALIGN_DOWN n = n / 16 * 16 := rfl

/-! ## Fuel -/

theorem get_memblock_loop_mono (req : Nat) :
    ∀ (fuel : Nat) (s : Pool) (previous current : Nat) (r : Nat × Pool),
      get_memblock_loop req fuel s previous current = some r →
      ∀ fuel1, fuel ≤ fuel1 → get_memblock_loop req fuel1 s previous current = some r := by
  intro fuel
  induction fuel with
  | zero => intro s previous current r h; simp [get_memblock_loop] at h
  | succ k ih =>
    intro s previous current r h fuel1 hle
    obtain ⟨j, rfl⟩ : ∃ j, fuel1 = j + 1 := ⟨fuel1 - 1, by omega⟩
    simp only [get_memblock_loop] at h ⊢
    split_ifs at h ⊢ with h1 h2
    · exact h
    · exact h
    · exact ih _ _ _ _ h j (by omega)

theorem insert_loop_mono (block : Nat) :
    ∀ (fuel : Nat) (s : Pool) (previous current : Nat) (r : mempool_status_t × Pool),
      insert_loop block fuel s previous current = some r →
      ∀ fuel1, fuel ≤ fuel1 → insert_loop block fuel1 s previous current = some r := by
  intro fuel
  induction fuel with
  | zero => intro s previous current r h; simp [insert_loop] at h
  | succ k ih =>
    intro s previous current r h fuel1 hle
    obtain ⟨j, rfl⟩ : ∃ j, fuel1 = j + 1 := ⟨fuel1 - 1, by omega⟩
    simp only [insert_loop] at h ⊢
    split_ifs at h ⊢ with h1 h2
    · exact h
    · exact ih _ _ _ _ h j (by omega)
    · exact h

theorem mempool_alloc_mono {fuel : Nat} {s : Pool} {n : Nat} {r : Nat × Pool}
    (h : mempool_alloc fuel s n = some r) {fuel1 : Nat} (hle : fuel ≤ fuel1) :
    mempool_alloc fuel1 s n = some r := by
  simp only [mempool_alloc, freememblocklist_get_memblock] at h ⊢
  split_ifs at h ⊢ with h0
  · exact h
  · cases hg : get_memblock_loop (to_u32 (uptr_add (ALIGN_UP n) MEM_BLOCK_ADMIN_SIZE)) fuel s
        s.HEAD (s.mem s.HEAD).next with
    | none => rw [hg] at h; simp at h
    | some r0 =>
      rw [get_memblock_loop_mono _ _ _ _ _ _ hg fuel1 hle]
      rw [hg] at h
      exact h

theorem mempool_free_mono {fuel : Nat} {s : Pool} {loc : Nat} {r : mempool_status_t × Pool}
    (h : mempool_free fuel s loc = some r) {fuel1 : Nat} (hle : fuel ≤ fuel1) :
    mempool_free fuel1 s loc = some r := by
  simp only [mempool_free, freememblocklist_insert] at h ⊢
  split_ifs at h ⊢ with h0 h1
  · exact h
  · exact h
  · exact insert_loop_mono _ _ _ _ _ _ h fuel1 hle

/-- The result of `mempool_alloc` does not depend on the fuel. -/
theorem AllocReturns_unique {s : Pool} {n p p1 : Nat} {s1 s2 : Pool}
    (h1 : AllocReturns s n p s1) (h2 : AllocReturns s n p1 s2) : p = p1 ∧ s1 = s2 := by
  obtain ⟨f1, h1⟩ := h1
  obtain ⟨f2, h2⟩ := h2
  have a := mempool_alloc_mono h1 (Nat.le_max_left f1 f2)
  have b := mempool_alloc_mono h2 (Nat.le_max_right f1 f2)
  rw [a] at b
  simpa using b

/-- The result of `mempool_free` does not depend on the fuel. -/
theorem FreeReturns_unique {s : Pool} {loc : Nat} {st st1 : mempool_status_t} {s1 s2 : Pool}
    (h1 : FreeReturns s loc st s1) (h2 : FreeReturns s loc st1 s2) : st = st1 ∧ s1 = s2 := by
  obtain ⟨f1, h1⟩ := h1
  obtain ⟨f2, h2⟩ := h2
  have a := mempool_free_mono h1 (Nat.le_max_left f1 f2)
  have b := mempool_free_mono h2 (Nat.le_max_right f1 f2)
  rw [a] at b
  simpa using b

@[simp] theorem init_mem_block_admin_fst (s : Pool) (start avail : Nat) :
    (init_mem_block_admin s start avail).1 = ALIGN_ADDR_UP start := rfl

@[simp] theorem init_mem_block_admin_HEAD (s : Pool) (start avail : Nat) :
    (init_mem_block_admin s start avail).2.HEAD = s.HEAD := rfl

@[simp] theorem init_mem_block_admin_TAIL (s : Pool) (start avail : Nat) :
    (init_mem_block_admin s start avail).2.TAIL = s.TAIL := rfl

@[simp] theorem init_mem_block_admin_mem (s : Pool) (start avail : Nat) :
    (init_mem_block_admin s start avail).2.mem =
      set_next (set_size s.mem (ALIGN_ADDR_UP start)
        (u32_sub avail (to_u32 (uptr_sub (ALIGN_ADDR_UP start) start)))) (ALIGN_ADDR_UP start) 0 := rfl

@[simp] theorem init_mem_block_admin_ok (s : Pool) (start avail : Nat) :
    (init_mem_block_admin s start avail).2.asserts_ok =
      (s.asserts_ok && decide (avail > to_u32 (uptr_sub (ALIGN_ADDR_UP start) start))) := rfl

theorem mempool_init_aligned {m0 : Mem} {storage S : Nat} {s : Pool}
    (halign : storage % MAX_ALIGN = 0) (hS : S < UINT32) (hfit : storage + S ≤ UINTPTR)
    (hinit : mempool_init (fresh m0) storage S = (MEMPOOL_SUCCESS, s)) :
    48 ≤ S ∧ storage ≠ 0 ∧ s.HEAD = storage ∧ s.TAIL = storage + S / 16 * 16 - 16 ∧
    s.asserts_ok = true ∧
    (∀ x, (s.mem x).size =
      if x = storage + 16 then S / 16 * 16 - 32
      else if x = storage + S / 16 * 16 - 16 then 16
      else if x = storage then 16 else (m0 x).size) ∧
    (∀ x, (s.mem x).next =
      if x = storage + 16 then storage + S / 16 * 16 - 16
      else if x = storage then storage + 16
      else if x = storage + S / 16 * 16 - 16 then 0 else (m0 x).next) := by
  simp only [mempool_init, to_u32, MEM_BLOCK_ADMIN_SIZE_eq, MIN_ALLOC_SIZE_eq] at hinit
  split_ifs at hinit with h0
  · simp at hinit
  · simp only [Prod.mk.injEq, true_and] at hinit
    simp only [UINT32, not_or, Nat.reduceMul, Nat.reduceAdd, Nat.reduceMod, not_lt] at h0 
    obtain ⟨h0, h48⟩ := h0
    simp only [MAX_ALIGN_eq] at halign
    have hH : ALIGN_ADDR_UP storage = storage := by
      simp only [ALIGN_ADDR_UP, ALIGN_UP, uptr_add, UINTPTR, MAX_ALIGN_eq, UINT32] at *; omega
    have hT0 : ALIGN_ADDR_DOWN (uptr_sub (uptr_add storage S) 16) = storage + S / 16 * 16 - 16 := by
      simp only [ALIGN_ADDR_DOWN, ALIGN_DOWN, uptr_add, uptr_sub, UINTPTR, MAX_ALIGN_eq, UINT32] at *; omega
    have hT : ALIGN_ADDR_UP (storage + S / 16 * 16 - 16) = storage + S / 16 * 16 - 16 := by
      simp only [ALIGN_ADDR_UP, ALIGN_UP, uptr_add, UINTPTR, MAX_ALIGN_eq, UINT32] at *; omega
    have hF0 : uptr_add storage 16 = storage + 16 := by
      simp only [uptr_add, UINTPTR, UINT32] at *; omega
    have hF : ALIGN_ADDR_UP (storage + 16) = storage + 16 := by
      simp only [ALIGN_ADDR_UP, ALIGN_UP, uptr_add, UINTPTR, MAX_ALIGN_eq, UINT32] at *; omega
    subst hinit
    simp only [init_mem_block_admin_fst, init_mem_block_admin_HEAD, init_mem_block_admin_TAIL,
      init_mem_block_admin_mem, init_mem_block_admin_ok, hH, hT0, hT, hF0, hF, fresh,
      set_next_next, set_next_size, set_size_size, set_size_next]
    have hne : storage ≠ storage + S / 16 * 16 - 16 := by omega
    have e1 : uptr_sub storage storage = 0 := by
      simp only [uptr_sub, UINTPTR, UINT32] at *; omega
    have e2 : uptr_sub (storage + S / 16 * 16 - 16) (storage + S / 16 * 16 - 16) = 0 := by
      simp only [uptr_sub, UINTPTR, UINT32] at *; omega
    have e3 : uptr_sub (storage + 16) (storage + 16) = 0 := by
      simp only [uptr_sub, UINTPTR, UINT32] at *; omega
    have e4 : u32_sub 16 (to_u32 0) = 16 := by decide
    have e5 : uptr_sub (storage + S / 16 * 16 - 16) (storage + 16) % UINT32 = S / 16 * 16 - 32 := by
      simp only [uptr_sub, UINTPTR, UINT32] at *; omega
    have e6 : u32_sub (S / 16 * 16 - 32) (to_u32 0) = S / 16 * 16 - 32 := by
      simp only [u32_sub, to_u32, UINTPTR, UINT32] at *; omega
    have e7 : to_u32 0 = 0 := by decide
    simp only [if_neg hne, if_true, e1, e2, e3, e4, hF0, e5, e6]
    refine ⟨h48, h0, trivial, trivial, ?_, ?_, ?_⟩
    · simp only [e7]
      have : 0 < S / 16 * 16 - 32 := by omega
      simp [this]
    · intro x; trivial
    · intro x
      split_ifs <;> rfl

theorem last_of_concat (p : Nat) (l : List Nat) (x : Nat) : last_of p (l ++ [x]) = x := by
  induction l generalizing p with
  | nil => rfl
  | cons y l ih => exact ih y

@[simp] theorem Seg_nil (m : Mem) (a e : Nat) : Seg m a [] e ↔ a = e := Iff.rfl

@[simp] theorem Seg_cons (m : Mem) (a x : Nat) (l : List Nat) (e : Nat) :
    Seg m a (x :: l) e ↔ a = x ∧ x ≠ 0 ∧ Seg m (m x).next l e := Iff.rfl

theorem Seg_append (m : Mem) (l1 l2 : List Nat) (a e : Nat) :
    Seg m a (l1 ++ l2) e ↔ ∃ mid, Seg m a l1 mid ∧ Seg m mid l2 e := by
  induction l1 generalizing a with
  | nil => simp
  | cons x l ih =>
    simp only [List.cons_append, Seg_cons, ih]
    constructor
    · rintro ⟨h1, h2, mid, h3, h4⟩; exact ⟨mid, ⟨h1, h2, h3⟩, h4⟩
    · rintro ⟨mid, ⟨h1, h2, h3⟩, h4⟩; exact ⟨h1, h2, mid, h3, h4⟩

theorem Seg_congr {m m1 : Mem} {l : List Nat} (h : ∀ x ∈ l, (m1 x).next = (m x).next)
    {a e : Nat} : Seg m a l e → Seg m1 a l e := by
  induction l generalizing a with
  | nil => exact id
  | cons x l ih =>
    intro hs
    obtain ⟨h1, h2, h3⟩ := hs
    refine ⟨h1, h2, ?_⟩
    rw [h x (List.mem_cons_self _ _)]
    exact ih (fun y hy => h y (List.mem_cons_of_mem _ hy)) h3

theorem Seg_ne_zero {m : Mem} {l : List Nat} {a e : Nat} (h : Seg m a l e) :
    ∀ x ∈ l, x ≠ 0 := by
  induction l generalizing a with
  | nil => simp
  | cons x l ih =>
    obtain ⟨_, h2, h3⟩ := h
    intro y hy
    rcases List.mem_cons.1 hy with rfl | hy
    · exact h2
    · exact ih h3 y hy

theorem get_memblock_loop_found (req : Nat) (s : Pool) (b : Nat) (l2 : List Nat) (e : Nat) :
    ∀ (l1 : List Nat) (previous current : Nat),
      Seg s.mem current (l1 ++ b :: l2) e →
      (∀ x ∈ l1, (s.mem x).size < req) → req ≤ (s.mem b).size →
      get_memblock_loop req (l1.length + 1) s previous current =
        some (b, take_memblock s req (last_of previous l1) b) := by
  intro l1
  induction l1 with
  | nil =>
    intro previous current hseg _ hb
    obtain ⟨h1, h2, _⟩ := hseg
    subst h1
    simp [get_memblock_loop, h2, hb, last_of]
  | cons x l ih =>
    intro previous current hseg hsmall hb
    obtain ⟨h1, h2, h3⟩ := hseg
    subst h1
    have hx : ¬ (s.mem current).size ≥ req := by
      have := hsmall current (List.mem_cons_self _ _); omega
    simp only [List.length_cons, get_memblock_loop, if_neg h2, if_neg hx, last_of]
    exact ih current _ h3 (fun y hy => hsmall y (List.mem_cons_of_mem _ hy)) hb

theorem get_memblock_loop_none (req : Nat) (s : Pool) :
    ∀ (l : List Nat) (previous current : Nat),
      Seg s.mem current l 0 → (∀ x ∈ l, (s.mem x).size < req) →
      get_memblock_loop req (l.length + 1) s previous current = some (0, s) := by
  intro l
  induction l with
  | nil =>
    intro previous current hseg _
    simp only [Seg] at hseg
    subst hseg
    simp [get_memblock_loop]
  | cons x l ih =>
    intro previous current hseg hsmall
    obtain ⟨h1, h2, h3⟩ := hseg
    subst h1
    have hx : ¬ (s.mem current).size ≥ req := by
      have := hsmall current (List.mem_cons_self _ _); omega
    simp only [List.length_cons, get_memblock_loop, if_neg h2, if_neg hx]
    exact ih current _ h3 (fun y hy => hsmall y (List.mem_cons_of_mem _ hy))

/-- Either no element satisfies `P`, or the list splits at the first one that does. -/
theorem first_split {α : Type} (P : α → Prop) [DecidablePred P] (l : List α) :
    (∀ x ∈ l, ¬ P x) ∨ ∃ l1 b l2, l = l1 ++ b :: l2 ∧ (∀ x ∈ l1, ¬ P x) ∧ P b := by
  induction l with
  | nil => left; simp
  | cons a l ih =>
    by_cases ha : P a
    · right; exact ⟨[], a, l, rfl, by simp, ha⟩
    · rcases ih with h | ⟨l1, b, l2, rfl, h1, h2⟩
      · left
        intro x hx
        rcases List.mem_cons.1 hx with rfl | hx
        · exact ha
        · exact h x hx
      · right
        refine ⟨a :: l1, b, l2, rfl, ?_, h2⟩
        intro x hx
        rcases List.mem_cons.1 hx with rfl | hx
        · exact ha
        · exact h1 x hx

theorem req_size_eq {n : Nat} (hreq : ALIGN_UP n + MEM_BLOCK_ADMIN_SIZE < UINT32) :
    to_u32 (uptr_add (ALIGN_UP n) MEM_BLOCK_ADMIN_SIZE) = ALIGN_UP n + 16 := by
  simp only [to_u32, uptr_add, UINTPTR, MEM_BLOCK_ADMIN_SIZE_eq, UINT32] at *
  omega

theorem ALIGN_UP_pos {n : Nat} (hn : 0 < n) (hn32 : n < UINT32) : 16 ≤ ALIGN_UP n := by
  rw [ALIGN_UP_eq n hn32]; omega

theorem mempool_alloc_found {s : Pool} {n : Nat} {l1 l2 : List Nat} {b e : Nat}
    (hn : 0 < n) (hreq : ALIGN_UP n + MEM_BLOCK_ADMIN_SIZE < UINT32)
    (hseg : Seg s.mem (s.mem s.HEAD).next (l1 ++ b :: l2) e)
    (hsmall : ∀ x ∈ l1, (s.mem x).size < ALIGN_UP n + 16)
    (hb : ALIGN_UP n + 16 ≤ (s.mem b).size) (hb64 : b + 16 < UINTPTR) :
    mempool_alloc (l1.length + 1) s n =
      some (b + 16, take_memblock s (ALIGN_UP n + 16) (last_of s.HEAD l1) b) := by
  have hb0 : b ≠ 0 := Seg_ne_zero hseg b (by simp)
  have hadd : uptr_add b 16 = b + 16 := by
    simp only [uptr_add, UINTPTR] at *; omega
  simp only [mempool_alloc, freememblocklist_get_memblock, req_size_eq hreq, if_neg (by omega : ¬ n = 0),
    get_memblock_loop_found _ s b l2 e l1 _ _ hseg hsmall hb]
  simp [hb0, hadd]

theorem mempool_alloc_none {s : Pool} {n : Nat} {l : List Nat}
    (hn : 0 < n) (hreq : ALIGN_UP n + MEM_BLOCK_ADMIN_SIZE < UINT32)
    (hseg : Seg s.mem (s.mem s.HEAD).next l 0)
    (hsmall : ∀ x ∈ l, (s.mem x).size < ALIGN_UP n + 16) :
    mempool_alloc (l.length + 1) s n = some (0, s) := by
  simp only [mempool_alloc, freememblocklist_get_memblock, req_size_eq hreq, if_neg (by omega : ¬ n = 0),
    get_memblock_loop_none _ s l _ _ hseg hsmall]
  simp

/-- C7 (first fit). In a well-formed pool state with free blocks `l`, and for a
request `n > 0` whose required size `ALIGN_UP n + MEM_BLOCK_ADMIN_SIZE` does not
wrap, `mempool_alloc n` returns; it returns `NULL` exactly when no free block
has at least the required size, and otherwise returns `b + MEM_BLOCK_ADMIN_SIZE`
for the first block `b` in list order that is large enough, which is also the
large-enough block of lowest address. -/
theorem C7_first_fit (s : Pool) (l : List Nat) (n : Nat)
    (hwf : WellFormed s l) (hn : 0 < n) (hn32 : n < UINT32)
    (hreq : ALIGN_UP n + MEM_BLOCK_ADMIN_SIZE < UINT32) :
    (∃ p s1, AllocReturns s n p s1) ∧
    ∀ p s1, AllocReturns s n p s1 →
      (p = 0 ↔ ∀ b ∈ l, (s.mem b).size < ALIGN_UP n + MEM_BLOCK_ADMIN_SIZE) ∧
      (p ≠ 0 → ∃ l1 b l2, l = l1 ++ b :: l2 ∧ p = b + MEM_BLOCK_ADMIN_SIZE ∧
          ALIGN_UP n + MEM_BLOCK_ADMIN_SIZE ≤ (s.mem b).size ∧
          (∀ x ∈ l1, (s.mem x).size < ALIGN_UP n + MEM_BLOCK_ADMIN_SIZE) ∧
          (∀ x ∈ l, ALIGN_UP n + MEM_BLOCK_ADMIN_SIZE ≤ (s.mem x).size → b ≤ x)) := by
  obtain ⟨hH, hseg, hsort, htail, h64⟩ := hwf
  simp only [MEM_BLOCK_ADMIN_SIZE_eq] at htail h64 ⊢
  have hup := ALIGN_UP_pos hn hn32
  rcases first_split (fun b => ALIGN_UP n + 16 ≤ (s.mem b).size) l with hnone | ⟨l1, b, l2, rfl, h1, hb⟩
  · -- no free block is large enough
    have hsmall : ∀ x ∈ l ++ [s.TAIL], (s.mem x).size < ALIGN_UP n + 16 := by
      intro x hx
      rcases List.mem_append.1 hx with hx | hx
      · have := hnone x hx; omega
      · simp only [List.mem_singleton] at hx; subst hx; omega
    have hret : AllocReturns s n 0 s := ⟨_, mempool_alloc_none hn hreq hseg hsmall⟩
    refine ⟨⟨0, s, hret⟩, ?_⟩
    intro p s1 hp
    obtain ⟨rfl, rfl⟩ := AllocReturns_unique hret hp
    refine ⟨?_, fun h => absurd rfl h⟩
    simp only [true_iff]
    intro x hx
    have := hnone x hx; omega
  · -- the first large-enough block is b
    have hsmall : ∀ x ∈ l1, (s.mem x).size < ALIGN_UP n + 16 := by
      intro x hx
      have := h1 x hx; omega
    have hsort2 := hsort
    simp only [List.Sorted, List.pairwise_cons, List.pairwise_append, List.mem_append,
      List.mem_cons, List.mem_singleton, List.append_assoc, List.cons_append] at hsort2
    have hbT : b < s.TAIL := hsort2.2.2.1.1 _ (Or.inr (Or.inl rfl))
    have hlow : ∀ x ∈ l2, b < x := fun x hx => hsort2.2.2.1.1 x (Or.inl hx)
    rw [List.append_assoc] at hseg
    have hret := mempool_alloc_found hn hreq hseg hsmall hb (by omega)
    refine ⟨⟨_, _, _, hret⟩, ?_⟩
    intro p s1 hp
    obtain ⟨rfl, rfl⟩ := AllocReturns_unique ⟨_, hret⟩ hp
    refine ⟨?_, fun _ => ⟨l1, b, l2, rfl, rfl, hb, hsmall, ?_⟩⟩
    · constructor
      · intro h; omega
      · intro h
        have := h b (by simp)
        omega
    · intro x hx hfit
      rcases List.mem_append.1 hx with hx | hx
      · have := hsmall x hx; omega
      · rcases List.mem_cons.1 hx with rfl | hx
        · exact le_refl _
        · exact le_of_lt (hlow x hx)

/-- Witness for C7: the pool right after `mempool_init` on a 2000-byte arena at
address 4096 is well formed with the single free block 4112, and a request of
100 bytes is served from it. -/
theorem C7_first_fit_witness :
    WellFormed (mempool_init (fresh zero_mem) 4096 2000).2 [4112] ∧
    ((∃ p s1, AllocReturns (mempool_init (fresh zero_mem) 4096 2000).2 100 p s1) ∧
    ∀ p s1, AllocReturns (mempool_init (fresh zero_mem) 4096 2000).2 100 p s1 →
      (p = 0 ↔ ∀ b ∈ [4112], ((mempool_init (fresh zero_mem) 4096 2000).2.mem b).size
          < ALIGN_UP 100 + MEM_BLOCK_ADMIN_SIZE) ∧
      (p ≠ 0 → ∃ l1 b l2, [4112] = l1 ++ b :: l2 ∧ p = b + MEM_BLOCK_ADMIN_SIZE ∧
          ALIGN_UP 100 + MEM_BLOCK_ADMIN_SIZE ≤ ((mempool_init (fresh zero_mem) 4096 2000).2.mem b).size ∧
          (∀ x ∈ l1, ((mempool_init (fresh zero_mem) 4096 2000).2.mem x).size
            < ALIGN_UP 100 + MEM_BLOCK_ADMIN_SIZE) ∧
          (∀ x ∈ [4112], ALIGN_UP 100 + MEM_BLOCK_ADMIN_SIZE ≤
            ((mempool_init (fresh zero_mem) 4096 2000).2.mem x).size → b ≤ x))) :=
  ⟨by decide, C7_first_fit _ [4112] 100 (by decide) (by decide) (by decide) (by decide)⟩

/-- C8 (maximum allocatable size). On 16-aligned storage, for every size `S`
accepted by `mempool_init`, the first `mempool_alloc n` after it (with `n > 0`
and a required size that does not wrap) returns, and returns a non-null
pointer exactly when `n ≤ ALIGN_DOWN (S - 3 * MEM_BLOCK_ADMIN_SIZE)`.  In
particular a request for `S` itself (when its required size does not wrap)
returns `NULL`, and when the bound is positive a request for the bound returns
a non-null pointer. -/
theorem C8_max_allocatable (m0 : Mem) (storage S : Nat) (s : Pool)
    (halign : storage % MAX_ALIGN = 0) (hS : S < UINT32) (hfit : storage + S ≤ UINTPTR)
    (hinit : mempool_init (fresh m0) storage S = (MEMPOOL_SUCCESS, s)) :
    (∀ n, 0 < n → n < UINT32 → ALIGN_UP n + MEM_BLOCK_ADMIN_SIZE < UINT32 →
      (∃ p s1, AllocReturns s n p s1) ∧
      ∀ p s1, AllocReturns s n p s1 →
        (p ≠ 0 ↔ n ≤ ALIGN_DOWN (S - 3 * MEM_BLOCK_ADMIN_SIZE))) ∧
    (ALIGN_UP S + MEM_BLOCK_ADMIN_SIZE < UINT32 → ∃ s1, AllocReturns s S 0 s1) ∧
    (0 < ALIGN_DOWN (S - 3 * MEM_BLOCK_ADMIN_SIZE) →
      ∃ p s1, AllocReturns s (ALIGN_DOWN (S - 3 * MEM_BLOCK_ADMIN_SIZE)) p s1 ∧ p ≠ 0) := by
  obtain ⟨h48, h0, hH, hT, -, hsz, hnx⟩ := mempool_init_aligned halign hS hfit hinit
  simp only [MAX_ALIGN_eq] at halign
  have key : ∀ n, 0 < n → n < UINT32 → ALIGN_UP n + MEM_BLOCK_ADMIN_SIZE < UINT32 →
      ∃ p s1, AllocReturns s n p s1 ∧ (p ≠ 0 ↔ n ≤ ALIGN_DOWN (S - 3 * MEM_BLOCK_ADMIN_SIZE)) := by
    intro n hn hn32 hreq
    have hseg : Seg s.mem (s.mem s.HEAD).next ([] ++ (storage + 16) :: [s.TAIL]) 0 := by
      simp only [List.nil_append, Seg_cons, Seg_nil, hnx, hH, hT]
      simp only [UINT32, UINTPTR] at *
      refine ⟨?_, ?_, ?_, ?_, ?_⟩
      · split_ifs <;> omega
      · omega
      · split_ifs <;> omega
      · omega
      · split_ifs <;> omega
    have hup := ALIGN_UP_eq n hn32
    by_cases hfits : ALIGN_UP n + 16 ≤ (s.mem (storage + 16)).size
    · refine ⟨_, _, ⟨_, mempool_alloc_found hn hreq hseg (by simp) hfits ?_⟩, ?_⟩
      · simp only [UINT32, UINTPTR] at *; omega
      · rw [hsz] at hfits
        simp only [if_true, ALIGN_DOWN_eq, MEM_BLOCK_ADMIN_SIZE_eq] at hfits ⊢
        omega
    · refine ⟨0, s, ⟨_, mempool_alloc_none hn hreq hseg ?_⟩, ?_⟩
      · intro x hx
        simp only [List.nil_append, List.mem_cons, List.mem_singleton, List.not_mem_nil,
          or_false] at hx
        rcases hx with rfl | rfl
        · omega
        · rw [hsz, hT]
          simp only [UINT32, UINTPTR] at *
          split_ifs <;> omega
      · rw [hsz] at hfits
        simp only [if_true, ALIGN_DOWN_eq, MEM_BLOCK_ADMIN_SIZE_eq] at hfits ⊢
        omega
  refine ⟨?_, ?_, ?_⟩
  · intro n hn hn32 hreq
    obtain ⟨p, s1, hret, hiff⟩ := key n hn hn32 hreq
    refine ⟨⟨p, s1, hret⟩, ?_⟩
    intro p1 s2 hp
    obtain ⟨rfl, rfl⟩ := AllocReturns_unique hret hp
    exact hiff
  · intro hreq
    obtain ⟨p, s1, hret, hiff⟩ := key S (by omega) hS hreq
    have : p = 0 := by
      by_contra hp
      have := hiff.1 hp
      simp only [ALIGN_DOWN_eq, MEM_BLOCK_ADMIN_SIZE_eq] at this
      omega
    subst this
    exact ⟨s1, hret⟩
  · intro hpos
    have hb : ALIGN_DOWN (S - 3 * MEM_BLOCK_ADMIN_SIZE) < UINT32 := by
      simp only [ALIGN_DOWN_eq, MEM_BLOCK_ADMIN_SIZE_eq, UINT32] at *; omega
    have hreq : ALIGN_UP (ALIGN_DOWN (S - 3 * MEM_BLOCK_ADMIN_SIZE)) + MEM_BLOCK_ADMIN_SIZE
        < UINT32 := by
      rw [ALIGN_UP_eq _ hb]
      simp only [ALIGN_DOWN_eq, MEM_BLOCK_ADMIN_SIZE_eq, UINT32] at *; omega
    obtain ⟨p, s1, hret, hiff⟩ := key _ hpos hb hreq
    exact ⟨p, s1, hret, hiff.2 (le_refl _)⟩

/-- Witness for C8: the 2000-byte arena of the test program, placed at address
4096; the bound is 1952. -/
theorem C8_max_allocatable_witness :
    ALIGN_DOWN (2000 - 3 * MEM_BLOCK_ADMIN_SIZE) = 1952 ∧
    (∃ s1, AllocReturns (mempool_init (fresh zero_mem) 4096 2000).2 2000 0 s1) ∧
    (∃ p s1, AllocReturns (mempool_init (fresh zero_mem) 4096 2000).2 1952 p s1 ∧ p ≠ 0) :=
  have h := C8_max_allocatable zero_mem 4096 2000 (mempool_init (fresh zero_mem) 4096 2000).2
    (by decide) (by decide) (by decide) (Prod.ext (by decide) rfl)
  ⟨by decide, h.2.1 (by decide), h.2.2 (by decide)⟩

/-- C1 (bounds), evaluated where the code departs from it. On the 2000-byte
arena at address 4096, after a successful `mempool_init`, the request
`mempool_alloc 4294967295` has its required size wrap to 16 in `uint32_t`; the
call returns the non-null pointer 4128, and `[4128, 4128 + 4294967295)` is not
inside `[4096, 4096 + 2000)`. -/
theorem C1_alloc_wraps_out_of_arena :
    (mempool_init (fresh zero_mem) 4096 2000).1 = MEMPOOL_SUCCESS ∧
    to_u32 (uptr_add (ALIGN_UP 4294967295) MEM_BLOCK_ADMIN_SIZE) = 16 ∧
    (∃ s1, AllocReturns (mempool_init (fresh zero_mem) 4096 2000).2 4294967295 4128 s1) ∧
    ¬ InArena 4096 2000 4128 4294967295 :=
  ⟨by decide, by decide, ⟨_, 1, rfl⟩, by decide⟩

/-- C4 (freeing a live allocation succeeds), evaluated where the code departs
from it. On the 2000-byte arena at the unaligned address 4097, `mempool_init`
succeeds, `mempool_alloc 1920` returns 4144, and `mempool_free 4144`, called
right away on that live pointer, returns `MEMPOOL_INVALID_PARAM`: the block
header at 4128 records size 1967, which reaches past `TAIL = 6080`. -/
theorem C4_free_of_live_pointer_rejected :
    (mempool_init (fresh zero_mem) 4097 2000).1 = MEMPOOL_SUCCESS ∧
    ∃ s1, AllocReturns (mempool_init (fresh zero_mem) 4097 2000).2 1920 4144 s1 ∧
      (s1.mem 4128).size = 1967 ∧ s1.TAIL = 6080 ∧
      ∃ s2, FreeReturns s1 4144 MEMPOOL_INVALID_PARAM s2 :=
  ⟨by decide, _, ⟨1, rfl⟩, by decide, by decide, _, ⟨1, rfl⟩⟩

/-- C9 (minimum viable pool), evaluated where the code departs from it. For
16-aligned storage at address 4096 and size 48, whatever the memory holds
beforehand, `mempool_init` returns `MEMPOOL_SUCCESS` and links between `HEAD`
and `TAIL` a free block of size 16, smaller than `MIN_MEM_BLOCK_SIZE = 32`. -/
theorem C9_min_pool_holds_no_minimal_block (m0 : Mem) :
    (mempool_init (fresh m0) 4096 48).1 = MEMPOOL_SUCCESS ∧
    ((mempool_init (fresh m0) 4096 48).2.mem (mempool_init (fresh m0) 4096 48).2.HEAD).next = 4112 ∧
    ((mempool_init (fresh m0) 4096 48).2.mem 4112).next = (mempool_init (fresh m0) 4096 48).2.TAIL ∧
    ((mempool_init (fresh m0) 4096 48).2.mem 4112).size = 16 ∧
    16 < MIN_MEM_BLOCK_SIZE := by
  have h1 : (mempool_init (fresh m0) 4096 48).1 = MEMPOOL_SUCCESS := by
    simp [mempool_init, to_u32, UINT32]
  refine ⟨h1, ?_⟩
  generalize hs : (mempool_init (fresh m0) 4096 48).2 = s
  obtain ⟨-, -, hH, hT, -, hsz, hnx⟩ :=
    @mempool_init_aligned m0 4096 48 s (by decide) (by decide) (by decide) (Prod.ext h1 hs)
  refine ⟨?_, ?_, ?_, by decide⟩
  · rw [hnx, hH]; simp
  · rw [hnx, hT]; simp
  · rw [hsz]; simp

/-- C10 (init layout), evaluated where the code departs from it. On the
2000-byte arena at the unaligned address 4097, `mempool_init` succeeds with
`HEAD = 4112` and `TAIL = 6080`; the free block at `HEAD + 16 = 4128` gets size
`TAIL - (HEAD + HEAD->size) = 1967` because `HEAD->size` is 1, so it ends at
6095, inside the header of `TAIL`, instead of at `TAIL`. -/
theorem C10_free_block_overruns_TAIL :
    (mempool_init (fresh zero_mem) 4097 2000).1 = MEMPOOL_SUCCESS ∧
    (mempool_init (fresh zero_mem) 4097 2000).2.HEAD = ALIGN_ADDR_UP 4097 ∧
    (mempool_init (fresh zero_mem) 4097 2000).2.HEAD = 4112 ∧
    (mempool_init (fresh zero_mem) 4097 2000).2.TAIL = 6080 ∧
    ((mempool_init (fresh zero_mem) 4097 2000).2.mem 4112).size = 1 ∧
    ((mempool_init (fresh zero_mem) 4097 2000).2.mem 4112).next = 4128 ∧
    ((mempool_init (fresh zero_mem) 4097 2000).2.mem 4128).next = 6080 ∧
    ((mempool_init (fresh zero_mem) 4097 2000).2.mem 4128).size = 1967 ∧
    4128 + ((mempool_init (fresh zero_mem) 4097 2000).2.mem 4128).size ≠
      (mempool_init (fresh zero_mem) 4097 2000).2.TAIL := by
  decide

theorem ALIGN_UP_mod (a : Nat) : ALIGN_UP a % 16 = 0 := by
  simp only [ALIGN_UP, MAX_ALIGN_eq]; omega

theorem Closed_set_size {W : Nat → Prop} {m : Mem} (h : Closed W m) (x v : Nat) :
    Closed W (set_size m x v) := by
  intro a ha
  simpa using h a ha

theorem Closed_set_next {W : Nat → Prop} {m : Mem} (h : Closed W m) (x : Nat) {y : Nat}
    (hy : y = 0 ∨ W y) : Closed W (set_next m x y) := by
  intro a ha
  refine ⟨(h a ha).1, ?_⟩
  simp only [set_next_next]
  split_ifs
  · exact hy
  · exact (h a ha).2

theorem Closed_add {W : Nat → Prop} {m : Mem} (h : Closed W m) {x y : Nat}
    (hx : x % 16 = 0) (hy : y = 0 ∨ W y ∨ y = x) :
    Closed (fun a => W a ∨ a = x) (set_next m x y) := by
  intro a ha
  constructor
  · rcases ha with ha | rfl
    · exact (h a ha).1
    · exact hx
  · simp only [set_next_next]
    split_ifs with hax
    · rcases hy with hy | hy | hy
      · exact Or.inl hy
      · exact Or.inr (Or.inl hy)
      · exact Or.inr (Or.inr hy)
    · rcases ha with ha | ha
      · rcases (h a ha).2 with h0 | h1
        · exact Or.inl h0
        · exact Or.inr (Or.inl h1)
      · exact absurd ha hax

theorem Closed_init_mem_block_admin {W : Nat → Prop} {s : Pool} (h : Closed W s.mem)
    (start avail : Nat) :
    Closed (fun a => W a ∨ a = ALIGN_ADDR_UP start) (init_mem_block_admin s start avail).2.mem := by
  rw [init_mem_block_admin_mem]
  exact Closed_add (Closed_set_size h _ _) (ALIGN_UP_mod start) (Or.inl rfl)

theorem Closed_take_memblock {W : Nat → Prop} {s : Pool} (h : Closed W s.mem)
    (previous : Nat) {current : Nat} (hc : W current) (req : Nat) :
    ∃ W1 : Nat → Prop, (∀ a, W a → W1 a) ∧ Closed W1 (take_memblock s req previous current).mem := by
  simp only [take_memblock]
  split_ifs with hsplit
  · refine ⟨fun a => W a ∨ a = ALIGN_ADDR_UP (uptr_add current req), fun a ha => Or.inl ha, ?_⟩
    have h1 := Closed_init_mem_block_admin h (uptr_add current req)
      (u32_sub (s.mem current).size req)
    have h2 := Closed_set_next h1 previous
      (Or.inr (Or.inr rfl) : ALIGN_ADDR_UP (uptr_add current req) = 0 ∨ _)
    have h3 := Closed_set_next h2 (ALIGN_ADDR_UP (uptr_add current req))
      (h2 current (Or.inl hc)).2
    exact Closed_set_size h3 _ _
  · exact ⟨W, fun a ha => ha, Closed_set_next h previous (h current hc).2⟩

@[simp] theorem take_memblock_HEAD (s : Pool) (req previous current : Nat) :
    (take_memblock s req previous current).HEAD = s.HEAD := by
  simp only [take_memblock]; split_ifs <;> rfl

theorem Closed_get_memblock_loop {W : Nat → Prop} (req : Nat) :
    ∀ (fuel : Nat) (s : Pool) (previous current : Nat) (r : Nat × Pool),
      Closed W s.mem → (current = 0 ∨ W current) →
      get_memblock_loop req fuel s previous current = some r →
      ∃ W1 : Nat → Prop, (∀ a, W a → W1 a) ∧ Closed W1 r.2.mem ∧ (r.1 = 0 ∨ W1 r.1) ∧
        r.2.HEAD = s.HEAD := by
  intro fuel
  induction fuel with
  | zero => intro s previous current r _ _ h; simp [get_memblock_loop] at h
  | succ k ih =>
    intro s previous current r hcl hc h
    simp only [get_memblock_loop] at h
    split_ifs at h with h0 hfit
    · simp only [Option.some.injEq] at h
      subst h
      exact ⟨W, fun a ha => ha, hcl, Or.inl h0, rfl⟩
    · simp only [Option.some.injEq] at h
      subst h
      have hcW : W current := hc.resolve_left h0
      obtain ⟨W1, hsub, hcl1⟩ := Closed_take_memblock hcl previous hcW req
      exact ⟨W1, hsub, hcl1, Or.inr (hsub _ hcW), by simp⟩
    · have hcW : W current := hc.resolve_left h0
      exact ih s current _ r hcl (hcl current hcW).2 h

@[simp] theorem memblock_check_coalesce_mem (s : Pool) (f1 f2 : Nat) :
    (memblock_check_coalesce s f1 f2).2.mem = s.mem := by
  simp only [memblock_check_coalesce]; split_ifs <;> rfl

@[simp] theorem memblock_check_coalesce_HEAD (s : Pool) (f1 f2 : Nat) :
    (memblock_check_coalesce s f1 f2).2.HEAD = s.HEAD := by
  simp only [memblock_check_coalesce]; split_ifs <;> rfl

@[simp] theorem memblock_check_coalesce_TAIL (s : Pool) (f1 f2 : Nat) :
    (memblock_check_coalesce s f1 f2).2.TAIL = s.TAIL := by
  simp only [memblock_check_coalesce]; split_ifs <;> rfl

@[simp] theorem memblock_coalesce_HEAD (s : Pool) (f1 f2 : Nat) :
    (memblock_coalesce s f1 f2).HEAD = s.HEAD := rfl

@[simp] theorem memblock_coalesce_TAIL (s : Pool) (f1 f2 : Nat) :
    (memblock_coalesce s f1 f2).TAIL = s.TAIL := rfl

theorem memblock_coalesce_mem (s : Pool) (f1 f2 : Nat) :
    (memblock_coalesce s f1 f2).mem =
      set_size (set_next s.mem f1 (s.mem f2).next) f1
        (to_u32 (uptr_sub (uptr_add f2 ((set_next s.mem f1 (s.mem f2).next) f2).size) f1)) := rfl

@[simp] theorem coalesce_mem_blocks_HEAD (s : Pool) (a b c : Nat) :
    (coalesce_mem_blocks s a b c).HEAD = s.HEAD := by
  simp only [coalesce_mem_blocks]; split_ifs <;> simp

@[simp] theorem coalesce_mem_blocks_TAIL (s : Pool) (a b c : Nat) :
    (coalesce_mem_blocks s a b c).TAIL = s.TAIL := by
  simp only [coalesce_mem_blocks]; split_ifs <;> simp

theorem Closed_memblock_coalesce {W : Nat → Prop} {s : Pool} (h : Closed W s.mem)
    (f1 : Nat) {f2 : Nat} (h2 : W f2) : Closed W (memblock_coalesce s f1 f2).mem := by
  rw [memblock_coalesce_mem]
  exact Closed_set_size (Closed_set_next h f1 (h f2 h2).2) _ _

theorem Closed_coalesce_mem_blocks {W : Nat → Prop} {s : Pool} (h : Closed W s.mem)
    (previous : Nat) {current next : Nat} (hc : W current) (hn : W next) :
    Closed W (coalesce_mem_blocks s previous current next).mem := by
  have chk : ∀ (t : Pool) (f1 f2 : Nat), Closed W t.mem →
      Closed W (memblock_check_coalesce t f1 f2).2.mem := by
    intro t f1 f2 ht
    rw [memblock_check_coalesce_mem]
    exact ht
  simp only [coalesce_mem_blocks]
  split_ifs with h1 h2 h3
  · exact Closed_memblock_coalesce
      (chk _ _ _ (Closed_memblock_coalesce (chk _ _ _ h) previous hc)) _ hn
  · exact chk _ _ _ (Closed_memblock_coalesce (chk _ _ _ h) previous hc)
  · exact Closed_memblock_coalesce (chk _ _ _ (chk _ _ _ h)) _ hn
  · exact chk _ _ _ (chk _ _ _ h)

theorem Closed_link {W : Nat → Prop} {m : Mem} (h : Closed W m) (previous : Nat) {x cur : Nat}
    (hx : x % 16 = 0) (hc : cur = 0 ∨ W cur) :
    Closed (fun a => W a ∨ a = x) (set_next (set_next m previous x) x cur) := by
  intro a ha
  constructor
  · rcases ha with ha | rfl
    · exact (h a ha).1
    · exact hx
  · simp only [set_next_next]
    split_ifs with hax hap
    · rcases hc with hc | hc
      · exact Or.inl hc
      · exact Or.inr (Or.inl hc)
    · exact Or.inr (Or.inr rfl)
    · rcases ha with ha | ha
      · rcases (h a ha).2 with h0 | h1
        · exact Or.inl h0
        · exact Or.inr (Or.inl h1)
      · exact absurd ha hax

theorem Closed_insert_loop {W : Nat → Prop} (block : Nat) (hb : block % 16 = 0) :
    ∀ (fuel : Nat) (s : Pool) (previous current : Nat) (r : mempool_status_t × Pool),
      Closed W s.mem → (current = 0 ∨ W current) →
      insert_loop block fuel s previous current = some r →
      ∃ W1 : Nat → Prop, (∀ a, W a → W1 a) ∧ Closed W1 r.2.mem ∧ r.2.HEAD = s.HEAD := by
  intro fuel
  induction fuel with
  | zero => intro s previous current r _ _ h; simp [insert_loop] at h
  | succ k ih =>
    intro s previous current r hcl hc h
    simp only [insert_loop] at h
    split_ifs at h with h0 hlt
    · simp only [Option.some.injEq] at h
      subst h
      exact ⟨W, fun a ha => ha, hcl, rfl⟩
    · have hcW : W current := hc.resolve_left h0
      obtain ⟨W1, hsub, hcl1, hH⟩ :=
        ih (my_assert s (decide (current ≠ block))) current _ r hcl (hcl current hcW).2 h
      exact ⟨W1, hsub, hcl1, hH⟩
    · simp only [Option.some.injEq] at h
      subst h
      have hcW : W current := hc.resolve_left h0
      refine ⟨fun a => W a ∨ a = block, fun a ha => Or.inl ha, ?_, by simp⟩
      have hl := Closed_link hcl previous hb (Or.inr hcW : current = 0 ∨ W current)
      exact Closed_coalesce_mem_blocks (by simpa using hl) previous (Or.inr rfl) (Or.inl hcW)

theorem AlignInv_init {m0 : Mem} {storage size : Nat} {s : Pool}
    (h : mempool_init (fresh m0) storage size = (MEMPOOL_SUCCESS, s)) : AlignInv s := by
  simp only [mempool_init] at h
  split_ifs at h with h0
  · simp at h
  · simp only [Prod.mk.injEq, true_and, init_mem_block_admin_fst, init_mem_block_admin_HEAD,
      init_mem_block_admin_TAIL, init_mem_block_admin_mem, fresh] at h
    have hH : ALIGN_ADDR_UP storage % 16 = 0 := ALIGN_UP_mod _
    have hT : ALIGN_ADDR_UP (ALIGN_ADDR_DOWN (uptr_sub (uptr_add storage size)
      MEM_BLOCK_ADMIN_SIZE)) % 16 = 0 := ALIGN_UP_mod _
    have hF : ALIGN_ADDR_UP (uptr_add (ALIGN_ADDR_UP storage) MEM_BLOCK_ADMIN_SIZE) % 16 = 0 :=
      ALIGN_UP_mod _
    generalize ALIGN_ADDR_UP (ALIGN_ADDR_DOWN (uptr_sub (uptr_add storage size) MEM_BLOCK_ADMIN_SIZE))
      = T at h hT
    generalize ALIGN_ADDR_UP (uptr_add (ALIGN_ADDR_UP storage) MEM_BLOCK_ADMIN_SIZE) = F at h hF
    generalize ALIGN_ADDR_UP storage = H at h hH
    subst h
    refine ⟨fun a => a = H ∨ a = T ∨ a = F, Or.inl rfl, ?_⟩
    intro a ha
    refine ⟨by rcases ha with rfl | rfl | rfl <;> assumption, ?_⟩
    simp only [set_next_next, set_size_next]
    split_ifs <;> simp_all

theorem AlignInv_alloc {s s1 : Pool} {n p : Nat} (hinv : AlignInv s)
    (h : AllocReturns s n p s1) : AlignInv s1 ∧ p % 16 = 0 := by
  obtain ⟨W, hH, hcl⟩ := hinv
  obtain ⟨fuel, h⟩ := h
  simp only [mempool_alloc, freememblocklist_get_memblock] at h
  split_ifs at h with h0
  · simp only [Option.some.injEq, Prod.mk.injEq] at h
    obtain ⟨rfl, rfl⟩ := h
    exact ⟨⟨W, hH, hcl⟩, rfl⟩
  · cases hg : get_memblock_loop (to_u32 (uptr_add (ALIGN_UP n) MEM_BLOCK_ADMIN_SIZE)) fuel s
        s.HEAD (s.mem s.HEAD).next with
    | none => rw [hg] at h; simp at h
    | some r =>
      rw [hg] at h
      obtain ⟨W1, hsub, hcl1, hr, hHd⟩ :=
        Closed_get_memblock_loop _ fuel s _ _ r hcl (hcl _ hH).2 hg
      have hinv1 : AlignInv r.2 := ⟨W1, by rw [hHd]; exact hsub _ hH, hcl1⟩
      simp only [ne_eq, ite_not] at h
      split_ifs at h with hr0
      · simp only [Option.some.injEq, Prod.mk.injEq] at h
        obtain ⟨rfl, rfl⟩ := h
        exact ⟨hinv1, rfl⟩
      · simp only [Option.some.injEq, Prod.mk.injEq] at h
        obtain ⟨rfl, rfl⟩ := h
        refine ⟨hinv1, ?_⟩
        have := (hcl1 r.1 (hr.resolve_left hr0)).1
        simp only [uptr_add, UINTPTR, MEM_BLOCK_ADMIN_SIZE_eq]
        omega

theorem AlignInv_free {s s1 : Pool} {loc : Nat} {st : mempool_status_t} (hinv : AlignInv s)
    (h : FreeReturns s loc st s1) : AlignInv s1 := by
  obtain ⟨W, hH, hcl⟩ := hinv
  obtain ⟨fuel, h⟩ := h
  simp only [mempool_free, freememblocklist_insert] at h
  split_ifs at h with h0 h1
  · simp only [Option.some.injEq, Prod.mk.injEq] at h
    obtain ⟨-, rfl⟩ := h
    exact ⟨W, hH, hcl⟩
  · simp only [Option.some.injEq, Prod.mk.injEq] at h
    obtain ⟨-, rfl⟩ := h
    exact ⟨W, hH, hcl⟩
  · have hb : uptr_sub loc MEM_BLOCK_ADMIN_SIZE % 16 = 0 := by
      simp only [MAX_ALIGN_eq, not_or, not_not] at h0
      simp only [uptr_sub, UINTPTR, MEM_BLOCK_ADMIN_SIZE_eq]
      omega
    obtain ⟨W1, hsub, hcl1, hHd⟩ :=
      Closed_insert_loop _ hb fuel _ _ _ _ (by simpa using hcl) (hcl _ hH).2 h
    exact ⟨W1, by rw [hHd]; exact hsub _ hH, hcl1⟩

theorem Run_AlignInv {m0 : Mem} {storage size : Nat} {s : Pool}
    (h : Run m0 storage size s) : AlignInv s := by
  induction h with
  | init hi => exact AlignInv_init hi
  | alloc _ ha ih => exact (AlignInv_alloc ih ha).1
  | free _ hf ih => exact AlignInv_free ih hf

/-- C5 (alignment). For every arena accepted by `mempool_init`, aligned or
not, and every pool state reached from it by calls of `mempool_alloc` and
`mempool_free` with any arguments, every pointer returned by `mempool_alloc`
(so every non-null one) is a multiple of `MAX_ALIGN`. -/
theorem C5_alloc_aligned (m0 : Mem) (storage size : Nat) (s s1 : Pool) (n p : Nat)
    (hrun : Run m0 storage size s) (halloc : AllocReturns s n p s1) :
    p % MAX_ALIGN = 0 :=
  (AlignInv_alloc (Run_AlignInv hrun) halloc).2

/-- Witness for C5: the unaligned 2000-byte arena at address 4097, and the
request of 1920 bytes that returns 4144. -/
theorem C5_alloc_aligned_witness :
    Run zero_mem 4097 2000 (mempool_init (fresh zero_mem) 4097 2000).2 ∧
    (∃ s1, AllocReturns (mempool_init (fresh zero_mem) 4097 2000).2 1920 4144 s1) ∧
    4144 % MAX_ALIGN = 0 :=
  ⟨Run.init (Prod.ext (by decide) rfl), ⟨_, 1, rfl⟩,
    C5_alloc_aligned zero_mem 4097 2000 _ _ 1920 4144
      (Run.init (Prod.ext (by decide) rfl)) ⟨1, rfl⟩⟩

@[simp] theorem nodes_nil : nodes [] = [] := rfl

theorem nodes_cons_live (b : Blk) (bs : List Blk) (h : b.kind.is_live = true) :
    nodes (b :: bs) = nodes bs := by
  simp [nodes, h]

theorem nodes_cons_listed (b : Blk) (bs : List Blk) (h : b.kind.is_live = false) :
    nodes (b :: bs) = b.addr :: nodes bs := by
  simp [nodes, h]

theorem nodes_append (A B : List Blk) : nodes (A ++ B) = nodes A ++ nodes B := by
  induction A with
  | nil => rfl
  | cons b A ih =>
    cases hb : b.kind.is_live
    · simp [nodes, hb, ih]
    · simp [nodes, hb, ih]

theorem nodes_all_live (M : List Blk) (h : ∀ b ∈ M, b.kind.is_live = true) : nodes M = [] := by
  induction M with
  | nil => rfl
  | cons b M ih =>
    rw [nodes_cons_live b M (h b (List.mem_cons_self _ _))]
    exact ih (fun x hx => h x (List.mem_cons_of_mem _ hx))

theorem mem_nodes {x : Nat} {A : List Blk} :
    x ∈ nodes A ↔ ∃ b ∈ A, b.kind.is_live = false ∧ b.addr = x := by
  induction A with
  | nil => simp
  | cons b A ih =>
    cases hb : b.kind.is_live
    · rw [nodes_cons_listed b A hb]
      simp only [List.mem_cons, ih, exists_eq_or_imp, hb, true_and]
      constructor
      · rintro (h | h)
        · exact Or.inl h.symm
        · exact Or.inr h
      · rintro (h | h)
        · exact Or.inl h.symm
        · exact Or.inr h
    · rw [nodes_cons_live b A hb]
      simp only [List.mem_cons, ih, exists_eq_or_imp, hb, Bool.true_eq_false, false_and, false_or]

@[simp] theorem Tiles_nil (a e : Nat) : Tiles a [] e ↔ a = e := Iff.rfl

@[simp] theorem Tiles_cons (a e : Nat) (b : Blk) (bs : List Blk) :
    Tiles a (b :: bs) e ↔ b.addr = a ∧ Tiles (a + b.size) bs e := Iff.rfl

theorem Tiles_append (A B : List Blk) (a e : Nat) :
    Tiles a (A ++ B) e ↔ ∃ m, Tiles a A m ∧ Tiles m B e := by
  induction A generalizing a with
  | nil => simp
  | cons b A ih =>
    simp only [List.cons_append, Tiles_cons, ih]
    constructor
    · rintro ⟨h1, m, h2, h3⟩; exact ⟨m, ⟨h1, h2⟩, h3⟩
    · rintro ⟨m, ⟨h1, h2⟩, h3⟩; exact ⟨h1, m, h2, h3⟩

theorem Tiles_split (A B : List Blk) (b : Blk) (a e : Nat) :
    Tiles a (A ++ b :: B) e ↔ Tiles a A b.addr ∧ Tiles (b.addr + b.size) B e := by
  rw [Tiles_append]
  simp only [Tiles_cons]
  constructor
  · rintro ⟨m, h1, h2, h3⟩; subst h2; exact ⟨h1, h3⟩
  · rintro ⟨h1, h3⟩; exact ⟨_, h1, rfl, h3⟩

theorem Tiles_bounds {A : List Blk} {a e : Nat} (h : Tiles a A e) :
    a ≤ e ∧ ∀ b ∈ A, a ≤ b.addr ∧ b.addr + b.size ≤ e := by
  induction A generalizing a with
  | nil => simp only [Tiles_nil] at h; subst h; simp
  | cons b A ih =>
    obtain ⟨h1, h2⟩ := h
    obtain ⟨h3, h4⟩ := ih h2
    refine ⟨by omega, ?_⟩
    intro x hx
    rcases List.mem_cons.1 hx with rfl | hx
    · omega
    · have := h4 x hx; omega

theorem Tiles_span_live {H T : Nat} {M : List Blk} {a e : Nat} (h : Tiles a M e)
    (hok : ∀ b ∈ M, BlkOk H T b) (hlive : ∀ b ∈ M, b.kind.is_live = true) (hne : M ≠ []) :
    a + 32 ≤ e := by
  cases M with
  | nil => exact absurd rfl hne
  | cons b M =>
    obtain ⟨h1, h2⟩ := h
    have := (Tiles_bounds h2).1
    have hb := hlive b (List.mem_cons_self _ _)
    obtain ⟨o1, o2, -, -, o5⟩ := hok b (List.mem_cons_self _ _)
    cases hk : b.kind with
    | sentinel => simp [hk, Kind.is_live] at hb
    | free => simp [hk, Kind.is_live] at hb
    | live n =>
      have := o5 n hk
      omega

/-- Splits a list at its last block that is not handed out. -/
theorem split_last_listed (A : List Blk) (h : ∃ b ∈ A, b.kind.is_live = false) :
    ∃ X pv M, A = X ++ pv :: M ∧ pv.kind.is_live = false ∧ ∀ b ∈ M, b.kind.is_live = true := by
  induction A with
  | nil => simp at h
  | cons a A ih =>
    by_cases hA : ∃ b ∈ A, b.kind.is_live = false
    · obtain ⟨X, pv, M, rfl, h1, h2⟩ := ih hA
      exact ⟨a :: X, pv, M, rfl, h1, h2⟩
    · have hall : ∀ b ∈ A, b.kind.is_live = true := by
        intro b hb
        by_contra hc
        exact hA ⟨b, hb, by simpa using hc⟩
      obtain ⟨b, hb, hbl⟩ := h
      rcases List.mem_cons.1 hb with rfl | hb
      · exact ⟨[], b, A, rfl, hbl, hall⟩
      · rw [hall b hb] at hbl; simp at hbl

/-- Splits a list at its first block that is not handed out. -/
theorem split_first_listed (R : List Blk) (h : ∃ b ∈ R, b.kind.is_live = false) :
    ∃ M nx Y, R = M ++ nx :: Y ∧ nx.kind.is_live = false ∧ ∀ b ∈ M, b.kind.is_live = true := by
  rcases first_split (fun b : Blk => b.kind.is_live = false) R with hnone | ⟨M, nx, Y, rfl, h1, h2⟩
  · obtain ⟨b, hb, hbl⟩ := h
    exact absurd hbl (hnone b hb)
  · exact ⟨M, nx, Y, rfl, h2, fun b hb => by simpa using h1 b hb⟩

theorem last_of_eq {h p : Nat} {l G : List Nat} (e : h :: l = G ++ [p]) : last_of h l = p := by
  induction l generalizing h G with
  | nil =>
    cases G with
    | nil => simp at e; simp [last_of, e]
    | cons g G => simp at e
  | cons x l ih =>
    cases G with
    | nil => simp at e
    | cons g G =>
      simp only [List.cons_append, List.cons.injEq] at e
      exact ih e.2

theorem Seg_redirect {m m1 : Mem} {h p x y : Nat} {G : List Nat} (hs : Seg m h (G ++ [p]) x)
    (hframe : ∀ a ∈ G, (m1 a).next = (m a).next) (hnext : (m1 p).next = y) :
    Seg m1 h (G ++ [p]) y := by
  rw [Seg_append] at hs ⊢
  obtain ⟨mid, h1, h2⟩ := hs
  simp only [Seg_cons, Seg_nil] at h2
  obtain ⟨rfl, hp0, _⟩ := h2
  exact ⟨mid, Seg_congr hframe h1, by simp [hp0, hnext]⟩

@[simp] theorem take_memblock_TAIL (s : Pool) (req previous current : Nat) :
    (take_memblock s req previous current).TAIL = s.TAIL := by
  simp only [take_memblock]; split_ifs <;> rfl

/-- Effect of `take_memblock` when the block is split. -/
theorem take_memblock_split {s : Pool} {req previous c : Nat}
    (hc : c % 16 = 0) (hr : req % 16 = 0) (hsz : req + 32 ≤ (s.mem c).size)
    (h32 : (s.mem c).size < UINT32) (h64 : c + (s.mem c).size < UINTPTR)
    (hpc : previous ≠ c) (hr0 : 0 < req) :
    (take_memblock s req previous c).asserts_ok = s.asserts_ok ∧
    (∀ x, ((take_memblock s req previous c).mem x).size =
      if x = c then req else if x = c + req then (s.mem c).size - req else (s.mem x).size) ∧
    (∀ x, ((take_memblock s req previous c).mem x).next =
      if x = c + req then (s.mem c).next else if x = previous then c + req
      else (s.mem x).next) := by
  have e1 : u32_sub (s.mem c).size req = (s.mem c).size - req := by
    simp only [u32_sub, UINT32] at *; omega
  have e2 : uptr_add c req = c + req := by
    simp only [uptr_add, UINTPTR] at *; omega
  have e3 : ALIGN_ADDR_UP (c + req) = c + req := by
    simp only [ALIGN_ADDR_UP, ALIGN_UP, uptr_add, UINTPTR, MAX_ALIGN_eq] at *; omega
  have e4 : to_u32 (uptr_sub (c + req) (c + req)) = 0 := by
    simp only [to_u32, uptr_sub, UINTPTR, UINT32] at *; omega
  have e5 : u32_sub ((s.mem c).size - req) 0 = (s.mem c).size - req := by
    simp only [u32_sub, UINT32] at *; omega
  have hge : (s.mem c).size - req ≥ 32 := by omega
  simp only [take_memblock, e1, MIN_MEM_BLOCK_SIZE_eq, if_pos hge, e2, init_mem_block_admin_fst,
    init_mem_block_admin_mem, init_mem_block_admin_ok, e3, e4, e5, set_size_size, set_size_next,
    set_next_size, set_next_next]
  refine ⟨?_, ?_, ?_⟩
  · have : 0 < (s.mem c).size - req := by omega
    simp [this]
  · intro x
    trivial
  · intro x
    have hne : c ≠ c + req := by omega
    simp only [if_neg hne, if_neg (Ne.symm hpc)]
    split_ifs <;> rfl

/-- Effect of `take_memblock` when the whole block is taken. -/
theorem take_memblock_whole {s : Pool} {req previous c : Nat}
    (hle : req ≤ (s.mem c).size) (hsz : (s.mem c).size < req + 32)
    (h32 : (s.mem c).size < UINT32) :
    take_memblock s req previous c = { s with mem := set_next s.mem previous (s.mem c).next } := by
  have e1 : u32_sub (s.mem c).size req = (s.mem c).size - req := by
    simp only [u32_sub, UINT32] at *; omega
  have hge : ¬ (s.mem c).size - req ≥ 32 := by omega
  simp only [take_memblock, e1, MIN_MEM_BLOCK_SIZE_eq, if_neg hge]

theorem Tiles_aligned {A : List Blk} {a e : Nat} (h : Tiles a A e) (ha : a % 16 = 0)
    (hs : ∀ b ∈ A, b.size % 16 = 0) : (∀ b ∈ A, b.addr % 16 = 0) ∧ e % 16 = 0 := by
  induction A generalizing a with
  | nil => simp only [Tiles_nil] at h; subst h; simp [ha]
  | cons b A ih =>
    obtain ⟨h1, h2⟩ := h
    have hb := hs b (List.mem_cons_self _ _)
    obtain ⟨h3, h4⟩ := ih h2 (by omega) (fun x hx => hs x (List.mem_cons_of_mem _ hx))
    refine ⟨?_, h4⟩
    intro x hx
    rcases List.mem_cons.1 hx with rfl | hx
    · omega
    · exact h3 x hx

/-- What the layout says about one of its blocks. -/
theorem Layout.block {s : Pool} {bs : List Blk} (hL : Layout s bs) {b : Blk} (hb : b ∈ bs) :
    16 ≤ b.size ∧ b.size % 16 = 0 ∧ b.addr % 16 = 0 ∧ s.HEAD ≤ b.addr ∧
    b.addr + b.size ≤ s.TAIL + 16 ∧ (s.mem b.addr).size = b.size ∧ b.size < UINT32 := by
  obtain ⟨o1, o2, -, -, -⟩ := hL.ok b hb
  have h1 := (Tiles_bounds hL.tiles).2 b hb
  have h2 := (Tiles_aligned hL.tiles hL.head_al (fun x hx => (hL.ok x hx).2.1)).1 b hb
  have h3 := hL.span
  have h4 := hL.head_tail
  refine ⟨o1, o2, h2, h1.1, h1.2, hL.sizes b hb, ?_⟩
  simp only [UINT32] at *
  omega

theorem Layout_init {m0 : Mem} {storage S : Nat} {s : Pool}
    (halign : storage % MAX_ALIGN = 0) (hS : S < UINT32) (hfit : storage + S ≤ UINTPTR)
    (hinit : mempool_init (fresh m0) storage S = (MEMPOOL_SUCCESS, s)) :
    Layout s [⟨s.HEAD, 16, Kind.sentinel⟩, ⟨s.HEAD + 16, s.TAIL - s.HEAD - 16, Kind.free⟩,
      ⟨s.TAIL, 16, Kind.sentinel⟩] := by
  obtain ⟨h48, h0, hH, hT, hok, hsz, hnx⟩ := mempool_init_aligned halign hS hfit hinit
  simp only [MAX_ALIGN_eq] at halign
  have hU := hS
  simp only [UINT32] at hU
  have hV := hfit
  simp only [UINTPTR] at hV
  refine ⟨?_, ?_, ?_, ?_, ?_, ?_, ?_, ?_, ?_, ?_, hok⟩
  · omega
  · omega
  · omega
  · simp only [UINTPTR]; omega
  · simp only [UINT32]; omega
  · simp only [Tiles_cons, Tiles_nil]
    repeat' apply And.intro
    all_goals first | trivial | omega
  · exact ⟨⟨s.TAIL, 16, Kind.sentinel⟩, by simp, rfl⟩
  · intro b hb
    simp only [List.mem_cons, List.mem_singleton, List.not_mem_nil, or_false] at hb
    rcases hb with rfl | rfl | rfl
    · simp [BlkOk]
    · simp only [BlkOk, reduceCtorEq, false_iff, false_implies, implies_true, and_true]
      refine ⟨?_, ?_, ?_⟩ <;> omega
    · simp [BlkOk]
  · intro b hb
    simp only [List.mem_cons, List.mem_singleton, List.not_mem_nil, or_false] at hb
    rcases hb with rfl | rfl | rfl
    · simp only [hsz]; split_ifs <;> omega
    · simp only [hsz]; split_ifs <;> omega
    · simp only [hsz]; split_ifs <;> omega
  · simp only [nodes, Kind.is_live, Bool.false_eq_true, if_false, Seg_cons, Seg_nil, hnx]
    refine ⟨trivial, by omega, ?_, by omega, ?_, by omega, ?_⟩
    · split_ifs <;> omega
    · split_ifs <;> omega
    · split_ifs <;> omega

theorem NoAdjFree_split {A R : List Blk} {a : Blk} :
    NoAdjFree (A ++ a :: R) ↔ NoAdjFree (A ++ [a]) ∧ NoAdjFree (a :: R) :=
  List.chain'_split

theorem NoAdjFree_cons_cons {a b : Blk} {R : List Blk} :
    NoAdjFree (a :: b :: R) ↔
      ¬ (a.kind = Kind.free ∧ b.kind = Kind.free) ∧ NoAdjFree (b :: R) :=
  List.chain'_cons

theorem NoAdjFree_cons_congr {a a1 : Blk} {R : List Blk} (h : NoAdjFree (a :: R))
    (hk : a1.kind = Kind.free → a.kind = Kind.free) : NoAdjFree (a1 :: R) := by
  cases R with
  | nil => exact List.chain'_singleton _
  | cons b R =>
    rw [NoAdjFree_cons_cons] at h ⊢
    exact ⟨fun hh => h.1 ⟨hk hh.1, hh.2⟩, h.2⟩

theorem NoAdjFree_snoc_congr {a a1 : Blk} {A : List Blk} (h : NoAdjFree (A ++ [a]))
    (hk : a1.kind = Kind.free → a.kind = Kind.free) : NoAdjFree (A ++ [a1]) := by
  induction A with
  | nil => exact List.chain'_singleton _
  | cons x A ih =>
    cases A with
    | nil =>
      simp only [List.cons_append, List.nil_append] at h ⊢
      rw [NoAdjFree_cons_cons] at h ⊢
      exact ⟨fun hh => h.1 ⟨hh.1, hk hh.2⟩, List.chain'_singleton _⟩
    | cons y A =>
      simp only [List.cons_append] at h ih ⊢
      rw [NoAdjFree_cons_cons] at h ⊢
      exact ⟨h.1, ih h.2⟩

theorem NoAdjFree_replace {A R : List Blk} {c c1 : Blk} (h : NoAdjFree (A ++ c :: R))
    (hk : c1.kind = Kind.free → c.kind = Kind.free) : NoAdjFree (A ++ c1 :: R) := by
  rw [NoAdjFree_split] at h ⊢
  exact ⟨NoAdjFree_snoc_congr h.1 hk, NoAdjFree_cons_congr h.2 hk⟩

/-- Order facts for a layout cut at a listed block `pv`, the handed-out blocks
`M` after it, and a block `c`. -/
theorem Layout.cut {s : Pool} {X M R : List Blk} {pv c : Blk}
    (hL : Layout s (X ++ pv :: (M ++ c :: R))) :
    Tiles s.HEAD X pv.addr ∧ Tiles (pv.addr + pv.size) M c.addr ∧
    Tiles (c.addr + c.size) R (s.TAIL + 16) ∧
    (∀ b ∈ X, b.addr + b.size ≤ pv.addr) ∧ pv.addr + pv.size ≤ c.addr ∧
    (∀ b ∈ M, pv.addr + pv.size ≤ b.addr ∧ b.addr + b.size ≤ c.addr) ∧
    (∀ b ∈ R, c.addr + c.size ≤ b.addr) := by
  have h := hL.tiles
  rw [Tiles_split, Tiles_split] at h
  obtain ⟨h1, h2, h3⟩ := h
  exact ⟨h1, h2, h3, fun b hb => ((Tiles_bounds h1).2 b hb).2, (Tiles_bounds h2).1,
    fun b hb => (Tiles_bounds h2).2 b hb, fun b hb => ((Tiles_bounds h3).2 b hb).1⟩

theorem nodes_cut {X M R : List Blk} {pv : Blk} (hpv : pv.kind.is_live = false)
    (hM : ∀ b ∈ M, b.kind.is_live = true) :
    nodes (X ++ pv :: (M ++ R)) = nodes X ++ pv.addr :: nodes R := by
  rw [nodes_append, nodes_cons_listed _ _ hpv, nodes_append, nodes_all_live M hM, List.nil_append]

theorem Kind.free_not_live {k : Kind} (h : k = Kind.free) : k.is_live = false := by
  subst h; rfl

theorem Kind.live_is_live {k : Kind} {n : Nat} (h : k = Kind.live n) : k.is_live = true := by
  subst h; rfl

/-- The layout after `take_memblock` hands out the whole block `c`. -/
theorem Layout_take_whole {s : Pool} {X M R : List Blk} {pv c : Blk} {req n : Nat}
    (hL : Layout s (X ++ pv :: (M ++ c :: R)))
    (hna : NoAdjFree (X ++ pv :: (M ++ c :: R)))
    (hpv : pv.kind.is_live = false) (hM : ∀ b ∈ M, b.kind.is_live = true)
    (hc : c.kind = Kind.free) (hn : 0 < n) (hnr : n + 16 ≤ req)
    (hfit : req ≤ c.size) (hsmall : c.size < req + 32) :
    Layout (take_memblock s req pv.addr c.addr)
      (X ++ pv :: (M ++ ⟨c.addr, c.size, Kind.live n⟩ :: R)) ∧
    NoAdjFree (X ++ pv :: (M ++ ⟨c.addr, c.size, Kind.live n⟩ :: R)) := by
  obtain ⟨tX, tM, tR, bX, bpv, bM, bR⟩ := hL.cut
  have hcin : c ∈ X ++ pv :: (M ++ c :: R) := by simp
  have hpin : pv ∈ X ++ pv :: (M ++ c :: R) := by simp
  obtain ⟨c1, c2, c3, c4, c5, c6, c7⟩ := hL.block hcin
  obtain ⟨p1, p2, p3, p4, p5, p6, p7⟩ := hL.block hpin
  obtain ⟨-, -, oc, -, -⟩ := hL.ok c hcin
  have hcs : ¬ (c.addr = s.HEAD ∨ c.addr = s.TAIL) := by
    rw [← oc, hc]; simp
  rw [take_memblock_whole (by rw [c6]; exact hfit) (by rw [c6]; exact hsmall) (by rw [c6]; exact c7)]
  constructor
  · refine ⟨hL.head_pos, hL.head_al, hL.head_tail, hL.tail_top, hL.span, ?_, ?_, ?_, ?_, ?_,
      hL.asserts⟩
    · -- tiles
      have := hL.tiles
      rw [Tiles_split, Tiles_split] at this ⊢
      exact this
    · -- the block of TAIL
      obtain ⟨b, hb, hbT⟩ := hL.tail_mem
      simp only [List.mem_append, List.mem_cons] at hb
      refine ⟨b, ?_, hbT⟩
      simp only [List.mem_append, List.mem_cons]
      rcases hb with h | h | h | h | h
      · exact Or.inl h
      · exact Or.inr (Or.inl h)
      · exact Or.inr (Or.inr (Or.inl h))
      · subst h; exact absurd (Or.inr hbT) hcs
      · exact Or.inr (Or.inr (Or.inr (Or.inr h)))
    · -- shape of the blocks
      intro b hb
      simp only [List.mem_append, List.mem_cons] at hb
      have old : ∀ x, x ∈ X ++ pv :: (M ++ c :: R) → BlkOk s.HEAD s.TAIL x := hL.ok
      rcases hb with h | h | h | h | h
      · exact old b (by simp [h])
      · exact old b (by simp [h])
      · exact old b (by simp [h])
      · subst h
        refine ⟨c1, c2, ?_, ?_, ?_⟩
        · simp only [reduceCtorEq, false_iff]; exact hcs
        · intro h; simp at h
        · intro k hk
          simp only [Kind.live.injEq] at hk
          subst hk
          refine ⟨hn, ?_⟩
          show n + 16 ≤ c.size
          omega
      · exact old b (by simp [h])
    · -- sizes
      intro b hb
      simp only [set_next_size]
      simp only [List.mem_append, List.mem_cons] at hb
      have old : ∀ x, x ∈ X ++ pv :: (M ++ c :: R) → (s.mem x.addr).size = x.size := hL.sizes
      rcases hb with h | h | h | h | h
      · exact old b (by simp [h])
      · exact old b (by simp [h])
      · exact old b (by simp [h])
      · subst h; exact c6
      · exact old b (by simp [h])
    · -- links
      have hl := hL.links
      rw [nodes_cut hpv hM, nodes_cons_listed _ _ (Kind.free_not_live hc)] at hl
      rw [nodes_cut hpv hM, nodes_cons_live _ _ (by rfl)]
      have e : ∀ (l : List Nat) (y : Nat) (r : List Nat), l ++ y :: r = (l ++ [y]) ++ r := by
        intro l y r; simp
      rw [e, Seg_append] at hl ⊢
      obtain ⟨mid, h1, h2⟩ := hl
      obtain ⟨hmid, hc0, h3⟩ := h2
      rw [hmid] at h1
      refine ⟨(s.mem c.addr).next, Seg_redirect h1 ?_ (by simp), Seg_congr ?_ h3⟩
      · intro a ha
        obtain ⟨b, hb, -, rfl⟩ := mem_nodes.1 ha
        have := bX b hb
        have := (hL.block (b := b) (by simp [hb])).1
        simp only [set_next_next]
        rw [if_neg (by omega)]
      · intro a ha
        obtain ⟨b, hb, -, rfl⟩ := mem_nodes.1 ha
        have := bR b hb
        simp only [set_next_next]
        rw [if_neg (by omega)]
  · -- no two free neighbours
    have e : X ++ pv :: (M ++ c :: R) = (X ++ pv :: M) ++ c :: R := by simp
    have e1 : X ++ pv :: (M ++ ⟨c.addr, c.size, Kind.live n⟩ :: R) =
        (X ++ pv :: M) ++ ⟨c.addr, c.size, Kind.live n⟩ :: R := by simp
    rw [e] at hna
    rw [e1]
    exact NoAdjFree_replace hna (by intro h; simp at h)

/-- Two blocks of a tiling at different addresses do not overlap. -/
theorem Tiles_disjoint {A : List Blk} {a e : Nat} (h : Tiles a A e)
    (hpos : ∀ b ∈ A, 0 < b.size) :
    ∀ b1 ∈ A, ∀ b2 ∈ A, b1.addr ≠ b2.addr →
      b1.addr + b1.size ≤ b2.addr ∨ b2.addr + b2.size ≤ b1.addr := by
  induction A generalizing a with
  | nil => simp
  | cons b A ih =>
    obtain ⟨h1, h2⟩ := h
    have hb := (Tiles_bounds h2).2
    intro b1 hb1 b2 hb2 hne
    rcases List.mem_cons.1 hb1 with e1 | m1
    · rcases List.mem_cons.1 hb2 with e2 | m2
      · exact absurd (e1.trans e2.symm ▸ rfl) hne
      · left; have := (hb b2 m2).1; rw [e1]; omega
    · rcases List.mem_cons.1 hb2 with e2 | m2
      · right; have := (hb b1 m1).1; rw [e2]; omega
      · exact ih h2 (fun x hx => hpos x (List.mem_cons_of_mem _ hx)) b1 m1 b2 m2 hne

/-- Two blocks of a tiling at the same address are the same block. -/
theorem Tiles_addr_inj {A : List Blk} {a e : Nat} (h : Tiles a A e)
    (hpos : ∀ b ∈ A, 0 < b.size) :
    ∀ b1 ∈ A, ∀ b2 ∈ A, b1.addr = b2.addr → b1 = b2 := by
  induction A generalizing a with
  | nil => simp
  | cons b A ih =>
    obtain ⟨h1, h2⟩ := h
    have hb := (Tiles_bounds h2).2
    have hp := hpos b (List.mem_cons_self _ _)
    intro b1 hb1 b2 hb2 he
    rcases List.mem_cons.1 hb1 with e1 | m1
    · rcases List.mem_cons.1 hb2 with e2 | m2
      · rw [e1, e2]
      · have := (hb b2 m2).1; rw [e1] at he; omega
    · rcases List.mem_cons.1 hb2 with e2 | m2
      · have := (hb b1 m1).1; rw [e2] at he; omega
      · exact ih h2 (fun x hx => hpos x (List.mem_cons_of_mem _ hx)) b1 m1 b2 m2 he

theorem Layout.pos {s : Pool} {bs : List Blk} (hL : Layout s bs) : ∀ b ∈ bs, 0 < b.size := by
  intro b hb
  have := (hL.block hb).1
  omega

/-- Every block other than the sentinel `TAIL` ends at or before `TAIL`. -/
theorem Layout.below_tail {s : Pool} {bs : List Blk} (hL : Layout s bs) {b : Blk} (hb : b ∈ bs)
    (hne : b.addr ≠ s.TAIL) : b.addr + b.size ≤ s.TAIL := by
  obtain ⟨t, ht, htT⟩ := hL.tail_mem
  have h1 := hL.block hb
  have h2 := hL.block ht
  rcases Tiles_disjoint hL.tiles hL.pos b hb t ht (by rw [htT]; exact hne) with h | h
  · omega
  · omega

/-- Every block other than the sentinel `HEAD` starts after the header of `HEAD`. -/
theorem Layout.above_head {s : Pool} {bs : List Blk} (hL : Layout s bs) {b : Blk} (hb : b ∈ bs)
    (hne : b.addr ≠ s.HEAD) : s.HEAD + 16 ≤ b.addr := by
  have h1 := hL.block hb
  have h2 := hL.head_al
  omega

/-- The layout after `take_memblock` splits the block `c`. -/
theorem Layout_take_split {s : Pool} {X M R : List Blk} {pv c : Blk} {req n : Nat}
    (hL : Layout s (X ++ pv :: (M ++ c :: R)))
    (hna : NoAdjFree (X ++ pv :: (M ++ c :: R)))
    (hpv : pv.kind.is_live = false) (hM : ∀ b ∈ M, b.kind.is_live = true)
    (hc : c.kind = Kind.free) (hn : 0 < n) (hnr : n + 16 ≤ req) (hr : req % 16 = 0)
    (hbig : req + 32 ≤ c.size) :
    Layout (take_memblock s req pv.addr c.addr)
      (X ++ pv :: (M ++ ⟨c.addr, req, Kind.live n⟩ ::
        ⟨c.addr + req, c.size - req, Kind.free⟩ :: R)) ∧
    NoAdjFree (X ++ pv :: (M ++ ⟨c.addr, req, Kind.live n⟩ ::
        ⟨c.addr + req, c.size - req, Kind.free⟩ :: R)) := by
  obtain ⟨tX, tM, tR, bX, bpv, bM, bR⟩ := hL.cut
  have hcin : c ∈ X ++ pv :: (M ++ c :: R) := by simp
  have hpin : pv ∈ X ++ pv :: (M ++ c :: R) := by simp
  obtain ⟨c1, c2, c3, c4, c5, c6, c7⟩ := hL.block hcin
  obtain ⟨p1, p2, p3, p4, p5, p6, p7⟩ := hL.block hpin
  obtain ⟨-, -, oc, -, -⟩ := hL.ok c hcin
  have hcs : ¬ (c.addr = s.HEAD ∨ c.addr = s.TAIL) := by
    rw [← oc, hc]; simp
  have hcT := hL.below_tail hcin (fun h => hcs (Or.inr h))
  have htop := hL.tail_top
  have hsizeX : ∀ b ∈ X, 16 ≤ b.size := fun b hb => (hL.block (b := b) (by simp [hb])).1
  have hsizeM : ∀ b ∈ M, 16 ≤ b.size := fun b hb => (hL.block (b := b) (by simp [hb])).1
  obtain ⟨hok, hsize, hnext⟩ := @take_memblock_split s req pv.addr c.addr c3 hr
    (by rw [c6]; exact hbig) (by rw [c6]; exact c7) (by rw [c6]; omega) (by omega) (by omega)
  rw [c6] at hsize
  constructor
  · refine ⟨?_, ?_, ?_, ?_, ?_, ?_, ?_, ?_, ?_, ?_, ?_⟩
    · simpa using hL.head_pos
    · simpa using hL.head_al
    · simpa using hL.head_tail
    · simpa using hL.tail_top
    · simpa using hL.span
    · -- tiles
      simp only [take_memblock_HEAD, take_memblock_TAIL]
      rw [Tiles_split, Tiles_split]
      refine ⟨tX, tM, rfl, ?_⟩
      show Tiles (c.addr + req + (c.size - req)) R (s.TAIL + 16)
      rw [show c.addr + req + (c.size - req) = c.addr + c.size by omega]
      exact tR
    · -- the block of TAIL
      simp only [take_memblock_TAIL]
      obtain ⟨b, hb, hbT⟩ := hL.tail_mem
      simp only [List.mem_append, List.mem_cons] at hb
      refine ⟨b, ?_, hbT⟩
      simp only [List.mem_append, List.mem_cons]
      rcases hb with h | h | h | h | h
      · exact Or.inl h
      · exact Or.inr (Or.inl h)
      · exact Or.inr (Or.inr (Or.inl h))
      · subst h; exact absurd (Or.inr hbT) hcs
      · exact Or.inr (Or.inr (Or.inr (Or.inr (Or.inr h))))
    · -- shape of the blocks
      simp only [take_memblock_HEAD, take_memblock_TAIL]
      intro b hb
      simp only [List.mem_append, List.mem_cons] at hb
      have old : ∀ x, x ∈ X ++ pv :: (M ++ c :: R) → BlkOk s.HEAD s.TAIL x := hL.ok
      rcases hb with h | h | h | h | h | h
      · exact old b (by simp [h])
      · exact old b (by simp [h])
      · exact old b (by simp [h])
      · subst h
        refine ⟨?_, hr, ?_, ?_, ?_⟩
        · show 16 ≤ req
          omega
        · simp only [reduceCtorEq, false_iff]; exact hcs
        · intro h; simp at h
        · intro k hk
          simp only [Kind.live.injEq] at hk
          subst hk
          exact ⟨hn, hnr⟩
      · subst h
        refine ⟨?_, ?_, ?_, ?_, ?_⟩
        · show 16 ≤ c.size - req
          omega
        · show (c.size - req) % 16 = 0
          omega
        · simp only [reduceCtorEq, false_iff]
          show ¬ (c.addr + req = s.HEAD ∨ c.addr + req = s.TAIL)
          omega
        · intro h; simp at h
        · intro k hk; simp at hk
      · exact old b (by simp [h])
    · -- sizes
      intro b hb
      rw [hsize]
      simp only [List.mem_append, List.mem_cons] at hb
      have old : ∀ x, x ∈ X ++ pv :: (M ++ c :: R) → (s.mem x.addr).size = x.size := hL.sizes
      rcases hb with h | h | h | h | h | h
      · have := bX b h
        have := hsizeX b h
        rw [if_neg (by omega), if_neg (by omega)]
        exact old b (by simp [h])
      · subst h
        rw [if_neg (by omega), if_neg (by omega)]
        exact p6
      · have := bM b h
        have := hsizeM b h
        rw [if_neg (by omega), if_neg (by omega)]
        exact old b (by simp [h])
      · subst h
        simp
      · subst h
        show (if c.addr + req = c.addr then req
          else if c.addr + req = c.addr + req then c.size - req
          else (s.mem (c.addr + req)).size) = c.size - req
        rw [if_neg (by omega), if_pos rfl]
      · have := bR b h
        rw [if_neg (by omega), if_neg (by omega)]
        exact old b (by simp [h])
    · -- links
      simp only [take_memblock_HEAD]
      have hl := hL.links
      rw [nodes_cut hpv hM, nodes_cons_listed _ _ (Kind.free_not_live hc)] at hl
      rw [nodes_cut hpv hM, nodes_cons_live _ _ (by rfl), nodes_cons_listed _ _ (by rfl)]
      have e : ∀ (l : List Nat) (y : Nat) (r : List Nat), l ++ y :: r = (l ++ [y]) ++ r := by
        intro l y r; simp
      rw [e, Seg_append] at hl ⊢
      obtain ⟨mid, h1, h2⟩ := hl
      obtain ⟨hmid, hc0, h3⟩ := h2
      rw [hmid] at h1
      refine ⟨c.addr + req, Seg_redirect h1 ?_ ?_, rfl, ?_, ?_⟩
      · intro a ha
        obtain ⟨b, hb, -, rfl⟩ := mem_nodes.1 ha
        have := bX b hb
        have := hsizeX b hb
        rw [hnext, if_neg (by omega), if_neg (by omega)]
      · rw [hnext, if_neg (by omega), if_pos rfl]
      · show c.addr + req ≠ 0
        omega
      · show Seg _ ((take_memblock s req pv.addr c.addr).mem (c.addr + req)).next (nodes R) 0
        rw [hnext, if_pos rfl]
        refine Seg_congr ?_ h3
        intro a ha
        obtain ⟨b, hb, -, rfl⟩ := mem_nodes.1 ha
        have := bR b hb
        rw [hnext, if_neg (by omega), if_neg (by omega)]
    · rw [hok]; exact hL.asserts
  · -- no two free neighbours
    have e : X ++ pv :: (M ++ c :: R) = (X ++ pv :: M) ++ c :: R := by simp
    have e1 : X ++ pv :: (M ++ ⟨c.addr, req, Kind.live n⟩ ::
        ⟨c.addr + req, c.size - req, Kind.free⟩ :: R) =
        (X ++ pv :: M) ++ ⟨c.addr, req, Kind.live n⟩ ::
          ⟨c.addr + req, c.size - req, Kind.free⟩ :: R := by simp
    rw [e, NoAdjFree_split] at hna
    rw [e1, NoAdjFree_split, NoAdjFree_cons_cons]
    refine ⟨NoAdjFree_snoc_congr hna.1 (by intro h; simp at h), by simp, ?_⟩
    exact NoAdjFree_cons_congr hna.2 (fun _ => hc)

theorem Kind.listed_cases {k : Kind} (h : k.is_live = false) :
    k = Kind.sentinel ∨ k = Kind.free := by
  cases k with
  | sentinel => exact Or.inl rfl
  | free => exact Or.inr rfl
  | live n => simp [Kind.is_live] at h

/-- The first block of a layout is the sentinel `HEAD`. -/
theorem Layout.head_block {s : Pool} {bs : List Blk} (hL : Layout s bs) :
    ∃ b0 rest, bs = b0 :: rest ∧ b0.addr = s.HEAD ∧ b0.kind = Kind.sentinel ∧ b0.size = 16 := by
  cases bs with
  | nil =>
    obtain ⟨b, hb, _⟩ := hL.tail_mem
    simp at hb
  | cons b0 rest =>
    have h := hL.tiles
    obtain ⟨h1, -⟩ := h
    obtain ⟨-, -, o3, o4, -⟩ := hL.ok b0 (List.mem_cons_self _ _)
    have hk : b0.kind = Kind.sentinel := o3.2 (Or.inl h1)
    exact ⟨b0, rest, rfl, h1, hk, o4 hk⟩

/-- The scan of a layout starts at `HEAD`: any nonempty prefix of the linked
nodes starts with `HEAD`, and the rest is what follows `HEAD->next`. -/
theorem Layout.scan {s : Pool} {bs : List Blk} (hL : Layout s bs) {N R2 : List Nat}
    (hN : nodes bs = N ++ R2) (hne : N ≠ []) :
    ∃ L1, N = s.HEAD :: L1 ∧ Seg s.mem (s.mem s.HEAD).next (L1 ++ R2) 0 := by
  obtain ⟨b0, rest, rfl, h1, h2, -⟩ := hL.head_block
  have hl := hL.links
  rw [nodes_cons_listed _ _ (by rw [h2]; rfl), h1] at hl hN
  cases N with
  | nil => exact absurd rfl hne
  | cons h L1 =>
    simp only [List.cons_append, List.cons.injEq] at hN
    obtain ⟨rfl, hrest⟩ := hN
    rw [hrest] at hl
    exact ⟨L1, rfl, hl.2.2⟩

/-- A block that is not a sentinel has a listed block before it. -/
theorem Layout.listed_before {s : Pool} {A R : List Blk} {c : Blk}
    (hL : Layout s (A ++ c :: R)) (hc : c.kind ≠ Kind.sentinel) :
    ∃ b ∈ A, b.kind.is_live = false := by
  obtain ⟨b0, rest, e, h1, h2, -⟩ := hL.head_block
  cases A with
  | nil =>
    simp only [List.nil_append, List.cons.injEq] at e
    rw [e.1] at hc
    exact absurd h2 hc
  | cons a A =>
    simp only [List.cons_append, List.cons.injEq] at e
    exact ⟨a, List.mem_cons_self _ _, by rw [e.1, h2]; rfl⟩

/-- A block that is not a sentinel has a listed block after it. -/
theorem Layout.listed_after {s : Pool} {A R : List Blk} {c : Blk}
    (hL : Layout s (A ++ c :: R)) (hc : c.kind ≠ Kind.sentinel) :
    ∃ b ∈ R, b.kind.is_live = false := by
  obtain ⟨t, ht, htT⟩ := hL.tail_mem
  obtain ⟨-, -, o3, -, -⟩ := hL.ok t ht
  have hk : t.kind = Kind.sentinel := o3.2 (Or.inr htT)
  have hcin : c ∈ A ++ c :: R := by simp
  obtain ⟨-, -, oc, -, -⟩ := hL.ok c hcin
  have hcT : c.addr ≠ s.TAIL := fun h => hc (oc.2 (Or.inr h))
  have hb := hL.below_tail hcin hcT
  have h := hL.tiles
  rw [Tiles_split] at h
  have hA := (Tiles_bounds h.1).2
  have hc16 := (hL.block hcin).1
  simp only [List.mem_append, List.mem_cons] at ht
  rcases ht with h1 | h1 | h1
  · have := hA t h1
    have := (hL.block (b := t) (by simp [h1])).1
    omega
  · rw [h1] at htT; exact absurd htT hcT
  · exact ⟨t, h1, by rw [hk]; rfl⟩

theorem alloc_req_facts {n : Nat} (hn : 0 < n) (hn32 : n < UINT32) :
    (ALIGN_UP n + 16) % 16 = 0 ∧ n + 16 ≤ ALIGN_UP n + 16 ∧ 32 ≤ ALIGN_UP n + 16 := by
  rw [ALIGN_UP_eq n hn32]
  refine ⟨?_, ?_, ?_⟩ <;> omega

/-- What `mempool_alloc` does to a layout: either no free block is large
enough, the call returns `NULL` and the pool is unchanged; or the first
large-enough free block `c` is handed out (split when the rest can hold a
block), the call returns `c.addr + 16`, and the new state lays the arena out
with `c` replaced by `alloc_blocks`. -/
theorem Layout_alloc {s : Pool} {bs : List Blk} {n : Nat} (hL : Layout s bs)
    (hna : NoAdjFree bs) (hn : 0 < n) (hn32 : n < UINT32)
    (hreq : ALIGN_UP n + MEM_BLOCK_ADMIN_SIZE < UINT32) :
    (AllocReturns s n 0 s ∧ ∀ b ∈ bs, b.kind = Kind.free → b.size < ALIGN_UP n + 16) ∨
    (∃ A c R s1, bs = A ++ c :: R ∧ c.kind = Kind.free ∧ ALIGN_UP n + 16 ≤ c.size ∧
      (∀ b ∈ A, b.kind = Kind.free → b.size < ALIGN_UP n + 16) ∧
      AllocReturns s n (c.addr + 16) s1 ∧ s1.HEAD = s.HEAD ∧ s1.TAIL = s.TAIL ∧
      Layout s1 (A ++ alloc_blocks (ALIGN_UP n + 16) n c ++ R) ∧
      NoAdjFree (A ++ alloc_blocks (ALIGN_UP n + 16) n c ++ R)) := by
  obtain ⟨r16, rn, r32⟩ := alloc_req_facts hn hn32
  rcases first_split (fun b : Blk => b.kind = Kind.free ∧ ALIGN_UP n + 16 ≤ b.size) bs with
    hnone | ⟨A, c, R, rfl, hA, hc, hfit⟩
  · left
    have hsmall : ∀ b ∈ bs, b.kind = Kind.free → b.size < ALIGN_UP n + 16 := by
      intro b hb hk
      have := hnone b hb
      simp only [hk, true_and, not_le] at this
      exact this
    refine ⟨?_, hsmall⟩
    obtain ⟨L1, hN, hseg⟩ := @Layout.scan s bs hL [s.HEAD] (nodes bs).tail (by
      obtain ⟨b0, rest, rfl, h1, h2, -⟩ := hL.head_block
      rw [nodes_cons_listed _ _ (by rw [h2]; rfl), h1]; rfl) (by simp)
    simp only [List.cons.injEq, true_and] at hN
    subst hN
    simp only [List.nil_append] at hseg
    refine ⟨_, mempool_alloc_none hn hreq hseg ?_⟩
    intro x hx
    obtain ⟨b, hb, hbl, rfl⟩ := mem_nodes.1 (List.mem_of_mem_tail hx)
    rw [hL.sizes b hb]
    rcases Kind.listed_cases hbl with hk | hk
    · have := (hL.ok b hb).2.2.2.1 hk
      omega
    · exact hsmall b hb hk
  · right
    have hAsmall : ∀ b ∈ A, b.kind = Kind.free → b.size < ALIGN_UP n + 16 := by
      intro b hb hk
      have := hA b hb
      simp only [hk, true_and, not_le] at this
      exact this
    obtain ⟨X, pv, M, rfl, hpv, hM⟩ :=
      split_last_listed A (hL.listed_before (by rw [hc]; simp))
    have e : (X ++ pv :: M) ++ c :: R = X ++ pv :: (M ++ c :: R) := by simp
    rw [e] at hL hna
    have hcin : c ∈ X ++ pv :: (M ++ c :: R) := by simp
    obtain ⟨c1, c2, c3, c4, c5, c6, c7⟩ := hL.block hcin
    have htop := hL.tail_top
    have hnodes : nodes (X ++ pv :: (M ++ c :: R)) =
        (nodes X ++ [pv.addr]) ++ c.addr :: nodes R := by
      rw [nodes_cut hpv hM, nodes_cons_listed _ _ (Kind.free_not_live hc)]; simp
    obtain ⟨L1, hN, hseg⟩ := hL.scan hnodes (by simp)
    have hL1 : ∀ x ∈ L1, (s.mem x).size < ALIGN_UP n + 16 := by
      intro x hx
      have hx2 : x ∈ nodes (X ++ pv :: M) := by
        rw [nodes_append, nodes_cons_listed _ _ hpv, nodes_all_live M hM]
        have : x ∈ nodes X ++ [pv.addr] := by rw [hN]; exact List.mem_cons_of_mem _ hx
        simpa using this
      obtain ⟨b, hb, hbl, rfl⟩ := mem_nodes.1 hx2
      have hbin : b ∈ X ++ pv :: (M ++ c :: R) := by
        simp only [List.mem_append, List.mem_cons] at hb ⊢
        rcases hb with h | h | h
        · exact Or.inl h
        · exact Or.inr (Or.inl h)
        · exact Or.inr (Or.inr (Or.inl h))
      rw [hL.sizes b hbin]
      rcases Kind.listed_cases hbl with hk | hk
      · have := (hL.ok b hbin).2.2.2.1 hk
        omega
      · exact hAsmall b hb hk
    have hret := mempool_alloc_found hn hreq hseg hL1 (by rw [c6]; exact hfit)
      (by simp only [UINTPTR] at *; omega)
    rw [last_of_eq hN.symm] at hret
    refine ⟨X ++ pv :: M, c, R, _, by simp, hc, hfit, hAsmall, ⟨_, hret⟩, by simp, by simp, ?_⟩
    have e2 : ∀ l : List Blk, (X ++ pv :: M) ++ l ++ R = X ++ pv :: (M ++ (l ++ R)) := by
      intro l; simp
    rw [e2]
    unfold alloc_blocks
    split_ifs with hbig
    · exact Layout_take_split hL hna hpv hM hc hn rn r16 hbig
    · exact Layout_take_whole hL hna hpv hM hc hn rn hfit (by omega)

theorem my_assert_true (s : Pool) (c : Bool) (h : c = true) : my_assert s c = s := by
  subst h
  cases s
  simp [my_assert]

theorem insert_loop_found (block : Nat) (s : Pool) (x : Nat) (l2 : List Nat) (e : Nat) :
    ∀ (l1 : List Nat) (previous current : Nat),
      Seg s.mem current (l1 ++ x :: l2) e →
      (∀ y ∈ l1, y < block) → block < x →
      insert_loop block (l1.length + 1) s previous current =
        some (MEMPOOL_SUCCESS,
          coalesce_mem_blocks (link_block s (last_of previous l1) block x)
            (last_of previous l1) block x) := by
  intro l1
  induction l1 with
  | nil =>
    intro previous current hseg _ hx
    obtain ⟨h1, h2, _⟩ := hseg
    subst h1
    have hne : current ≠ block := by omega
    simp only [List.length_nil, insert_loop, if_neg h2, if_neg (by omega : ¬ current < block),
      my_assert_true s (decide (current ≠ block)) (by simpa using hne), last_of]
    rfl
  | cons y l ih =>
    intro previous current hseg hlt hx
    obtain ⟨h1, h2, h3⟩ := hseg
    subst h1
    have hy := hlt current (List.mem_cons_self _ _)
    have hne : current ≠ block := by omega
    simp only [List.length_cons, insert_loop, if_neg h2, if_pos hy,
      my_assert_true s (decide (current ≠ block)) (by simpa using hne), last_of]
    exact ih current _ h3 (fun z hz => hlt z (List.mem_cons_of_mem _ hz)) hx

/-- In a chain, each node's `next` is the node that follows it. -/
theorem Seg_next {m : Mem} {h e a b : Nat} {G R : List Nat}
    (hs : Seg m h (G ++ a :: b :: R) e) : (m a).next = b := by
  rw [Seg_append] at hs
  obtain ⟨mid, -, h2⟩ := hs
  simp only [Seg_cons] at h2
  exact h2.2.2.1

theorem Seg_next_last {m : Mem} {h e a : Nat} {G : List Nat}
    (hs : Seg m h (G ++ [a]) e) : (m a).next = e := by
  rw [Seg_append] at hs
  obtain ⟨mid, -, h2⟩ := hs
  simp only [Seg_cons, Seg_nil] at h2
  exact h2.2.2

/-- The test of `memblock_check_coalesce` on two listed blocks with only
handed-out blocks between them: it holds exactly when both are free blocks
and nothing lies between them. -/
theorem Layout_check {s : Pool} {A M R : List Blk} {f1 f2 : Blk}
    (hL : Layout s (A ++ f1 :: (M ++ f2 :: R)))
    (h1 : f1.kind.is_live = false) (hM : ∀ b ∈ M, b.kind.is_live = true)
    (h2 : f2.kind.is_live = false) :
    memblock_check_coalesce s f1.addr f2.addr =
      (decide (f1.kind = Kind.free ∧ f2.kind = Kind.free ∧ M = []), s) := by
  obtain ⟨tX, tM, tR, bX, bpv, bM, bR⟩ := hL.cut
  have hin1 : f1 ∈ A ++ f1 :: (M ++ f2 :: R) := by simp
  have hin2 : f2 ∈ A ++ f1 :: (M ++ f2 :: R) := by simp
  obtain ⟨a1, a2, a3, a4, a5, a6, a7⟩ := hL.block hin1
  obtain ⟨b1, b2, b3, b4, b5, b6, b7⟩ := hL.block hin2
  obtain ⟨-, -, o1, -, -⟩ := hL.ok f1 hin1
  obtain ⟨-, -, o2, -, -⟩ := hL.ok f2 hin2
  have htop := hL.tail_top
  have hnext : (s.mem f1.addr).next = f2.addr := by
    have hl := hL.links
    rw [nodes_cut h1 hM, nodes_cons_listed _ _ h2] at hl
    exact Seg_next hl
  have hT1 : f1.addr ≠ s.TAIL := by
    intro h
    have := hL.below_tail hin2 (by omega)
    omega
  have hH2 : f2.addr ≠ s.HEAD := by omega
  have k1 : f1.addr = s.HEAD ↔ f1.kind ≠ Kind.free := by
    rcases Kind.listed_cases h1 with hk | hk
    · simp only [hk, ne_eq, reduceCtorEq, not_false_eq_true, iff_true]
      rcases o1.1 hk with h | h
      · exact h
      · exact absurd h hT1
    · simp only [hk, ne_eq, not_true_eq_false, iff_false]
      intro h
      have := o1.2 (Or.inl h)
      rw [hk] at this
      simp at this
  have k2 : f2.addr = s.TAIL ↔ f2.kind ≠ Kind.free := by
    rcases Kind.listed_cases h2 with hk | hk
    · simp only [hk, ne_eq, reduceCtorEq, not_false_eq_true, iff_true]
      rcases o2.1 hk with h | h
      · exact absurd h hH2
      · exact h
    · simp only [hk, ne_eq, not_true_eq_false, iff_false]
      intro h
      have := o2.2 (Or.inr h)
      rw [hk] at this
      simp at this
  have hgap : uptr_sub (uptr_sub f2.addr f1.addr) (s.mem f1.addr).size =
      f2.addr - (f1.addr + f1.size) := by
    rw [a6]
    simp only [uptr_sub, UINTPTR, UINT32] at *
    omega
  have hspan : f2.addr - (f1.addr + f1.size) < 32 ↔ M = [] := by
    constructor
    · intro h
      by_contra hne
      have := Tiles_span_live tM (fun b hb => hL.ok b (by simp [hb])) hM hne
      omega
    · intro h
      subst h
      simp only [Tiles_nil] at tM
      omega
  have hA : my_assert s (decide ((s.mem f1.addr).next = f2.addr)) = s :=
    my_assert_true s _ (decide_eq_true hnext)
  simp only [memblock_check_coalesce, hA, hgap, MIN_MEM_BLOCK_SIZE_eq]
  by_cases c1 : f1.kind = Kind.free
  · by_cases c2 : f2.kind = Kind.free
    · have e1 : ¬ (f2.addr = s.TAIL ∨ f1.addr = s.HEAD) := by
        rw [k1, k2]; simp [c1, c2]
      rw [if_neg e1]
      simp only [c1, c2, true_and, hspan]
    · have e1 : f2.addr = s.TAIL ∨ f1.addr = s.HEAD := Or.inl (k2.2 c2)
      rw [if_pos e1]
      simp [c2]
  · have e1 : f2.addr = s.TAIL ∨ f1.addr = s.HEAD := Or.inr (k1.2 c1)
    rw [if_pos e1]
    simp [c1]

theorem nodes_run {M Y : List Blk} {nx : Blk} (hM : ∀ b ∈ M, b.kind.is_live = true)
    (hnx : nx.kind.is_live = false) : nodes (M ++ nx :: Y) = nx.addr :: nodes Y := by
  rw [nodes_append, nodes_all_live M hM, nodes_cons_listed _ _ hnx, List.nil_append]

/-- Effect of `memblock_coalesce` on two free blocks that lie back to back. -/
theorem Layout_merge {s : Pool} {A R : List Blk} {f1 f2 : Blk}
    (hL : Layout s (A ++ f1 :: f2 :: R))
    (h1 : f1.kind = Kind.free) (h2 : f2.kind = Kind.free) :
    Layout (memblock_coalesce s f1.addr f2.addr)
      (A ++ ⟨f1.addr, f1.size + f2.size, Kind.free⟩ :: R) := by
  have hL0 : Layout s (A ++ f1 :: ([] ++ f2 :: R)) := by simpa using hL
  obtain ⟨tX, tM, tR, bX, bpv, -, bR⟩ := hL0.cut
  simp only [Tiles_nil] at tM
  have hin1 : f1 ∈ A ++ f1 :: f2 :: R := by simp
  have hin2 : f2 ∈ A ++ f1 :: f2 :: R := by simp
  obtain ⟨a1, a2, a3, a4, a5, a6, a7⟩ := hL.block hin1
  obtain ⟨b1, b2, b3, b4, b5, b6, b7⟩ := hL.block hin2
  obtain ⟨-, -, o1, -, -⟩ := hL.ok f1 hin1
  obtain ⟨-, -, o2, -, -⟩ := hL.ok f2 hin2
  have hs1 : ¬ (f1.addr = s.HEAD ∨ f1.addr = s.TAIL) := by rw [← o1, h1]; simp
  have hs2 : ¬ (f2.addr = s.HEAD ∨ f2.addr = s.TAIL) := by rw [← o2, h2]; simp
  have hT2 := hL.below_tail hin2 (fun h => hs2 (Or.inr h))
  have htop := hL.tail_top
  have hspan := hL.span
  have hl := hL.links
  rw [nodes_append, nodes_cons_listed _ _ (Kind.free_not_live h1),
    nodes_cons_listed _ _ (Kind.free_not_live h2)] at hl
  have hnext : (s.mem f1.addr).next = f2.addr := Seg_next hl
  have hA : my_assert s (decide ((s.mem f1.addr).next = f2.addr)) = s :=
    my_assert_true s _ (decide_eq_true hnext)
  have hne : f2.addr ≠ f1.addr := by omega
  have hsz : to_u32 (uptr_sub (uptr_add f2.addr f2.size) f1.addr) = f1.size + f2.size := by
    simp only [to_u32, uptr_sub, uptr_add, UINTPTR, UINT32] at *
    omega
  have hmem : (memblock_coalesce s f1.addr f2.addr).mem =
      set_size (set_next s.mem f1.addr (s.mem f2.addr).next) f1.addr (f1.size + f2.size) := by
    rw [memblock_coalesce_mem]
    simp only [set_next_size, b6, hsz]
  have hok : (memblock_coalesce s f1.addr f2.addr).asserts_ok = s.asserts_ok := by
    have e : uptr_add f1.addr (f1.size + f2.size) ≤ s.TAIL := by
      simp only [uptr_add, UINTPTR] at *
      omega
    simp only [memblock_coalesce, hA, my_assert_ok, set_next_size, set_size_size, if_true, b6, hsz,
      my_assert_TAIL, decide_eq_true e, Bool.and_true]
  refine ⟨hL.head_pos, hL.head_al, hL.head_tail, hL.tail_top, hL.span, ?_, ?_, ?_, ?_, ?_, ?_⟩
  · -- tiles
    show Tiles s.HEAD _ (s.TAIL + 16)
    rw [Tiles_split]
    refine ⟨tX, ?_⟩
    show Tiles (f1.addr + (f1.size + f2.size)) R (s.TAIL + 16)
    rw [show f1.addr + (f1.size + f2.size) = f2.addr + f2.size by omega]
    exact tR
  · -- the block of TAIL
    obtain ⟨b, hb, hbT⟩ := hL.tail_mem
    simp only [List.mem_append, List.mem_cons] at hb
    refine ⟨b, ?_, hbT⟩
    simp only [List.mem_append, List.mem_cons]
    rcases hb with h | h | h | h
    · exact Or.inl h
    · subst h; exact absurd (Or.inr hbT) hs1
    · subst h; exact absurd (Or.inr hbT) hs2
    · exact Or.inr (Or.inr h)
  · -- shape of the blocks
    intro b hb
    show BlkOk s.HEAD s.TAIL b
    simp only [List.mem_append, List.mem_cons] at hb
    rcases hb with h | h | h
    · exact hL.ok b (by simp [h])
    · subst h
      refine ⟨?_, ?_, ?_, ?_, ?_⟩
      · show 16 ≤ f1.size + f2.size
        omega
      · show (f1.size + f2.size) % 16 = 0
        omega
      · simp only [reduceCtorEq, false_iff]; exact hs1
      · intro h; simp at h
      · intro k hk; simp at hk
    · exact hL.ok b (by simp [h])
  · -- sizes
    intro b hb
    rw [hmem]
    simp only [set_size_size, set_next_size]
    simp only [List.mem_append, List.mem_cons] at hb
    rcases hb with h | h | h
    · have := bX b h
      have := (hL.block (b := b) (by simp [h])).1
      rw [if_neg (by omega)]
      exact hL.sizes b (by simp [h])
    · subst h
      simp
    · have := bR b h
      rw [if_neg (by omega)]
      exact hL.sizes b (by simp [h])
  · -- links
    show Seg _ s.HEAD _ 0
    rw [nodes_append, nodes_cons_listed _ _ (by rfl)]
    have e : ∀ (l : List Nat) (y : Nat) (r : List Nat), l ++ y :: r = (l ++ [y]) ++ r := by
      intro l y r; simp
    rw [e, Seg_append] at hl ⊢
    obtain ⟨mid, g1, g2⟩ := hl
    obtain ⟨hmid, hc0, g3⟩ := g2
    rw [hmid] at g1
    refine ⟨(s.mem f2.addr).next, Seg_redirect g1 ?_ ?_, Seg_congr ?_ g3⟩
    · intro a ha
      obtain ⟨b, hb, -, rfl⟩ := mem_nodes.1 ha
      have := bX b hb
      have := (hL.block (b := b) (by simp [hb])).1
      rw [hmem]
      simp only [set_size_next, set_next_next]
      rw [if_neg (by omega)]
    · rw [hmem]
      simp
    · intro a ha
      obtain ⟨b, hb, -, rfl⟩ := mem_nodes.1 ha
      have := bR b hb
      rw [hmem]
      simp only [set_size_next, set_next_next]
      rw [if_neg (by omega)]
  · rw [hok]; exact hL.asserts

/-- Effect of linking the handed-out block `c` back into the list, between the
listed blocks `pv` and `nx` around it (lines 160-161). -/
theorem Layout_link {s : Pool} {X M M2 Y : List Blk} {pv c nx : Blk} {n : Nat}
    (hL : Layout s (X ++ pv :: (M ++ c :: (M2 ++ nx :: Y))))
    (hpv : pv.kind.is_live = false) (hM : ∀ b ∈ M, b.kind.is_live = true)
    (hc : c.kind = Kind.live n) (hM2 : ∀ b ∈ M2, b.kind.is_live = true)
    (hnx : nx.kind.is_live = false) :
    Layout (link_block s pv.addr c.addr nx.addr)
      (X ++ pv :: (M ++ ⟨c.addr, c.size, Kind.free⟩ :: (M2 ++ nx :: Y))) := by
  obtain ⟨tX, tM, tR, bX, bpv, bM, bR⟩ := hL.cut
  have hcin : c ∈ X ++ pv :: (M ++ c :: (M2 ++ nx :: Y)) := by simp
  have hpin : pv ∈ X ++ pv :: (M ++ c :: (M2 ++ nx :: Y)) := by simp
  obtain ⟨c1, c2, c3, c4, c5, c6, c7⟩ := hL.block hcin
  obtain ⟨p1, p2, p3, p4, p5, p6, p7⟩ := hL.block hpin
  obtain ⟨-, -, oc, -, -⟩ := hL.ok c hcin
  have hcs : ¬ (c.addr = s.HEAD ∨ c.addr = s.TAIL) := by
    rw [← oc, hc]; simp
  have hpos := hL.head_pos
  refine ⟨hL.head_pos, hL.head_al, hL.head_tail, hL.tail_top, hL.span, ?_, ?_, ?_, ?_, ?_,
    hL.asserts⟩
  · -- tiles
    have := hL.tiles
    show Tiles s.HEAD _ (s.TAIL + 16)
    rw [Tiles_split, Tiles_split] at this ⊢
    exact this
  · -- the block of TAIL
    obtain ⟨b, hb, hbT⟩ := hL.tail_mem
    simp only [List.mem_append, List.mem_cons] at hb
    refine ⟨b, ?_, hbT⟩
    simp only [List.mem_append, List.mem_cons]
    rcases hb with h | h | h | h | h
    · exact Or.inl h
    · exact Or.inr (Or.inl h)
    · exact Or.inr (Or.inr (Or.inl h))
    · subst h; exact absurd (Or.inr hbT) hcs
    · exact Or.inr (Or.inr (Or.inr (Or.inr h)))
  · -- shape of the blocks
    intro b hb
    show BlkOk s.HEAD s.TAIL b
    simp only [List.mem_append, List.mem_cons] at hb
    have old : ∀ x, x ∈ X ++ pv :: (M ++ c :: (M2 ++ nx :: Y)) → BlkOk s.HEAD s.TAIL x := hL.ok
    rcases hb with h | h | h | h | h
    · exact old b (by simp [h])
    · exact old b (by simp [h])
    · exact old b (by simp [h])
    · subst h
      refine ⟨c1, c2, ?_, ?_, ?_⟩
      · simp only [reduceCtorEq, false_iff]; exact hcs
      · intro h; simp at h
      · intro k hk; simp at hk
    · exact old b (by simp [h])
  · -- sizes
    intro b hb
    show ((set_next (set_next s.mem pv.addr c.addr) c.addr nx.addr) b.addr).size = b.size
    simp only [set_next_size]
    simp only [List.mem_append, List.mem_cons] at hb
    have old : ∀ x, x ∈ X ++ pv :: (M ++ c :: (M2 ++ nx :: Y)) →
        (s.mem x.addr).size = x.size := hL.sizes
    rcases hb with h | h | h | h | h
    · exact old b (by simp [h])
    · exact old b (by simp [h])
    · exact old b (by simp [h])
    · subst h; exact c6
    · exact old b (by simp [h])
  · -- links
    have hl := hL.links
    rw [nodes_cut hpv hM, nodes_cons_live _ _ (Kind.live_is_live hc), nodes_run hM2 hnx] at hl
    show Seg (set_next (set_next s.mem pv.addr c.addr) c.addr nx.addr) s.HEAD _ 0
    rw [nodes_cut hpv hM, nodes_cons_listed _ _ (by rfl), nodes_run hM2 hnx]
    have e : ∀ (l : List Nat) (y : Nat) (r : List Nat), l ++ y :: r = (l ++ [y]) ++ r := by
      intro l y r; simp
    rw [e, Seg_append] at hl ⊢
    obtain ⟨mid, g1, g2⟩ := hl
    have hmid : mid = nx.addr := g2.1
    rw [hmid] at g1 g2
    have hR : ∀ a ∈ nx.addr :: nodes Y, c.addr + c.size ≤ a := by
      intro a ha
      have ha2 : a ∈ nodes (M2 ++ nx :: Y) := by rw [nodes_run hM2 hnx]; exact ha
      obtain ⟨b, hb, -, rfl⟩ := mem_nodes.1 ha2
      exact bR b hb
    refine ⟨c.addr, Seg_redirect g1 ?_ ?_, rfl, ?_, ?_⟩
    · intro a ha
      obtain ⟨b, hb, -, rfl⟩ := mem_nodes.1 ha
      have := bX b hb
      have := (hL.block (b := b) (by simp [hb])).1
      simp only [set_next_next]
      rw [if_neg (by omega), if_neg (by omega)]
    · simp only [set_next_next]
      rw [if_neg (by omega)]
      simp
    · show c.addr ≠ 0
      omega
    · show Seg _ ((set_next (set_next s.mem pv.addr c.addr) c.addr nx.addr) c.addr).next _ 0
      simp only [set_next_next, if_true]
      refine Seg_congr ?_ g2
      intro a ha
      have := hR a ha
      simp only [set_next_next]
      rw [if_neg (by omega), if_neg (by omega)]

theorem coalesce_mem_blocks_eq (s : Pool) (previous current next : Nat) :
    coalesce_mem_blocks s previous current next =
      coalesce_step (coalesce_step s previous current)
        (if (memblock_check_coalesce s previous current).1 then previous else current) next := by
  simp only [coalesce_mem_blocks, coalesce_step]

theorem Blk_eta_free {f : Blk} (h : f.kind = Kind.free) :
    (⟨f.addr, f.addr + f.size - f.addr, Kind.free⟩ : Blk) = f := by
  cases f
  simp only [Blk.mk.injEq] at h ⊢
  exact ⟨trivial, by omega, h.symm⟩

/-- The second half of `coalesce_mem_blocks` on a layout: the free block `f`
absorbs the next listed block `nx` exactly when `nx` is free and adjacent. -/
theorem Layout_coalesce_right {s : Pool} {A M2 Y : List Blk} {f nx : Blk}
    (hL : Layout s (A ++ f :: (M2 ++ nx :: Y)))
    (hf : f.kind = Kind.free) (hM2 : ∀ b ∈ M2, b.kind.is_live = true)
    (hnx : nx.kind.is_live = false) :
    ∃ R1 hi, Layout (coalesce_step s f.addr nx.addr) (A ++ ⟨f.addr, hi - f.addr, Kind.free⟩ :: R1) ∧
      (coalesce_step s f.addr nx.addr).HEAD = s.HEAD ∧
      (coalesce_step s f.addr nx.addr).TAIL = s.TAIL ∧
      ((R1 = M2 ++ nx :: Y ∧ hi = f.addr + f.size ∧ ¬ (nx.kind = Kind.free ∧ M2 = [])) ∨
       (nx.kind = Kind.free ∧ M2 = [] ∧ R1 = Y ∧ hi = nx.addr + nx.size)) := by
  have hchk := Layout_check hL (Kind.free_not_live hf) hM2 hnx
  by_cases hm : nx.kind = Kind.free ∧ M2 = []
  · obtain ⟨hk, rfl⟩ := hm
    have hst : coalesce_step s f.addr nx.addr = memblock_coalesce s f.addr nx.addr := by
      simp only [coalesce_step, hchk, hf, hk, and_self, decide_True, if_true]
    rw [hst]
    have hL1 : Layout s (A ++ f :: nx :: Y) := by simpa using hL
    have hmerge := Layout_merge hL1 hf hk
    have hadj : nx.addr = f.addr + f.size := by
      have := hL1.tiles
      rw [Tiles_split] at this
      exact this.2.1
    refine ⟨Y, nx.addr + nx.size, ?_, rfl, rfl, Or.inr ⟨hk, rfl, rfl, rfl⟩⟩
    rw [show nx.addr + nx.size - f.addr = f.size + nx.size by omega]
    exact hmerge
  · have hst : coalesce_step s f.addr nx.addr = s := by
      have : ¬ (f.kind = Kind.free ∧ nx.kind = Kind.free ∧ M2 = []) := fun h => hm h.2
      simp only [coalesce_step, hchk, this, decide_False, Bool.false_eq_true, if_false]
    rw [hst]
    refine ⟨M2 ++ nx :: Y, f.addr + f.size, ?_, rfl, rfl, Or.inl ⟨rfl, rfl, hm⟩⟩
    rw [Blk_eta_free hf]
    exact hL

/-- The first half of `coalesce_mem_blocks` on a layout: the free block `f`
is absorbed by the previous listed block `pv` exactly when `pv` is free and
adjacent. -/
theorem Layout_coalesce_left {s : Pool} {X M R : List Blk} {pv f : Blk}
    (hL : Layout s (X ++ pv :: (M ++ f :: R)))
    (hpv : pv.kind.is_live = false) (hM : ∀ b ∈ M, b.kind.is_live = true)
    (hf : f.kind = Kind.free) :
    ∃ A1 lo, Layout (coalesce_step s pv.addr f.addr)
        (A1 ++ ⟨lo, f.addr + f.size - lo, Kind.free⟩ :: R) ∧
      (coalesce_step s pv.addr f.addr).HEAD = s.HEAD ∧
      (coalesce_step s pv.addr f.addr).TAIL = s.TAIL ∧
      (if (memblock_check_coalesce s pv.addr f.addr).1 then pv.addr else f.addr) = lo ∧
      ((A1 = X ++ pv :: M ∧ lo = f.addr ∧ ¬ (pv.kind = Kind.free ∧ M = [])) ∨
       (pv.kind = Kind.free ∧ M = [] ∧ A1 = X ∧ lo = pv.addr)) := by
  have hchk := Layout_check hL hpv hM (Kind.free_not_live hf)
  by_cases hm : pv.kind = Kind.free ∧ M = []
  · obtain ⟨hk, rfl⟩ := hm
    have hst : coalesce_step s pv.addr f.addr = memblock_coalesce s pv.addr f.addr := by
      simp only [coalesce_step, hchk, hf, hk, and_self, decide_True, if_true]
    rw [hst]
    have hL1 : Layout s (X ++ pv :: f :: R) := by simpa using hL
    have hmerge := Layout_merge hL1 hk hf
    have hadj : f.addr = pv.addr + pv.size := by
      have := hL1.tiles
      rw [Tiles_split] at this
      exact this.2.1
    refine ⟨X, pv.addr, ?_, rfl, rfl, ?_, Or.inr ⟨hk, rfl, rfl, rfl⟩⟩
    · rw [show f.addr + f.size - pv.addr = pv.size + f.size by omega]
      exact hmerge
    · simp only [hchk, hf, hk, and_self, decide_True, if_true]
  · have hne : ¬ (pv.kind = Kind.free ∧ f.kind = Kind.free ∧ M = []) := fun h => hm ⟨h.1, h.2.2⟩
    have hst : coalesce_step s pv.addr f.addr = s := by
      simp only [coalesce_step, hchk, hne, decide_False, Bool.false_eq_true, if_false]
    rw [hst]
    refine ⟨X ++ pv :: M, f.addr, ?_, rfl, rfl, ?_, Or.inl ⟨rfl, rfl, hm⟩⟩
    · rw [Blk_eta_free hf]
      simpa using hL
    · simp only [hchk, hne, decide_False, Bool.false_eq_true, if_false]

theorem snoc_inj {α : Type} {l1 l2 : List α} {a b : α} (h : l1 ++ [a] = l2 ++ [b]) :
    l1 = l2 ∧ a = b := by
  have := List.append_inj' h rfl
  exact ⟨this.1, by simpa using this.2⟩

theorem NoAdjFree_snoc {A : List Blk} {y : Blk} (h : NoAdjFree A)
    (hlast : ∀ A0 x, A = A0 ++ [x] → x.kind ≠ Kind.free) : NoAdjFree (A ++ [y]) := by
  rcases List.eq_nil_or_concat A with rfl | ⟨A0, x, rfl⟩
  · exact List.chain'_singleton _
  · have e : A0.concat x ++ [y] = A0 ++ x :: [y] := by simp
    rw [e, NoAdjFree_split, NoAdjFree_cons_cons]
    refine ⟨by simpa using h, ?_, List.chain'_singleton _⟩
    intro hh
    exact hlast A0 x (by simp) hh.1

theorem NoAdjFree_cons {R : List Blk} {y : Blk} (h : NoAdjFree R)
    (hfirst : ∀ x R0, R = x :: R0 → x.kind ≠ Kind.free) : NoAdjFree (y :: R) := by
  cases R with
  | nil => exact List.chain'_singleton _
  | cons x R0 =>
    rw [NoAdjFree_cons_cons]
    exact ⟨fun hh => hfirst x R0 rfl hh.2, h⟩

theorem NoAdjFree_left {A R : List Blk} (h : NoAdjFree (A ++ R)) : NoAdjFree A :=
  List.Chain'.left_of_append h

theorem NoAdjFree_right {A R : List Blk} (h : NoAdjFree (A ++ R)) : NoAdjFree R :=
  List.Chain'.right_of_append h

/-- The last block of `X ++ pv :: M`, when `M` holds handed-out blocks only,
is free only if it is `pv`, `pv` is free, and `M` is empty. -/
theorem last_free_cases {X M A0 : List Blk} {pv x : Blk}
    (hM : ∀ b ∈ M, b.kind.is_live = true) (e : X ++ pv :: M = A0 ++ [x])
    (hx : x.kind = Kind.free) : pv.kind = Kind.free ∧ M = [] := by
  rcases List.eq_nil_or_concat M with rfl | ⟨M0, m, rfl⟩
  · have e1 : X ++ [pv] = A0 ++ [x] := e
    rw [(snoc_inj e1).2]
    exact ⟨hx, rfl⟩
  · have e1 : (X ++ pv :: M0) ++ [m] = A0 ++ [x] := by simpa using e
    have hm := hM m (by simp)
    rw [(snoc_inj e1).2, hx] at hm
    simp [Kind.is_live] at hm

/-- The first block of `M2 ++ nx :: Y`, when `M2` holds handed-out blocks
only, is free only if it is `nx`, `nx` is free, and `M2` is empty. -/
theorem first_free_cases {M2 Y R0 : List Blk} {nx x : Blk}
    (hM2 : ∀ b ∈ M2, b.kind.is_live = true) (e : M2 ++ nx :: Y = x :: R0)
    (hx : x.kind = Kind.free) : nx.kind = Kind.free ∧ M2 = [] := by
  cases M2 with
  | nil =>
    simp only [List.nil_append, List.cons.injEq] at e
    rw [e.1]
    exact ⟨hx, rfl⟩
  | cons m M0 =>
    simp only [List.cons_append, List.cons.injEq] at e
    have hm := hM2 m (by simp)
    rw [e.1, hx] at hm
    simp [Kind.is_live] at hm

/-- What `mempool_free` does to a layout when called on the pointer of a
handed-out block `c`: the call returns `MEMPOOL_SUCCESS`, and in the new
layout `c` has become a free block, merged with the block before it and with
the block after it whenever that neighbour was free. -/
theorem Layout_free {s : Pool} {A R : List Blk} {c : Blk} {n : Nat}
    (hL : Layout s (A ++ c :: R)) (hna : NoAdjFree (A ++ c :: R))
    (hc : c.kind = Kind.live n) :
    ∃ s1 A1 R1 lo hi, FreeReturns s (c.addr + 16) MEMPOOL_SUCCESS s1 ∧
      s1.HEAD = s.HEAD ∧ s1.TAIL = s.TAIL ∧
      Layout s1 (A1 ++ ⟨lo, hi - lo, Kind.free⟩ :: R1) ∧
      NoAdjFree (A1 ++ ⟨lo, hi - lo, Kind.free⟩ :: R1) ∧
      ((A1 = A ∧ lo = c.addr) ∨ (∃ pv, A = A1 ++ [pv] ∧ pv.kind = Kind.free ∧ lo = pv.addr)) ∧
      ((R1 = R ∧ hi = c.addr + c.size) ∨
        (∃ nx, R = nx :: R1 ∧ nx.kind = Kind.free ∧ hi = nx.addr + nx.size)) := by
  have hcs : c.kind ≠ Kind.sentinel := by rw [hc]; simp
  obtain ⟨X, pv, M, rfl, hpv, hM⟩ := split_last_listed A (hL.listed_before hcs)
  obtain ⟨M2, nx, Y, rfl, hnx, hM2⟩ := split_first_listed R (hL.listed_after hcs)
  have e : (X ++ pv :: M) ++ c :: (M2 ++ nx :: Y) = X ++ pv :: (M ++ c :: (M2 ++ nx :: Y)) := by
    simp
  have hna0 := hna
  rw [e] at hL
  obtain ⟨tX, tM, tR, bX, bpv, bM, bR⟩ := hL.cut
  have hcin : c ∈ X ++ pv :: (M ++ c :: (M2 ++ nx :: Y)) := by simp
  have hpin : pv ∈ X ++ pv :: (M ++ c :: (M2 ++ nx :: Y)) := by simp
  obtain ⟨c1, c2, c3, c4, c5, c6, c7⟩ := hL.block hcin
  obtain ⟨p1, p2, p3, p4, p5, p6, p7⟩ := hL.block hpin
  obtain ⟨-, -, oc, -, oc5⟩ := hL.ok c hcin
  have hcHT : ¬ (c.addr = s.HEAD ∨ c.addr = s.TAIL) := by rw [← oc, hc]; simp
  have hcH := hL.above_head hcin (fun h => hcHT (Or.inl h))
  have hcT := hL.below_tail hcin (fun h => hcHT (Or.inr h))
  have hc32 : 32 ≤ c.size := by have := oc5 n hc; omega
  have htop := hL.tail_top
  have hpos := hL.head_pos
  obtain ⟨b0, rest, e0, h01, h02, h03⟩ := hL.head_block
  have hHsize : (s.mem s.HEAD).size = 16 := by
    rw [← h01, hL.sizes b0 (by rw [e0]; simp), h03]
  -- the scan stops between `pv` and `nx`
  have hnodes : nodes (X ++ pv :: (M ++ c :: (M2 ++ nx :: Y))) =
      (nodes X ++ [pv.addr]) ++ nx.addr :: nodes Y := by
    rw [nodes_cut hpv hM, nodes_cons_live _ _ (Kind.live_is_live hc), nodes_run hM2 hnx]; simp
  obtain ⟨L1, hN, hseg⟩ := hL.scan hnodes (by simp)
  have hL1 : ∀ y ∈ L1, y < c.addr := by
    intro y hy
    have hy1 : y ∈ nodes X ++ [pv.addr] := by rw [hN]; exact List.mem_cons_of_mem _ hy
    rcases List.mem_append.1 hy1 with h | h
    · obtain ⟨b, hb, -, rfl⟩ := mem_nodes.1 h
      have := bX b hb
      have := (hL.block (b := b) (by simp [hb])).1
      omega
    · simp only [List.mem_singleton] at h
      omega
  have hnxc : c.addr < nx.addr := by
    have := bR nx (by simp)
    omega
  have hloop := insert_loop_found c.addr s nx.addr (nodes Y) 0 L1 s.HEAD _ hseg hL1 hnxc
  rw [last_of_eq hN.symm, coalesce_mem_blocks_eq] at hloop
  have hfree : mempool_free (L1.length + 1) s (c.addr + 16) =
      some (MEMPOOL_SUCCESS,
        coalesce_step (coalesce_step (link_block s pv.addr c.addr nx.addr) pv.addr c.addr)
          (if (memblock_check_coalesce (link_block s pv.addr c.addr nx.addr)
            pv.addr c.addr).1 then pv.addr else c.addr) nx.addr) := by
    have hsub : uptr_sub (c.addr + 16) MEM_BLOCK_ADMIN_SIZE = c.addr := by
      simp only [uptr_sub, UINTPTR, MEM_BLOCK_ADMIN_SIZE_eq] at *; omega
    have h1 : ¬ (c.addr + 16 = 0 ∨ (c.addr + 16) % MAX_ALIGN ≠ 0) := by
      simp only [MAX_ALIGN_eq]; omega
    have h2 : ¬ (c.addr < uptr_add s.HEAD (s.mem s.HEAD).size ∨
        uptr_add c.addr (s.mem c.addr).size > s.TAIL) := by
      rw [hHsize, c6]
      simp only [uptr_add, UINTPTR] at *
      omega
    have h3 : my_assert s (decide ((s.mem c.addr).size ≥ MIN_MEM_BLOCK_SIZE)) = s :=
      my_assert_true s _ (by rw [c6]; simpa using hc32)
    simp only [mempool_free, if_neg h1, hsub, if_neg h2, freememblocklist_insert, h3]
    exact hloop
  -- the layout after linking, and after each half of the coalescing
  have hLl := Layout_link hL hpv hM hc hM2 hnx
  obtain ⟨A1, lo, hLa, hHa, hTa, hblk, hleft⟩ := Layout_coalesce_left hLl hpv hM rfl
  rw [hblk] at hfree
  dsimp only at hleft
  have hlo : (⟨lo, c.addr + c.size - lo, Kind.free⟩ : Blk).addr = lo := rfl
  obtain ⟨R1, hi, hLb, hHb, hTb, hright⟩ :=
    @Layout_coalesce_right _ A1 M2 Y ⟨lo, c.addr + c.size - lo, Kind.free⟩ nx hLa rfl hM2 hnx
  dsimp only at hright hLb hHb hTb hfree hHa hTa
  refine ⟨_, A1, R1, lo, hi, ⟨_, hfree⟩, ?_, ?_, hLb, ?_, ?_, ?_⟩
  · rw [hHb, hHa]; rfl
  · rw [hTb, hTa]; rfl
  · -- no two free neighbours
    rw [NoAdjFree_split]
    have hA := NoAdjFree_left hna0
    have hR : NoAdjFree (M2 ++ nx :: Y) := by
      have := NoAdjFree_right hna0
      exact NoAdjFree_right (A := [c]) (by simpa using this)
    constructor
    · rcases hleft with ⟨e1, -, hno⟩ | ⟨hk, e2, e1, -⟩
      · rw [e1]
        exact NoAdjFree_snoc hA (fun A0 x e hx => hno (last_free_cases hM e hx))
      · rw [e1]
        rw [e2] at hA
        exact NoAdjFree_snoc_congr hA (fun _ => hk)
    · rcases hright with ⟨e1, -, hno⟩ | ⟨hk, e2, e1, -⟩
      · rw [e1]
        exact NoAdjFree_cons hR (fun x R0 e hx => hno (first_free_cases hM2 e hx))
      · rw [e1]
        rw [e2] at hR
        exact NoAdjFree_cons_congr hR (fun _ => hk)
  · rcases hleft with ⟨e1, e2, -⟩ | ⟨hk, e2, e1, e3⟩
    · exact Or.inl ⟨e1, e2⟩
    · exact Or.inr ⟨pv, by rw [e1, e2], hk, e3⟩
  · have hlole : lo ≤ c.addr := by
      rcases hleft with ⟨-, h1, -⟩ | ⟨-, -, -, h1⟩ <;> omega
    rcases hright with ⟨e1, h, -⟩ | ⟨hk, e2, e1, h⟩
    · refine Or.inl ⟨e1, ?_⟩
      rw [h]
      omega
    · exact Or.inr ⟨nx, by rw [e1, e2]; rfl, hk, h⟩

theorem LiveRel_alloc {live : List (Nat × Nat)} {A R : List Blk} {c : Blk} {n req : Nat}
    (hrel : LiveRel live (A ++ c :: R)) (hc : c.kind = Kind.free) :
    LiveRel ((c.addr + 16, n) :: live) (A ++ alloc_blocks req n c ++ R) := by
  intro p k
  have h0 := hrel p k
  simp only [List.mem_cons, Prod.mk.injEq, h0, List.mem_append, alloc_blocks]
  constructor
  · rintro (⟨rfl, rfl⟩ | ⟨b, hb, hk, hp⟩)
    · split_ifs
      · exact ⟨⟨c.addr, req, Kind.live k⟩, by simp, rfl, rfl⟩
      · exact ⟨⟨c.addr, c.size, Kind.live k⟩, by simp, rfl, rfl⟩
    · rcases hb with hb | hb | hb
      · exact ⟨b, Or.inl (Or.inl hb), hk, hp⟩
      · rw [hb, hc] at hk; simp at hk
      · exact ⟨b, Or.inr hb, hk, hp⟩
  · rintro ⟨b, hb, hk, hp⟩
    rcases hb with (hb | hb) | hb
    · exact Or.inr ⟨b, Or.inl hb, hk, hp⟩
    · left
      split_ifs at hb
      · simp only [List.mem_cons, List.mem_singleton, List.not_mem_nil, or_false] at hb
        rcases hb with rfl | rfl
        · simp only [Kind.live.injEq] at hk
          exact ⟨hp.symm, hk.symm⟩
        · simp at hk
      · simp only [List.mem_singleton] at hb
        subst hb
        simp only [Kind.live.injEq] at hk
        exact ⟨hp.symm, hk.symm⟩
    · exact Or.inr ⟨b, Or.inr (Or.inr hb), hk, hp⟩

/-- A pointer handed out for a free block was not live before. -/
theorem LiveRel_fresh {s : Pool} {live : List (Nat × Nat)} {A R : List Blk} {c : Blk}
    (hL : Layout s (A ++ c :: R)) (hrel : LiveRel live (A ++ c :: R))
    (hc : c.kind = Kind.free) : c.addr + 16 ∉ live.map Prod.fst := by
  intro h
  obtain ⟨⟨p, k⟩, hx, hp⟩ := List.mem_map.1 h
  simp only at hp
  obtain ⟨b, hb, hk, hb16⟩ := (hrel p k).1 hx
  have := Tiles_addr_inj hL.tiles hL.pos b hb c (by simp) (by omega)
  rw [this, hc] at hk
  simp at hk

theorem LiveRel_free {s : Pool} {live : List (Nat × Nat)} {A R A1 R1 : List Blk} {c blk : Blk}
    {n : Nat} (hL : Layout s (A ++ c :: R)) (hrel : LiveRel live (A ++ c :: R))
    (hblk : blk.kind = Kind.free)
    (hA : A1 = A ∨ ∃ pv, A = A1 ++ [pv] ∧ pv.kind = Kind.free)
    (hR : R1 = R ∨ ∃ nx, R = nx :: R1 ∧ nx.kind = Kind.free) (hc : c.kind = Kind.live n) :
    LiveRel (live.filter (fun x => decide (x.1 ≠ c.addr + 16))) (A1 ++ blk :: R1) := by
  have ht := hL.tiles
  rw [Tiles_split] at ht
  have bA := (Tiles_bounds ht.1).2
  have bR := (Tiles_bounds ht.2).2
  have hc16 := (hL.block (b := c) (by simp)).1
  have hAiff : ∀ b : Blk, b.kind.is_live = true → (b ∈ A1 ↔ b ∈ A) := by
    intro b hb
    rcases hA with rfl | ⟨pv, rfl, hk⟩
    · exact Iff.rfl
    · simp only [List.mem_append, List.mem_singleton]
      constructor
      · exact Or.inl
      · rintro (h | rfl)
        · exact h
        · rw [hk] at hb; simp [Kind.is_live] at hb
  have hRiff : ∀ b : Blk, b.kind.is_live = true → (b ∈ R1 ↔ b ∈ R) := by
    intro b hb
    rcases hR with rfl | ⟨nx, rfl, hk⟩
    · exact Iff.rfl
    · simp only [List.mem_cons]
      constructor
      · exact Or.inr
      · rintro (rfl | h)
        · rw [hk] at hb; simp [Kind.is_live] at hb
        · exact h
  intro p k
  simp only [List.mem_filter, hrel p k, decide_eq_true_eq, List.mem_append, List.mem_cons]
  constructor
  · rintro ⟨⟨b, hb, hk, hp⟩, hne⟩
    have hbl := Kind.live_is_live hk
    rcases hb with hb | hb | hb
    · exact ⟨b, Or.inl ((hAiff b hbl).2 hb), hk, hp⟩
    · subst hb; exact absurd hp.symm hne
    · exact ⟨b, Or.inr (Or.inr ((hRiff b hbl).2 hb)), hk, hp⟩
  · rintro ⟨b, hb, hk, hp⟩
    have hbl := Kind.live_is_live hk
    rcases hb with hb | hb | hb
    · have hbA := (hAiff b hbl).1 hb
      have := bA b hbA
      have := (hL.block (b := b) (by simp [hbA])).1
      exact ⟨⟨b, Or.inl hbA, hk, hp⟩, by omega⟩
    · rw [hb, hblk] at hk; simp at hk
    · have hbR := (hRiff b hbl).1 hb
      have := bR b hbR
      exact ⟨⟨b, Or.inr (Or.inr hbR), hk, hp⟩, by omega⟩

theorem Good_init {m0 : Mem} {storage size : Nat} {s : Pool}
    (halign : storage % MAX_ALIGN = 0) (hS : size < UINT32) (hfit : storage + size ≤ UINTPTR)
    (hinit : mempool_init (fresh m0) storage size = (MEMPOOL_SUCCESS, s)) :
    Good storage size s [] [⟨s.HEAD, 16, Kind.sentinel⟩,
      ⟨s.HEAD + 16, s.TAIL - s.HEAD - 16, Kind.free⟩, ⟨s.TAIL, 16, Kind.sentinel⟩] := by
  obtain ⟨-, -, hH, hT, -, -, -⟩ := mempool_init_aligned halign hS hfit hinit
  refine ⟨Layout_init halign hS hfit hinit, ?_, ?_, by simp, hH, hT⟩
  · simp [NoAdjFree]
  · intro p k
    simp

theorem Good_alloc {storage size : Nat} {s s1 : Pool} {live : List (Nat × Nat)}
    {bs : List Blk} {n p : Nat} (hg : Good storage size s live bs)
    (hn32 : n < UINT32) (hreq : ALIGN_UP n + MEM_BLOCK_ADMIN_SIZE < UINT32)
    (hret : AllocReturns s n p s1) :
    ∃ bs1, Good storage size s1 (if p = 0 then live else (p, n) :: live) bs1 := by
  by_cases hn : n = 0
  · subst hn
    have h0 : AllocReturns s 0 0 s := ⟨0, by simp [mempool_alloc]⟩
    obtain ⟨rfl, rfl⟩ := AllocReturns_unique h0 hret
    exact ⟨bs, by simpa using hg⟩
  · rcases Layout_alloc hg.layout hg.noadj (Nat.pos_of_ne_zero hn) hn32 hreq with
      ⟨h0, -⟩ | ⟨A, c, R, s2, rfl, hc, -, -, h1, hH, hT, hL, hna⟩
    · obtain ⟨rfl, rfl⟩ := AllocReturns_unique h0 hret
      exact ⟨bs, by simpa using hg⟩
    · obtain ⟨rfl, rfl⟩ := AllocReturns_unique h1 hret
      refine ⟨A ++ alloc_blocks (ALIGN_UP n + 16) n c ++ R, ?_⟩
      rw [if_neg (by omega)]
      refine ⟨hL, hna, LiveRel_alloc hg.rel hc, ?_, by rw [hH]; exact hg.head_eq,
        by rw [hT]; exact hg.tail_eq⟩
      simp only [List.map_cons, List.nodup_cons]
      exact ⟨LiveRel_fresh hg.layout hg.rel hc, hg.nodup⟩

theorem Good_free {storage size : Nat} {s : Pool} {live : List (Nat × Nat)}
    {bs : List Blk} {n p : Nat} (hg : Good storage size s live bs) (hp : (p, n) ∈ live) :
    ∃ s1 bs1, FreeReturns s p MEMPOOL_SUCCESS s1 ∧
      Good storage size s1 (live.filter (fun x => decide (x.1 ≠ p))) bs1 := by
  obtain ⟨c, hcin, hc, rfl⟩ := (hg.rel p n).1 hp
  obtain ⟨A, R, rfl⟩ := List.append_of_mem hcin
  obtain ⟨s1, A1, R1, lo, hi, hret, hH, hT, hL, hna, hA, hR⟩ :=
    Layout_free hg.layout hg.noadj hc
  refine ⟨s1, _, hret, hL, hna, ?_, ?_, by rw [hH]; exact hg.head_eq,
    by rw [hT]; exact hg.tail_eq⟩
  · refine LiveRel_free hg.layout hg.rel rfl ?_ ?_ hc
    · rcases hA with ⟨h, -⟩ | ⟨pv, h1, h2, -⟩
      · exact Or.inl h
      · exact Or.inr ⟨pv, h1, h2⟩
    · rcases hR with ⟨h, -⟩ | ⟨nx, h1, h2, -⟩
      · exact Or.inl h
      · exact Or.inr ⟨nx, h1, h2⟩
  · exact (List.filter_sublist _).map Prod.fst |>.nodup hg.nodup

theorem Reachable_good {m0 : Mem} {storage size : Nat} {s : Pool} {live : List (Nat × Nat)}
    (h : Reachable m0 storage size s live) : ∃ bs, Good storage size s live bs := by
  induction h with
  | init ha hs hf hi => exact ⟨_, Good_init ha hs hf hi⟩
  | alloc _ hn32 hreq hret ih =>
    obtain ⟨bs, hg⟩ := ih
    exact Good_alloc hg hn32 hreq hret
  | free _ hp hret ih =>
    obtain ⟨bs, hg⟩ := ih
    obtain ⟨s2, bs1, hret2, hg2⟩ := Good_free hg hp
    obtain ⟨-, rfl⟩ := FreeReturns_unique hret2 hret
    exact ⟨bs1, hg2⟩

/-- A layout is the sentinel `HEAD`, then blocks that are not sentinels, then
the sentinel `TAIL`. -/
theorem Layout.shape {s : Pool} {bs : List Blk} (hL : Layout s bs) :
    ∃ b0 mid t, bs = b0 :: (mid ++ [t]) ∧ b0.addr = s.HEAD ∧ b0.kind = Kind.sentinel ∧
      b0.size = 16 ∧ t.addr = s.TAIL ∧ t.kind = Kind.sentinel ∧ t.size = 16 ∧
      ∀ b ∈ mid, b.kind ≠ Kind.sentinel := by
  obtain ⟨b0, rest, rfl, h1, h2, h3⟩ := hL.head_block
  obtain ⟨t, ht, htT⟩ := hL.tail_mem
  have hHT := hL.head_tail
  have ht0 : t ≠ b0 := by
    intro h
    rw [h] at htT
    omega
  have htr : t ∈ rest := by
    rcases List.mem_cons.1 ht with h | h
    · exact absurd h ht0
    · exact h
  obtain ⟨P, Q, rfl⟩ := List.append_of_mem htr
  obtain ⟨-, -, o3, o4, -⟩ := hL.ok t ht
  have hk : t.kind = Kind.sentinel := o3.2 (Or.inr htT)
  have hts := o4 hk
  have hti := hL.tiles
  have e : b0 :: (P ++ t :: Q) = (b0 :: P) ++ t :: Q := by simp
  rw [e, Tiles_split] at hti
  obtain ⟨tP, tQ⟩ := hti
  have hQ : Q = [] := by
    cases Q with
    | nil => rfl
    | cons q Q =>
      exfalso
      obtain ⟨q1, q2⟩ := tQ
      have := (Tiles_bounds q2).1
      have := (hL.block (b := q) (by simp)).1
      omega
  subst hQ
  refine ⟨b0, P, t, rfl, h1, h2, h3, htT, hk, hts, ?_⟩
  intro b hb hbk
  obtain ⟨tb0, tP2⟩ := tP
  have hbb := (Tiles_bounds tP2).2 b hb
  have hb16 := (hL.block (b := b) (by simp [hb])).1
  rcases (hL.ok b (by simp [hb])).2.2.1.1 hbk with h | h
  · omega
  · omega

theorem nodes_sorted {A : List Blk} {a e : Nat} (h : Tiles a A e)
    (hpos : ∀ b ∈ A, 0 < b.size) :
    List.Pairwise (fun x y => x < y) (nodes A) ∧ ∀ x ∈ nodes A, a ≤ x ∧ x < e := by
  induction A generalizing a with
  | nil => simp
  | cons b A ih =>
    obtain ⟨h1, h2⟩ := h
    have hb := hpos b (List.mem_cons_self _ _)
    obtain ⟨i1, i2⟩ := ih h2 (fun x hx => hpos x (List.mem_cons_of_mem _ hx))
    have hle := (Tiles_bounds h2).1
    cases hl : b.kind.is_live
    · rw [nodes_cons_listed _ _ hl]
      refine ⟨List.pairwise_cons.2 ⟨?_, i1⟩, ?_⟩
      · intro x hx
        have := i2 x hx
        omega
      · intro x hx
        rcases List.mem_cons.1 hx with rfl | hx
        · omega
        · have := i2 x hx
          omega
    · rw [nodes_cons_live _ _ hl]
      refine ⟨i1, ?_⟩
      intro x hx
      have := i2 x hx
      omega

/-- The free list of a layout, read from memory: a well-formed list whose
nodes are the addresses of the free blocks. -/
theorem Layout.wellformed {s : Pool} {bs : List Blk} (hL : Layout s bs) :
    ∃ l, WellFormed s l ∧ nodes bs = s.HEAD :: (l ++ [s.TAIL]) ∧
      ∀ f, f ∈ l ↔ ∃ b ∈ bs, b.kind = Kind.free ∧ b.addr = f := by
  obtain ⟨b0, mid, t, rfl, h1, h2, h3, h4, h5, h6, hmid⟩ := hL.shape
  have hn : nodes (b0 :: (mid ++ [t])) = s.HEAD :: (nodes mid ++ [s.TAIL]) := by
    rw [nodes_cons_listed _ _ (by rw [h2]; rfl), nodes_append,
      nodes_cons_listed _ _ (by rw [h5]; rfl), h1, h4]
    rfl
  have hl := hL.links
  rw [hn] at hl
  have hs := (nodes_sorted hL.tiles hL.pos).1
  rw [hn] at hs
  have hpos := hL.head_pos
  refine ⟨nodes mid, ⟨by omega, hl.2.2, hs, ?_, ?_⟩, hn, ?_⟩
  · rw [← h4, hL.sizes t (by simp), h6]
    rfl
  · simpa using hL.tail_top
  · intro f
    rw [mem_nodes]
    constructor
    · rintro ⟨b, hb, hbl, rfl⟩
      refine ⟨b, by simp [hb], ?_, rfl⟩
      rcases Kind.listed_cases hbl with hk | hk
      · exact absurd hk (hmid b hb)
      · exact hk
    · rintro ⟨b, hb, hk, rfl⟩
      simp only [List.mem_cons, List.mem_append, List.mem_singleton, List.not_mem_nil,
        or_false] at hb
      rcases hb with rfl | hb | rfl
      · rw [h2] at hk; simp at hk
      · exact ⟨b, hb, Kind.free_not_live hk, rfl⟩
      · rw [h5] at hk; simp at hk

/-- C2 (no overlap). In every state reached under the contract on 16-aligned
storage, the payload ranges `[p, p + n)` of the live allocations are pairwise
disjoint, and each of them is disjoint from the range `[f, f + f->size)` of
every block `f` on the free list and from the headers of `HEAD` and `TAIL`. -/
theorem C2_no_overlap (m0 : Mem) (storage size : Nat) (s : Pool) (live : List (Nat × Nat))
    (h : Reachable m0 storage size s live) :
    (∀ x ∈ live, ∀ y ∈ live, x ≠ y → x.1 + x.2 ≤ y.1 ∨ y.1 + y.2 ≤ x.1) ∧
    ∃ l, WellFormed s l ∧
      ∀ x ∈ live,
        (∀ f ∈ l, x.1 + x.2 ≤ f ∨ f + (s.mem f).size ≤ x.1) ∧
        (x.1 + x.2 ≤ s.HEAD ∨ s.HEAD + MEM_BLOCK_ADMIN_SIZE ≤ x.1) ∧
        (x.1 + x.2 ≤ s.TAIL ∨ s.TAIL + MEM_BLOCK_ADMIN_SIZE ≤ x.1) := by
  obtain ⟨bs, hg⟩ := Reachable_good h
  have hL := hg.layout
  have hdis := Tiles_disjoint hL.tiles hL.pos
  have hinj := Tiles_addr_inj hL.tiles hL.pos
  have hlive : ∀ x ∈ live, ∃ b ∈ bs, b.kind = Kind.live x.2 ∧ b.addr + 16 = x.1 ∧
      x.2 + 16 ≤ b.size := by
    rintro ⟨p, n⟩ hx
    obtain ⟨b, hb, hk, hp⟩ := (hg.rel p n).1 hx
    exact ⟨b, hb, hk, hp, ((hL.ok b hb).2.2.2.2 n hk).2⟩
  have key : ∀ x ∈ live, ∀ b2 ∈ bs, b2.kind.is_live = false →
      x.1 + x.2 ≤ b2.addr ∨ b2.addr + b2.size ≤ x.1 := by
    intro x hx b2 hb2 hl2
    obtain ⟨b, hb, hk, hp, hn⟩ := hlive x hx
    have hne : b.addr ≠ b2.addr := by
      intro he
      have := hinj b hb b2 hb2 he
      rw [this] at hk
      rw [hk] at hl2
      simp [Kind.is_live] at hl2
    rcases hdis b hb b2 hb2 hne with h1 | h1
    · left; omega
    · right; omega
  constructor
  · intro x hx y hy hxy
    obtain ⟨b, hb, hk, hp, hn⟩ := hlive x hx
    obtain ⟨b2, hb2, hk2, hp2, hn2⟩ := hlive y hy
    have hne : b.addr ≠ b2.addr := by
      intro he
      have e := hinj b hb b2 hb2 he
      apply hxy
      rw [e, hk2] at hk
      simp only [Kind.live.injEq] at hk
      exact Prod.ext (by omega) hk.symm
    rcases hdis b hb b2 hb2 hne with h1 | h1
    · left; omega
    · right; omega
  · obtain ⟨l, hwf, -, hl⟩ := hL.wellformed
    obtain ⟨b0, mid, t, e, h1, h2, h3, h4, h5, h6, -⟩ := hL.shape
    refine ⟨l, hwf, ?_⟩
    intro x hx
    refine ⟨?_, ?_, ?_⟩
    · intro f hf
      obtain ⟨b, hb, hk, rfl⟩ := (hl f).1 hf
      rw [hL.sizes b hb]
      exact key x hx b hb (Kind.free_not_live hk)
    · have := key x hx b0 (by rw [e]; simp) (by rw [h2]; rfl)
      rw [h1, h3] at this
      exact this
    · have := key x hx t (by rw [e]; simp) (by rw [h5]; rfl)
      rw [h4, h6] at this
      exact this

theorem alloc_state_returns {fuel : Nat} {s : Pool} {n p : Nat}
    (h : (mempool_alloc fuel s n).map Prod.fst = some p) :
    AllocReturns s n p (alloc_state fuel s n) := by
  refine ⟨fuel, ?_⟩
  unfold alloc_state
  cases hm : mempool_alloc fuel s n with
  | none => rw [hm] at h; simp at h
  | some r =>
    rw [hm] at h
    simp only [Option.map_some', Option.some.injEq] at h
    simp [← h]

theorem free_state_returns {fuel : Nat} {s : Pool} {p : Nat} {st : mempool_status_t}
    (h : (mempool_free fuel s p).map Prod.fst = some st) :
    FreeReturns s p st (free_state fuel s p) := by
  refine ⟨fuel, ?_⟩
  unfold free_state
  cases hm : mempool_free fuel s p with
  | none => rw [hm] at h; simp at h
  | some r =>
    rw [hm] at h
    simp only [Option.map_some', Option.some.injEq] at h
    simp [← h]

theorem Reachable_alloc_ok {m0 : Mem} {storage size : Nat} {s : Pool}
    {live : List (Nat × Nat)} (h : Reachable m0 storage size s live) (n p : Nat) {s1 : Pool}
    (hn32 : n < UINT32) (hreq : ALIGN_UP n + MEM_BLOCK_ADMIN_SIZE < UINT32)
    (hret : AllocReturns s n p s1) (hp : p ≠ 0) :
    Reachable m0 storage size s1 ((p, n) :: live) := by
  have := Reachable.alloc h hn32 hreq hret
  rwa [if_neg hp] at this

theorem Reachable_free_ok {m0 : Mem} {storage size : Nat} {s : Pool}
    {live : List (Nat × Nat)} (h : Reachable m0 storage size s live) (p n : Nat) {s1 : Pool}
    {st : mempool_status_t} (hp : (p, n) ∈ live) (hret : FreeReturns s p st s1)
    (live1 : List (Nat × Nat)) (hl : live.filter (fun x => decide (x.1 ≠ p)) = live1) :
    Reachable m0 storage size s1 live1 := by
  subst hl
  exact Reachable.free h hp hret

theorem test_pool_reachable : Reachable zero_mem 4096 2000 test_pool [] :=
  Reachable.init (by decide) (by decide) (by decide) (Prod.ext (by decide) rfl)

theorem test_pool_reachable1 :
    Reachable zero_mem 4096 2000 (alloc_state 4 test_pool 101) [(4128, 101)] :=
  Reachable_alloc_ok test_pool_reachable 101 4128 (by decide) (by decide)
    (alloc_state_returns (by decide)) (by decide)

theorem test_pool_reachable2 :
    Reachable zero_mem 4096 2000 (alloc_state 4 (alloc_state 4 test_pool 101) 202)
      [(4256, 202), (4128, 101)] :=
  Reachable_alloc_ok test_pool_reachable1 202 4256 (by decide) (by decide)
    (alloc_state_returns (by decide)) (by decide)

theorem test_pool_reachable3 :
    Reachable zero_mem 4096 2000
      (free_state 4 (alloc_state 4 (alloc_state 4 test_pool 101) 202) 4128)
      [(4256, 202)] :=
  Reachable_free_ok test_pool_reachable2 4128 101 (by decide) (free_state_returns
    (by decide : _ = some MEMPOOL_SUCCESS)) _ (by decide)

theorem AllocAll_reachable {m0 : Mem} {storage size : Nat} {s s1 : Pool}
    {ns ps : List Nat} (h : AllocAll s ns ps s1) :
    ∀ live : List (Nat × Nat), Reachable m0 storage size s live →
      (∀ n ∈ ns, n < UINT32 ∧ ALIGN_UP n + MEM_BLOCK_ADMIN_SIZE < UINT32) →
      ∃ live1, Reachable m0 storage size s1 live1 ∧
        live1.map Prod.fst = ps.reverse ++ live.map Prod.fst := by
  induction h with
  | nil s => intro live hr _; exact ⟨live, hr, by simp⟩
  | @cons s s1 s2 n p ns ps hret hp _ ih =>
    intro live hr hns
    have h1 := hns n (List.mem_cons_self _ _)
    have hr1 := Reachable_alloc_ok hr n p h1.1 h1.2 hret hp
    obtain ⟨live1, hr2, hl⟩ := ih _ hr1 (fun k hk => hns k (List.mem_cons_of_mem _ hk))
    refine ⟨live1, hr2, ?_⟩
    rw [hl]
    simp

theorem FreeAll_exists {m0 : Mem} {storage size : Nat} (qs : List Nat) :
    ∀ (s : Pool) (live : List (Nat × Nat)), Reachable m0 storage size s live →
      qs.Nodup → (∀ q ∈ qs, q ∈ live.map Prod.fst) →
      ∃ s2 live2, FreeAll s qs s2 ∧ Reachable m0 storage size s2 live2 ∧
        ∀ x ∈ live2, x ∈ live ∧ x.1 ∉ qs := by
  induction qs with
  | nil => intro s live hr _ _; exact ⟨s, live, FreeAll.nil s, hr, by simp⟩
  | cons q qs ih =>
    intro s live hr hnd hq
    obtain ⟨hqn, hnd1⟩ := List.nodup_cons.1 hnd
    obtain ⟨⟨p, n⟩, hx, hp⟩ := List.mem_map.1 (hq q (List.mem_cons_self _ _))
    simp only at hp
    subst hp
    obtain ⟨bs, hg⟩ := Reachable_good hr
    obtain ⟨s1, bs1, hret, -⟩ := Good_free hg hx
    have hr1 := Reachable.free hr hx hret
    obtain ⟨s2, live2, hfa, hr2, hl⟩ := ih s1 _ hr1 hnd1 (by
      intro q1 hq1
      obtain ⟨y, hy, hy1⟩ := List.mem_map.1 (hq q1 (List.mem_cons_of_mem _ hq1))
      refine List.mem_map.2 ⟨y, ?_, hy1⟩
      simp only [List.mem_filter, decide_eq_true_eq]
      refine ⟨hy, ?_⟩
      rw [hy1]
      intro h
      exact hqn (h ▸ hq1))
    refine ⟨s2, live2, FreeAll.cons hret hfa, hr2, ?_⟩
    intro x hx2
    obtain ⟨h1, h2⟩ := hl x hx2
    simp only [List.mem_filter, decide_eq_true_eq] at h1
    refine ⟨h1.1, ?_⟩
    simp only [List.mem_cons, not_or]
    exact ⟨h1.2, h2⟩

/-- With no live allocation, the layout is the one `mempool_init` made: the
two sentinels around a single free block. -/
theorem Good_empty {storage size : Nat} {s : Pool} {bs : List Blk}
    (hg : Good storage size s [] bs) :
    bs = [⟨s.HEAD, 16, Kind.sentinel⟩, ⟨s.HEAD + 16, s.TAIL - s.HEAD - 16, Kind.free⟩,
      ⟨s.TAIL, 16, Kind.sentinel⟩] := by
  have hL := hg.layout
  obtain ⟨b0, mid, t, rfl, h1, h2, h3, h4, h5, h6, hmid⟩ := hL.shape
  have hfree : ∀ b ∈ mid, b.kind = Kind.free := by
    intro b hb
    cases hk : b.kind with
    | sentinel => exact absurd hk (hmid b hb)
    | free => rfl
    | live k =>
      have := (hg.rel (b.addr + 16) k).2 ⟨b, by simp [hb], hk, rfl⟩
      simp at this
  have hti := hL.tiles
  have hHT := hL.head_tail
  have e0 : b0 = ⟨s.HEAD, 16, Kind.sentinel⟩ := by
    cases b0; simp only [Blk.mk.injEq] at *; exact ⟨h1, h3, h2⟩
  have et : t = ⟨s.TAIL, 16, Kind.sentinel⟩ := by
    cases t; simp only [Blk.mk.injEq] at *; exact ⟨h4, h6, h5⟩
  cases mid with
  | nil =>
    exfalso
    simp only [List.nil_append, Tiles_cons, Tiles_nil] at hti
    omega
  | cons f mid =>
    cases mid with
    | cons f2 mid =>
      exfalso
      have hna := hg.noadj
      simp only [List.cons_append] at hna
      rw [NoAdjFree_cons_cons, NoAdjFree_cons_cons] at hna
      exact hna.2.1 ⟨hfree f (by simp), hfree f2 (by simp)⟩
    | nil =>
      simp only [List.cons_append, List.nil_append, Tiles_cons, Tiles_nil] at hti
      have ef : f = ⟨s.HEAD + 16, s.TAIL - s.HEAD - 16, Kind.free⟩ := by
        have hk := hfree f (by simp)
        cases f
        simp only [Blk.mk.injEq] at *
        refine ⟨?_, ?_, hk⟩ <;> omega
      rw [e0, et, ef]
      rfl

/-- In a state with no live allocation the list in memory is `HEAD`, one free
block right after it that reaches up to `TAIL`, and `TAIL`. -/
theorem Good_empty_mem {storage size : Nat} {s : Pool} {bs : List Blk}
    (hg : Good storage size s [] bs) :
    WellFormed s [s.HEAD + 16] ∧ (s.mem s.HEAD).next = s.HEAD + 16 ∧
    (s.mem (s.HEAD + 16)).size = s.TAIL - s.HEAD - 16 ∧
    (s.mem (s.HEAD + 16)).next = s.TAIL ∧ (s.mem s.TAIL).next = 0 := by
  have e := Good_empty hg
  have hL := hg.layout
  obtain ⟨l, hwf, hn, -⟩ := hL.wellformed
  rw [e] at hn
  simp only [nodes, Kind.is_live, Bool.false_eq_true, if_false, List.cons.injEq, true_and] at hn
  have hl : l = [s.HEAD + 16] := by
    cases l with
    | nil => simp at hn
    | cons a l =>
      cases l with
      | nil => simp at hn; rw [hn]
      | cons b l => simp at hn
  subst hl
  have hs := hL.sizes ⟨s.HEAD + 16, s.TAIL - s.HEAD - 16, Kind.free⟩ (by rw [e]; simp)
  have hseg := hwf.2.1
  simp only [List.singleton_append, Seg_cons, Seg_nil] at hseg
  exact ⟨hwf, hseg.1, hs, hseg.2.2.1, hseg.2.2.2.2⟩

/-- A successful allocation right after `mempool_init` shows that the free
block of the arena holds at least a minimal block. -/
theorem Good_alloc_room {storage size : Nat} {s s1 : Pool} {bs : List Blk} {n p : Nat}
    (hg : Good storage size s [] bs)
    (hn32 : n < UINT32) (hreq : ALIGN_UP n + MEM_BLOCK_ADMIN_SIZE < UINT32)
    (hret : AllocReturns s n p s1) (hp : p ≠ 0) : 64 ≤ size / 16 * 16 := by
  have hn : n ≠ 0 := by
    rintro rfl
    have h0 : AllocReturns s 0 0 s := ⟨0, by simp [mempool_alloc]⟩
    exact hp (AllocReturns_unique h0 hret).1.symm
  have e := Good_empty hg
  obtain ⟨-, -, r32⟩ := alloc_req_facts (Nat.pos_of_ne_zero hn) hn32
  rcases Layout_alloc hg.layout hg.noadj (Nat.pos_of_ne_zero hn) hn32 hreq with
    ⟨h0, -⟩ | ⟨A, c, R, s2, hbs, hc, hfit, -, -, -, -, -, -⟩
  · exact absurd (AllocReturns_unique h0 hret).1.symm hp
  · have hcin : c ∈ bs := by rw [hbs]; simp
    rw [e] at hcin
    simp only [List.mem_cons, List.mem_singleton, List.not_mem_nil, or_false] at hcin
    have hH := hg.head_eq
    have hT := hg.tail_eq
    rcases hcin with rfl | rfl | rfl
    · simp at hc
    · simp only at hfit
      omega
    · simp at hc

/-- C3 (full coalescing). On 16-aligned storage, after `mempool_init` and any
`N ≥ 1` successful `mempool_alloc` calls with non-wrapping sizes `ns`, which
return the pointers `ps`, freeing all of them in any order `qs` (a
permutation of `ps`) goes through with `MEMPOOL_SUCCESS` every time and leaves
the free list as `mempool_init` made it: `HEAD`, the single free block at
`HEAD + 16` of size `TAIL - HEAD - 16` with `next = TAIL`, and `TAIL`.  So
`mempool_alloc (ALIGN_DOWN (size - 3 * MEM_BLOCK_ADMIN_SIZE))` then returns a
non-null pointer. -/
theorem C3_full_coalescing (m0 : Mem) (storage size : Nat) (s0 s1 : Pool)
    (ns ps qs : List Nat)
    (halign : storage % MAX_ALIGN = 0) (hsize : size < UINT32)
    (hfit : storage + size ≤ UINTPTR)
    (hinit : mempool_init (fresh m0) storage size = (MEMPOOL_SUCCESS, s0))
    (hne : ns ≠ [])
    (hns : ∀ n ∈ ns, n < UINT32 ∧ ALIGN_UP n + MEM_BLOCK_ADMIN_SIZE < UINT32)
    (hallocs : AllocAll s0 ns ps s1) (hperm : qs.Perm ps) :
    ∃ s2, FreeAll s1 qs s2 ∧ s2.HEAD = s0.HEAD ∧ s2.TAIL = s0.TAIL ∧
      WellFormed s2 [s2.HEAD + MEM_BLOCK_ADMIN_SIZE] ∧
      (s2.mem s2.HEAD).next = s2.HEAD + MEM_BLOCK_ADMIN_SIZE ∧
      (s2.mem (s2.HEAD + MEM_BLOCK_ADMIN_SIZE)).size =
        s2.TAIL - s2.HEAD - MEM_BLOCK_ADMIN_SIZE ∧
      (s2.mem (s2.HEAD + MEM_BLOCK_ADMIN_SIZE)).next = s2.TAIL ∧
      (s2.mem s2.TAIL).next = 0 ∧
      ∃ p s3, AllocReturns s2 (ALIGN_DOWN (size - 3 * MEM_BLOCK_ADMIN_SIZE)) p s3 ∧ p ≠ 0 := by
  have hr0 : Reachable m0 storage size s0 [] := Reachable.init halign hsize hfit hinit
  obtain ⟨bs0, hg0⟩ := Reachable_good hr0
  obtain ⟨live1, hr1, hl1⟩ := AllocAll_reachable hallocs [] hr0 hns
  simp only [List.map_nil, List.append_nil] at hl1
  obtain ⟨bs1, hg1⟩ := Reachable_good hr1
  have hnd : qs.Nodup := by
    have h1 := hg1.nodup
    rw [hl1] at h1
    exact hperm.nodup_iff.2 (List.nodup_reverse.1 h1)
  obtain ⟨s2, live2, hfa, hr2, hl2⟩ := FreeAll_exists qs s1 live1 hr1 hnd (by
    intro q hq
    rw [hl1]
    exact List.mem_reverse.2 (hperm.mem_iff.1 hq))
  have hempty : live2 = [] := by
    rw [List.eq_nil_iff_forall_not_mem]
    intro x hx
    obtain ⟨h1, h2⟩ := hl2 x hx
    apply h2
    have : x.1 ∈ live1.map Prod.fst := List.mem_map.2 ⟨x, h1, rfl⟩
    rw [hl1] at this
    exact hperm.mem_iff.2 (List.mem_reverse.1 this)
  subst hempty
  obtain ⟨bs2, hg2⟩ := Reachable_good hr2
  obtain ⟨hwf, m1, m2, m3, m4⟩ := Good_empty_mem hg2
  -- the arena has room for a block, since the first allocation succeeded
  have hroom : 64 ≤ size / 16 * 16 := by
    cases hallocs with
    | nil => exact absurd rfl hne
    | cons hret hp _ =>
      exact Good_alloc_room hg0 (hns _ (List.mem_cons_self _ _)).1
        (hns _ (List.mem_cons_self _ _)).2 hret hp
  have hH := hg2.head_eq
  have hT := hg2.tail_eq
  refine ⟨s2, hfa, by rw [hH, hg0.head_eq], by rw [hT, hg0.tail_eq], ?_, ?_, ?_, ?_, m4, ?_⟩
  · simpa using hwf
  · simpa using m1
  · simpa using m2
  · simpa using m3
  · have hU := hsize
    simp only [UINT32] at hU
    have hb : ALIGN_DOWN (size - 3 * MEM_BLOCK_ADMIN_SIZE) = size / 16 * 16 - 48 := by
      simp only [ALIGN_DOWN_eq, MEM_BLOCK_ADMIN_SIZE_eq]; omega
    rw [hb]
    have hn32 : size / 16 * 16 - 48 < UINT32 := by simp only [UINT32]; omega
    have hup : ALIGN_UP (size / 16 * 16 - 48) = size / 16 * 16 - 48 := by
      rw [ALIGN_UP_eq _ hn32]; omega
    have hreq : ALIGN_UP (size / 16 * 16 - 48) + MEM_BLOCK_ADMIN_SIZE < UINT32 := by
      rw [hup]; simp only [UINT32, MEM_BLOCK_ADMIN_SIZE_eq]; omega
    rcases Layout_alloc hg2.layout hg2.noadj (by omega : 0 < size / 16 * 16 - 48) hn32 hreq with
      ⟨-, hsmall⟩ | ⟨A, c, R, s3, -, -, -, -, hret, -, -, -, -⟩
    · exfalso
      have := hsmall ⟨s2.HEAD + 16, s2.TAIL - s2.HEAD - 16, Kind.free⟩
        (by rw [Good_empty hg2]; simp) rfl
      rw [hup] at this
      simp only at this
      omega
    · exact ⟨c.addr + 16, s3, hret, by omega⟩

/-- The free block that `mempool_free` leaves in place of a handed-out block
`c` starts at or before `c` and ends at or after it. -/
theorem Layout_free_covers {s : Pool} {A R A1 R1 : List Blk} {c : Blk} {lo hi : Nat}
    (hL : Layout s (A ++ c :: R))
    (hA : (A1 = A ∧ lo = c.addr) ∨ (∃ pv, A = A1 ++ [pv] ∧ pv.kind = Kind.free ∧ lo = pv.addr))
    (hR : (R1 = R ∧ hi = c.addr + c.size) ∨
      (∃ nx, R = nx :: R1 ∧ nx.kind = Kind.free ∧ hi = nx.addr + nx.size)) :
    lo ≤ c.addr ∧ c.addr + c.size ≤ hi := by
  have ht := hL.tiles
  rw [Tiles_split] at ht
  have bA := (Tiles_bounds ht.1).2
  have bR := (Tiles_bounds ht.2).2
  constructor
  · rcases hA with ⟨-, h⟩ | ⟨pv, h1, -, h2⟩
    · omega
    · have := bA pv (by rw [h1]; simp)
      omega
  · rcases hR with ⟨-, h⟩ | ⟨nx, h1, -, h2⟩
    · omega
    · have := bR nx (by rw [h1]; simp)
      omega

/-- C6 as amended (round-trip reuse under first fit). In every state reached
under the contract, if a live pointer `p` is freed and the next operation is
`mempool_alloc m` for a size `m > 0` whose required size fits in the freed
block, then the free returns `MEMPOOL_SUCCESS` and the allocation returns a
non-null pointer `q ≤ p`; and `q = p` whenever, after the free, no block of
the free list at an address below the header of `p` is large enough. -/
theorem C6_reuse_first_fit (m0 : Mem) (storage size : Nat) (s s1 : Pool)
    (live : List (Nat × Nat)) (p n m : Nat) (st : mempool_status_t)
    (h : Reachable m0 storage size s live) (hp : (p, n) ∈ live)
    (hfree : FreeReturns s p st s1) (hm : 0 < m) (hm32 : m < UINT32)
    (hfit : ALIGN_UP m + MEM_BLOCK_ADMIN_SIZE ≤ (s.mem (p - MEM_BLOCK_ADMIN_SIZE)).size) :
    st = MEMPOOL_SUCCESS ∧
    ∃ q s2, AllocReturns s1 m q s2 ∧ q ≠ 0 ∧ q ≤ p ∧
      ((∀ l, WellFormed s1 l → ∀ f ∈ l, f + MEM_BLOCK_ADMIN_SIZE < p →
          (s1.mem f).size < ALIGN_UP m + MEM_BLOCK_ADMIN_SIZE) → q = p) := by
  simp only [MEM_BLOCK_ADMIN_SIZE_eq] at hfit ⊢
  obtain ⟨bs, hg⟩ := Reachable_good h
  obtain ⟨c, hcin, hc, rfl⟩ := (hg.rel p n).1 hp
  obtain ⟨A, R, rfl⟩ := List.append_of_mem hcin
  obtain ⟨c1, c2, c3, c4, c5, c6, c7⟩ := hg.layout.block hcin
  rw [show c.addr + 16 - 16 = c.addr by omega, c6] at hfit
  obtain ⟨s1a, A1, R1, lo, hi, hret, -, -, hL1, hna1, hA, hR⟩ :=
    Layout_free hg.layout hg.noadj hc
  obtain ⟨rfl, rfl⟩ := FreeReturns_unique hret hfree
  obtain ⟨hlo, hhi⟩ := Layout_free_covers hg.layout hA hR
  refine ⟨rfl, ?_⟩
  have hreq : ALIGN_UP m + MEM_BLOCK_ADMIN_SIZE < UINT32 := by
    simp only [MEM_BLOCK_ADMIN_SIZE_eq]; omega
  rcases Layout_alloc hL1 hna1 hm hm32 hreq with
    ⟨-, hsmall⟩ | ⟨A2, c', R2, s2, hbs, hc', hfit', hA2, hret2, -, -, -, -⟩
  · exfalso
    have := hsmall ⟨lo, hi - lo, Kind.free⟩ (by simp) rfl
    simp only at this
    omega
  · have hblk : (⟨lo, hi - lo, Kind.free⟩ : Blk) ∈ A2 ++ c' :: R2 := by rw [← hbs]; simp
    have ht := hL1.tiles
    rw [hbs, Tiles_split] at ht
    have bR2 := (Tiles_bounds ht.2).2
    have hle : c'.addr ≤ lo := by
      simp only [List.mem_append, List.mem_cons] at hblk
      rcases hblk with h1 | h1 | h1
      · have := hA2 _ h1 rfl
        simp only at this
        omega
      · rw [← h1]
      · have := bR2 _ h1
        simp only at this
        omega
    refine ⟨c'.addr + 16, s2, hret2, by omega, by omega, ?_⟩
    intro hlow
    obtain ⟨l, hwf, -, hl⟩ := hL1.wellformed
    have hcl : c'.addr ∈ l := (hl _).2 ⟨c', by rw [hbs]; simp, hc', rfl⟩
    by_contra hne
    have := hlow l hwf c'.addr hcl (by omega)
    rw [hL1.sizes c' (by rw [hbs]; simp)] at this
    omega

/-- Witness for C2: the pool of `test.c` after `mempool_alloc(101)` and
`mempool_alloc(202)`. -/
theorem C2_no_overlap_witness :
    Reachable zero_mem 4096 2000 (alloc_state 4 (alloc_state 4 test_pool 101) 202)
      [(4256, 202), (4128, 101)] ∧
    (∀ x ∈ [(4256, 202), (4128, 101)], ∀ y ∈ [(4256, 202), (4128, 101)], x ≠ y →
      x.1 + x.2 ≤ y.1 ∨ y.1 + y.2 ≤ x.1) :=
  ⟨test_pool_reachable2,
    (C2_no_overlap zero_mem 4096 2000 _ _ test_pool_reachable2).1⟩

/-- Witness for C3: the scenario of `test_coalescing` in `test.c`: allocate
101, 202 and 30 bytes, then free the first, the third and the second. -/
theorem C3_full_coalescing_witness :
    AllocAll test_pool [101, 202, 30] [4128, 4256, 4480]
      (alloc_state 4 (alloc_state 4 (alloc_state 4 test_pool 101) 202) 30) ∧
    [4128, 4480, 4256].Perm [4128, 4256, 4480] ∧
    ∃ s2, FreeAll (alloc_state 4 (alloc_state 4 (alloc_state 4 test_pool 101) 202) 30)
        [4128, 4480, 4256] s2 ∧
      ∃ p s3, AllocReturns s2 (ALIGN_DOWN (2000 - 3 * MEM_BLOCK_ADMIN_SIZE)) p s3 ∧ p ≠ 0 :=
  have ha : AllocAll test_pool [101, 202, 30] [4128, 4256, 4480]
      (alloc_state 4 (alloc_state 4 (alloc_state 4 test_pool 101) 202) 30) :=
    AllocAll.cons (alloc_state_returns (by decide)) (by decide)
      (AllocAll.cons (alloc_state_returns (by decide)) (by decide)
        (AllocAll.cons (alloc_state_returns (by decide)) (by decide) (AllocAll.nil _)))
  have hp : [4128, 4480, 4256].Perm [4128, 4256, 4480] :=
    List.Perm.cons _ (List.Perm.swap _ _ _)
  have h := C3_full_coalescing zero_mem 4096 2000 test_pool _ [101, 202, 30]
    [4128, 4256, 4480] [4128, 4480, 4256] (by decide) (by decide) (by decide)
    (Prod.ext (by decide) rfl) (by decide) (by decide) ha hp
  ⟨ha, hp, h.elim fun s2 h2 => ⟨s2, h2.1, h2.2.2.2.2.2.2.2.2⟩⟩

/-- C6 as stated fails. In the pool of `test.c`, allocate 101 bytes (4128) and
202 bytes (4256), then free 4128: this state is reached under the contract and
4256 is live in it.  Freeing 4256 and then asking for 30 bytes, which fit in
the freed block of 224 bytes, returns 4128 and not 4256. -/
theorem C6_reuse_counterexample :
    Reachable zero_mem 4096 2000
      (free_state 4 (alloc_state 4 (alloc_state 4 test_pool 101) 202) 4128) [(4256, 202)] ∧
    FreeReturns (free_state 4 (alloc_state 4 (alloc_state 4 test_pool 101) 202) 4128) 4256
      MEMPOOL_SUCCESS
      (free_state 4 (free_state 4 (alloc_state 4 (alloc_state 4 test_pool 101) 202) 4128) 4256) ∧
    ALIGN_UP 30 + MEM_BLOCK_ADMIN_SIZE ≤
      ((free_state 4 (alloc_state 4 (alloc_state 4 test_pool 101) 202) 4128).mem
        (4256 - MEM_BLOCK_ADMIN_SIZE)).size ∧
    AllocReturns
      (free_state 4 (free_state 4 (alloc_state 4 (alloc_state 4 test_pool 101) 202) 4128) 4256)
      30 4128
      (alloc_state 4 (free_state 4 (free_state 4 (alloc_state 4 (alloc_state 4 test_pool 101)
        202) 4128) 4256) 30) ∧
    4128 ≠ 4256 :=
  ⟨test_pool_reachable3, free_state_returns (by decide), by decide,
    alloc_state_returns (by decide), by decide⟩

/-- Witness for the amended C6: in the pool of `test.c` after allocating 101
and 202 bytes, free the first pointer and ask for 30 bytes. -/
theorem C6_reuse_first_fit_witness :
    Reachable zero_mem 4096 2000 (alloc_state 4 (alloc_state 4 test_pool 101) 202)
      [(4256, 202), (4128, 101)] ∧
    ∃ q s2, AllocReturns (free_state 4 (alloc_state 4 (alloc_state 4 test_pool 101) 202) 4128)
      30 q s2 ∧ q ≠ 0 ∧ q ≤ 4128 :=
  have h := C6_reuse_first_fit zero_mem 4096 2000 _ _ _ 4128 101 30 MEMPOOL_SUCCESS
    test_pool_reachable2 (by decide)
    (free_state_returns (by decide) :
      FreeReturns (alloc_state 4 (alloc_state 4 test_pool 101) 202) 4128 MEMPOOL_SUCCESS
        (free_state 4 (alloc_state 4 (alloc_state 4 test_pool 101) 202) 4128))
    (by decide) (by decide) (by decide)
  ⟨test_pool_reachable2, h.2.elim fun q hq => hq.elim fun s2 h2 => ⟨q, s2, h2.1, h2.2.1, h2.2.2.1⟩⟩

/-- Where `mempool_free` gets past its two reads, it rejects bad pointers
without any effect: for a pointer `loc` that is null, or not a multiple of
`MAX_ALIGN`, or whose header address `block = loc - 16` has
`block < HEAD + HEAD->size` or `block + block->size > TAIL`, it returns
`MEMPOOL_INVALID_PARAM` whatever the fuel and leaves the pool state as it was.
The first part takes the two range tests as the code evaluates them in
`uintptr_t`; the second part takes them in plain arithmetic, for addresses and
sums that are representable. -/
theorem mempool_free_rejects (s : Pool) (loc : Nat) :
    ((loc = 0 ∨ loc % MAX_ALIGN ≠ 0 ∨
        uptr_sub loc MEM_BLOCK_ADMIN_SIZE < uptr_add s.HEAD (s.mem s.HEAD).size ∨
        uptr_add (uptr_sub loc MEM_BLOCK_ADMIN_SIZE)
          (s.mem (uptr_sub loc MEM_BLOCK_ADMIN_SIZE)).size > s.TAIL) →
      ∀ fuel, mempool_free fuel s loc = some (MEMPOOL_INVALID_PARAM, s)) ∧
    (loc < UINTPTR → s.HEAD + (s.mem s.HEAD).size < UINTPTR →
      loc - MEM_BLOCK_ADMIN_SIZE + (s.mem (loc - MEM_BLOCK_ADMIN_SIZE)).size < UINTPTR →
      (loc = 0 ∨ loc % MAX_ALIGN ≠ 0 ∨
        loc - MEM_BLOCK_ADMIN_SIZE < s.HEAD + (s.mem s.HEAD).size ∨
        loc - MEM_BLOCK_ADMIN_SIZE + (s.mem (loc - MEM_BLOCK_ADMIN_SIZE)).size > s.TAIL) →
      ∀ fuel, mempool_free fuel s loc = some (MEMPOOL_INVALID_PARAM, s)) := by
  have key : (loc = 0 ∨ loc % MAX_ALIGN ≠ 0 ∨
        uptr_sub loc MEM_BLOCK_ADMIN_SIZE < uptr_add s.HEAD (s.mem s.HEAD).size ∨
        uptr_add (uptr_sub loc MEM_BLOCK_ADMIN_SIZE)
          (s.mem (uptr_sub loc MEM_BLOCK_ADMIN_SIZE)).size > s.TAIL) →
      ∀ fuel, mempool_free fuel s loc = some (MEMPOOL_INVALID_PARAM, s) := by
    intro hbad fuel
    simp only [mempool_free]
    by_cases h1 : loc = 0 ∨ loc % MAX_ALIGN ≠ 0
    · rw [if_pos h1]
    · rw [if_neg h1]
      have h2 : uptr_sub loc MEM_BLOCK_ADMIN_SIZE < uptr_add s.HEAD (s.mem s.HEAD).size ∨
          uptr_add (uptr_sub loc MEM_BLOCK_ADMIN_SIZE)
            (s.mem (uptr_sub loc MEM_BLOCK_ADMIN_SIZE)).size > s.TAIL := by
        rcases hbad with h | h | h | h
        · exact absurd (Or.inl h) h1
        · exact absurd (Or.inr h) h1
        · exact Or.inl h
        · exact Or.inr h
      rw [if_pos h2]
  refine ⟨key, ?_⟩
  intro hloc hH hB hbad
  apply key
  by_cases h1 : loc = 0 ∨ loc % MAX_ALIGN ≠ 0
  · rcases h1 with h | h
    · exact Or.inl h
    · exact Or.inr (Or.inl h)
  · have hsub : uptr_sub loc MEM_BLOCK_ADMIN_SIZE = loc - MEM_BLOCK_ADMIN_SIZE := by
      simp only [MAX_ALIGN_eq, not_or, not_not] at h1
      simp only [uptr_sub, UINTPTR, MEM_BLOCK_ADMIN_SIZE_eq] at *
      omega
    have hadd1 : uptr_add s.HEAD (s.mem s.HEAD).size = s.HEAD + (s.mem s.HEAD).size := by
      simp only [uptr_add, UINTPTR] at *
      omega
    have hadd2 : uptr_add (loc - MEM_BLOCK_ADMIN_SIZE) (s.mem (loc - MEM_BLOCK_ADMIN_SIZE)).size =
        loc - MEM_BLOCK_ADMIN_SIZE + (s.mem (loc - MEM_BLOCK_ADMIN_SIZE)).size := by
      simp only [uptr_add, UINTPTR] at *
      omega
    rw [hsub, hadd1, hadd2]
    exact hbad

theorem get_memblock_loop_null (req : Nat) :
    ∀ (fuel : Nat) (s : Pool) (previous current : Nat) (r : Nat × Pool),
      get_memblock_loop req fuel s previous current = some r → r.1 = 0 → r.2 = s := by
  intro fuel
  induction fuel with
  | zero => intro s previous current r h; simp [get_memblock_loop] at h
  | succ k ih =>
    intro s previous current r h hr
    simp only [get_memblock_loop] at h
    split_ifs at h with h0 hfit
    · simp only [Option.some.injEq] at h
      rw [← h]
    · simp only [Option.some.injEq] at h
      rw [← h] at hr
      exact absurd hr h0
    · exact ih s current _ r h hr

theorem get_memblock_loop_mem (req : Nat) (s : Pool) :
    ∀ (l : List Nat) (fuel : Nat) (previous current : Nat) (r : Nat × Pool),
      Seg s.mem current l 0 →
      get_memblock_loop req fuel s previous current = some r → r.1 = 0 ∨ r.1 ∈ l := by
  intro l
  induction l with
  | nil =>
    intro fuel previous current r hseg h
    simp only [Seg_nil] at hseg
    subst hseg
    cases fuel with
    | zero => simp [get_memblock_loop] at h
    | succ k =>
      simp only [get_memblock_loop, if_true, Option.some.injEq] at h
      left; rw [← h]
  | cons x l ih =>
    intro fuel previous current r hseg h
    obtain ⟨h1, h2, h3⟩ := hseg
    subst h1
    cases fuel with
    | zero => simp [get_memblock_loop] at h
    | succ k =>
      simp only [get_memblock_loop, if_neg h2] at h
      split_ifs at h with hfit
      · simp only [Option.some.injEq] at h
        right; rw [← h]; exact List.mem_cons_self _ _
      · rcases ih k current _ r h3 h with h4 | h4
        · exact Or.inl h4
        · exact Or.inr (List.mem_cons_of_mem _ h4)

theorem get_memblock_loop_returns (req : Nat) (s : Pool) (l : List Nat) (previous current : Nat)
    (hseg : Seg s.mem current l 0) :
    ∃ r, get_memblock_loop req (l.length + 1) s previous current = some r := by
  rcases first_split (fun b => req ≤ (s.mem b).size) l with hnone | ⟨l1, b, l2, rfl, h1, hb⟩
  · exact ⟨_, get_memblock_loop_none req s l previous current hseg
      (fun x hx => by have := hnone x hx; omega)⟩
  · have := get_memblock_loop_found req s b l2 0 l1 previous current hseg
      (fun x hx => by have := h1 x hx; omega) hb
    refine ⟨_, get_memblock_loop_mono req _ s previous current _ this _ ?_⟩
    simp

/-- C12 (a failed allocation has no effect). `mempool_alloc 0` returns `NULL`
and changes nothing; and in every well-formed pool state whose arena does not
end at the very top of the address space, `mempool_alloc n` returns for every
`n`, and whenever it returns `NULL` the pool state afterwards is the state
before the call: every header, `HEAD` and `TAIL` are as they were. -/
theorem C12_failed_alloc_no_effect :
    (∀ fuel s, mempool_alloc fuel s 0 = some (0, s)) ∧
    ∀ (s : Pool) (l : List Nat) (n : Nat), WellFormed s l →
      s.TAIL + MEM_BLOCK_ADMIN_SIZE < UINTPTR →
      (∃ p s1, AllocReturns s n p s1) ∧ ∀ s1, AllocReturns s n 0 s1 → s1 = s := by
  constructor
  · intro fuel s
    simp [mempool_alloc]
  · intro s l n hwf htop
    obtain ⟨hH, hseg, hsort, htail, -⟩ := hwf
    simp only [MEM_BLOCK_ADMIN_SIZE_eq] at htop
    have hle : ∀ x ∈ l ++ [s.TAIL], x ≤ s.TAIL := by
      intro x hx
      simp only [List.Sorted, List.pairwise_cons, List.pairwise_append, List.mem_append,
        List.mem_singleton] at hsort
      rcases List.mem_append.1 hx with h | h
      · exact le_of_lt (hsort.2.2.2 x h s.TAIL (by simp))
      · simp only [List.mem_singleton] at h
        omega
    constructor
    · by_cases hn : n = 0
      · subst hn
        exact ⟨0, s, 0, by simp [mempool_alloc]⟩
      · obtain ⟨r, hr⟩ := get_memblock_loop_returns
          (to_u32 (uptr_add (ALIGN_UP n) MEM_BLOCK_ADMIN_SIZE)) s _ s.HEAD _ hseg
        by_cases hr0 : r.1 = 0
        · refine ⟨0, r.2, (l ++ [s.TAIL]).length + 1, ?_⟩
          simp only [mempool_alloc, if_neg hn, freememblocklist_get_memblock, hr]
          simp [hr0]
        · refine ⟨uptr_add r.1 MEM_BLOCK_ADMIN_SIZE, r.2, (l ++ [s.TAIL]).length + 1, ?_⟩
          simp only [mempool_alloc, if_neg hn, freememblocklist_get_memblock, hr]
          simp [hr0]
    · rintro s1 ⟨fuel, h⟩
      simp only [mempool_alloc, freememblocklist_get_memblock] at h
      split_ifs at h with hn
      · simp only [Option.some.injEq, Prod.mk.injEq, true_and] at h
        exact h.symm
      · cases hg : get_memblock_loop (to_u32 (uptr_add (ALIGN_UP n) MEM_BLOCK_ADMIN_SIZE)) fuel s
            s.HEAD (s.mem s.HEAD).next with
        | none => rw [hg] at h; simp at h
        | some r =>
          rw [hg] at h
          simp only [ne_eq, ite_not] at h
          split_ifs at h with hr0
          · simp only [Option.some.injEq, Prod.mk.injEq, true_and] at h
            rw [← h]
            exact get_memblock_loop_null _ _ _ _ _ _ hg hr0
          · exfalso
            simp only [Option.some.injEq, Prod.mk.injEq] at h
            rcases get_memblock_loop_mem _ s _ fuel _ _ r hseg hg with h4 | h4
            · exact hr0 h4
            · have := hle _ h4
              have h5 := h.1
              simp only [uptr_add, UINTPTR, MEM_BLOCK_ADMIN_SIZE_eq] at h5 htop
              omega

/-- Witness for C12: the pool of `test.c`, where a request for 2000 bytes
fails. -/
theorem C12_failed_alloc_no_effect_witness :
    WellFormed test_pool [4112] ∧ test_pool.TAIL + MEM_BLOCK_ADMIN_SIZE < UINTPTR ∧
    (∃ p s1, AllocReturns test_pool 2000 p s1) ∧
    ∀ s1, AllocReturns test_pool 2000 0 s1 → s1 = test_pool :=
  ⟨by decide, by decide,
    C12_failed_alloc_no_effect.2 test_pool [4112] 2000 (by decide) (by decide)⟩

theorem Seg_unique {m : Mem} : ∀ (l l1 : List Nat) (a : Nat),
    Seg m a l 0 → Seg m a l1 0 → l = l1 := by
  intro l
  induction l with
  | nil =>
    intro l1 a h h1
    cases l1 with
    | nil => rfl
    | cons x l1 =>
      simp only [Seg_nil] at h
      obtain ⟨e, hx, -⟩ := h1
      omega
  | cons y l ih =>
    intro l1 a h h1
    obtain ⟨e, hy, hs⟩ := h
    cases l1 with
    | nil =>
      simp only [Seg_nil] at h1
      omega
    | cons x l1 =>
      obtain ⟨e1, hx, hs1⟩ := h1
      have hxy : y = x := by omega
      subst hxy
      rw [ih l1 _ hs hs1]

/-- The free list of a well-formed state is determined by the state. -/
theorem WellFormed_unique {s : Pool} {l l1 : List Nat} (h : WellFormed s l)
    (h1 : WellFormed s l1) : l = l1 :=
  List.append_cancel_right (Seg_unique _ _ _ h.2.1 h1.2.1)

theorem Tiles_sum {A : List Blk} {a e : Nat} (h : Tiles a A e) :
    (A.map Blk.size).sum + a = e := by
  induction A generalizing a with
  | nil => simpa [Tiles] using h
  | cons b A ih =>
    obtain ⟨h1, h2⟩ := h
    have := ih h2
    simp only [List.map_cons, List.sum_cons]
    omega

theorem nodes_sum (m : Mem) (A : List Blk) (hs : ∀ b ∈ A, (m b.addr).size = b.size) :
    ((nodes A).map (fun f => (m f).size)).sum +
      ((A.filter (fun b => b.kind.is_live)).map Blk.size).sum = (A.map Blk.size).sum := by
  induction A with
  | nil => simp [nodes]
  | cons b A ih =>
    have hb := hs b (List.mem_cons_self _ _)
    have := ih (fun x hx => hs x (List.mem_cons_of_mem _ hx))
    by_cases hl : b.kind.is_live = true
    · rw [nodes_cons_live _ _ hl]
      simp only [List.filter_cons, hl, if_true, List.map_cons, List.sum_cons]
      omega
    · have hl1 : b.kind.is_live = false := by simpa using hl
      rw [nodes_cons_listed _ _ hl1]
      simp only [List.filter_cons, hl1, Bool.false_eq_true, if_false, List.map_cons,
        List.sum_cons]
      omega

theorem Tiles_addr_nodup {A : List Blk} {a e : Nat} (h : Tiles a A e)
    (hpos : ∀ b ∈ A, 0 < b.size) : (A.map Blk.addr).Nodup := by
  induction A generalizing a with
  | nil => simp
  | cons b A ih =>
    obtain ⟨h1, h2⟩ := h
    have hb := (Tiles_bounds h2).2
    have hp := hpos b (List.mem_cons_self _ _)
    simp only [List.map_cons, List.nodup_cons, List.mem_map, not_exists, not_and]
    refine ⟨?_, ih h2 (fun x hx => hpos x (List.mem_cons_of_mem _ hx))⟩
    intro x hx he
    have := (hb x hx).1
    omega

/-- The sizes of the handed-out blocks, summed over the recorded live
allocations or over the blocks of the layout, are the same. -/
theorem live_sizes_eq {s : Pool} {live : List (Nat × Nat)} {bs : List Blk}
    (hL : Layout s bs) (hrel : LiveRel live bs) (hnd : (live.map Prod.fst).Nodup) :
    live_sizes s live = ((bs.filter (fun b => b.kind.is_live)).map Blk.size).sum := by
  have e1 : live.map (fun x => (s.mem (x.1 - MEM_BLOCK_ADMIN_SIZE)).size) =
      (live.map Prod.fst).map (fun p => (s.mem (p - 16)).size) := by
    simp [List.map_map, Function.comp]
  have e2 : (bs.filter (fun b => b.kind.is_live)).map Blk.size =
      ((bs.filter (fun b => b.kind.is_live)).map (fun b => b.addr + 16)).map
        (fun p => (s.mem (p - 16)).size) := by
    rw [List.map_map]
    apply List.map_congr_left
    intro b hb
    have := hL.sizes b (List.mem_of_mem_filter hb)
    simp [this]
  have hnd2 : ((bs.filter (fun b => b.kind.is_live)).map (fun b => b.addr + 16)).Nodup := by
    have h1 : ((bs.filter (fun b => b.kind.is_live)).map Blk.addr).Nodup :=
      ((List.filter_sublist _).map Blk.addr).nodup (Tiles_addr_nodup hL.tiles hL.pos)
    have h2 := h1.map (f := fun a => a + 16) (fun a b h => by simpa using h)
    simpa [List.map_map, Function.comp] using h2
  have hperm : (live.map Prod.fst).Perm
      ((bs.filter (fun b => b.kind.is_live)).map (fun b => b.addr + 16)) := by
    rw [List.perm_ext_iff_of_nodup hnd hnd2]
    intro p
    simp only [List.mem_map, List.mem_filter, Prod.exists, exists_and_right, exists_eq_right]
    constructor
    · rintro ⟨n, hn⟩
      obtain ⟨b, hb, hk, he⟩ := (hrel p n).1 hn
      exact ⟨b, ⟨hb, Kind.live_is_live hk⟩, he⟩
    · rintro ⟨b, ⟨hb, hk⟩, he⟩
      cases hkind : b.kind with
      | sentinel => rw [hkind] at hk; simp [Kind.is_live] at hk
      | free => rw [hkind] at hk; simp [Kind.is_live] at hk
      | live n => exact ⟨n, (hrel p n).2 ⟨b, hb, hkind, he⟩⟩
  unfold live_sizes
  rw [e1, e2]
  exact (hperm.map _).sum_eq

/-- Block sizes are conserved: in a good state the free blocks and the
handed-out blocks together fill the space between the two sentinels. -/
theorem Good_sizes {storage size : Nat} {s : Pool} {live : List (Nat × Nat)} {bs : List Blk}
    (hg : Good storage size s live bs) :
    ∃ l, WellFormed s l ∧ nodes bs = s.HEAD :: (l ++ [s.TAIL]) ∧
      free_sizes s l + live_sizes s live + s.HEAD + 16 = s.TAIL := by
  obtain ⟨l, hwf, hn, -⟩ := hg.layout.wellformed
  refine ⟨l, hwf, hn, ?_⟩
  have h1 := Tiles_sum hg.layout.tiles
  have h2 := nodes_sum s.mem bs hg.layout.sizes
  have h3 := live_sizes_eq hg.layout hg.rel hg.nodup
  obtain ⟨b0, mid, t, hbs, a0, -, z0, a1, -, z1, -⟩ := hg.layout.shape
  have hH : (s.mem s.HEAD).size = 16 := by
    rw [← a0, hg.layout.sizes b0 (by rw [hbs]; simp), z0]
  have hT : (s.mem s.TAIL).size = 16 := by
    rw [← a1, hg.layout.sizes t (by rw [hbs]; simp), z1]
  rw [hn] at h2
  simp only [List.map_cons, List.map_append, List.sum_cons, List.sum_append, List.map_nil,
    List.sum_nil, hH, hT] at h2
  unfold free_sizes
  omega

/-- Counterexample for C13: with the sizes as the sentence of the
specification takes them (payload capacity of the free blocks, sizes asked
for by the live allocations), no overhead `K` fits both the pool of `test.c`
right after `mempool_init` and the same pool after `mempool_alloc(101)`: the
first state needs `K = 48`, the second `K = 75`. -/
theorem C13_no_fixed_overhead :
    Reachable zero_mem 4096 2000 test_pool [] ∧ WellFormed test_pool [4112] ∧
    Reachable zero_mem 4096 2000 (alloc_state 4 test_pool 101) [(4128, 101)] ∧
    WellFormed (alloc_state 4 test_pool 101) [4240] ∧
    ¬ ∃ K, free_payload test_pool [4112] + requested [] + K = 2000 ∧
      free_payload (alloc_state 4 test_pool 101) [4240] + requested [(4128, 101)] + K = 2000 := by
  refine ⟨test_pool_reachable, by decide, test_pool_reachable1, by decide, ?_⟩
  rintro ⟨K, h1, h2⟩
  have e1 : free_payload test_pool [4112] = 1952 := by decide
  have e2 : free_payload (alloc_state 4 test_pool 101) [4240] = 1824 := by decide
  have e3 : requested [] = 0 := by decide
  have e4 : requested [(4128, 101)] = 101 := by decide
  omega

/-- C13, amended (conservation with block sizes). In every state reached under
the contract, with `l` the free list, the `size` fields of the free blocks plus
the `size` fields of the blocks behind the live allocations plus the overhead
`K = size % MAX_ALIGN + 2 * MEM_BLOCK_ADMIN_SIZE`, which depends on the arena
size only, make up the arena size; and the block behind a live allocation of
`n` bytes has room for its header and the `n` bytes. -/
theorem C13_conservation_block_sizes {m0 : Mem} {storage size : Nat} {s : Pool}
    {live : List (Nat × Nat)} (h : Reachable m0 storage size s live) :
    ∃ l, WellFormed s l ∧
      free_sizes s l + live_sizes s live + (size % MAX_ALIGN + 2 * MEM_BLOCK_ADMIN_SIZE) = size ∧
      ∀ p n, (p, n) ∈ live → n + MEM_BLOCK_ADMIN_SIZE ≤ (s.mem (p - MEM_BLOCK_ADMIN_SIZE)).size := by
  obtain ⟨bs, hg⟩ := Reachable_good h
  obtain ⟨l, hwf, -, hsum⟩ := Good_sizes hg
  refine ⟨l, hwf, ?_, ?_⟩
  · have h1 := hg.head_eq
    have h2 := hg.tail_eq
    have h3 := hg.layout.head_tail
    simp only [MAX_ALIGN_eq, MEM_BLOCK_ADMIN_SIZE_eq]
    omega
  · intro p n hp
    obtain ⟨b, hb, hk, he⟩ := (hg.rel p n).1 hp
    have h1 := ((hg.layout.ok b hb).2.2.2.2 n hk).2
    have h2 := hg.layout.sizes b hb
    have h3 : p - MEM_BLOCK_ADMIN_SIZE = b.addr := by
      simp only [MEM_BLOCK_ADMIN_SIZE_eq]; omega
    rw [h3, h2]
    simp only [MEM_BLOCK_ADMIN_SIZE_eq]
    omega

/-- Witness for amended C13: the pool of `test.c` after `mempool_alloc(101)`. -/
theorem C13_conservation_block_sizes_witness :
    ∃ l, WellFormed (alloc_state 4 test_pool 101) l ∧
      free_sizes (alloc_state 4 test_pool 101) l +
        live_sizes (alloc_state 4 test_pool 101) [(4128, 101)] +
        (2000 % MAX_ALIGN + 2 * MEM_BLOCK_ADMIN_SIZE) = 2000 ∧
      ∀ p n, (p, n) ∈ [(4128, 101)] →
        n + MEM_BLOCK_ADMIN_SIZE ≤
          ((alloc_state 4 test_pool 101).mem (p - MEM_BLOCK_ADMIN_SIZE)).size :=
  C13_conservation_block_sizes test_pool_reachable1

/-- C19 (block sizes are conserved and tile the arena). In every state reached
under the contract, with `l` the free list, the `size` fields of the free
blocks other than the sentinels plus the `size` fields of the blocks behind
the live allocations sum to `TAIL - (HEAD + MEM_BLOCK_ADMIN_SIZE)`; and these
blocks tile `[HEAD + MEM_BLOCK_ADMIN_SIZE, TAIL)`: there is a list `mid` of
blocks lying back to back from `HEAD + MEM_BLOCK_ADMIN_SIZE` to `TAIL`, each
with its size in its header, whose free members are exactly the nodes of `l`
and whose other members are exactly the blocks of the live allocations. -/
theorem C19_block_sizes_tile_arena {m0 : Mem} {storage size : Nat} {s : Pool}
    {live : List (Nat × Nat)} (h : Reachable m0 storage size s live) :
    ∃ l, WellFormed s l ∧
      free_sizes s l + live_sizes s live = s.TAIL - (s.HEAD + MEM_BLOCK_ADMIN_SIZE) ∧
      ∃ mid : List Blk, Tiles (s.HEAD + MEM_BLOCK_ADMIN_SIZE) mid s.TAIL ∧
        (∀ b ∈ mid, (s.mem b.addr).size = b.size ∧ 0 < b.size ∧
          (b.kind = Kind.free ∨ ∃ n, b.kind = Kind.live n)) ∧
        (∀ f, f ∈ l ↔ ∃ b ∈ mid, b.kind = Kind.free ∧ b.addr = f) ∧
        (∀ p n, (p, n) ∈ live ↔
          ∃ b ∈ mid, b.kind = Kind.live n ∧ b.addr + MEM_BLOCK_ADMIN_SIZE = p) := by
  obtain ⟨bs, hg⟩ := Reachable_good h
  obtain ⟨l, hwf, hn, hsum⟩ := Good_sizes hg
  obtain ⟨l1, hwf1, -, hmem⟩ := hg.layout.wellformed
  obtain rfl := WellFormed_unique hwf hwf1
  obtain ⟨b0, mid, t, hbs, a0, k0, z0, a1, k1, z1, hmid⟩ := hg.layout.shape
  refine ⟨l, hwf, ?_, mid, ?_, ?_, ?_, ?_⟩
  · simp only [MEM_BLOCK_ADMIN_SIZE_eq]
    omega
  · have ht := hg.layout.tiles
    rw [hbs] at ht
    obtain ⟨-, ht2⟩ := ht
    rw [Tiles_append] at ht2
    obtain ⟨x, hx1, hx2, hx3⟩ := ht2
    simp only [Tiles] at hx3
    rw [z0] at hx1
    have : x = s.TAIL := by omega
    rw [this] at hx1
    exact hx1
  · intro b hb
    have hin : b ∈ bs := by rw [hbs]; simp [hb]
    refine ⟨hg.layout.sizes b hin, hg.layout.pos b hin, ?_⟩
    cases hk : b.kind with
    | sentinel => exact absurd hk (hmid b hb)
    | free => exact Or.inl rfl
    | live n => exact Or.inr ⟨n, rfl⟩
  · intro f
    rw [hmem f, hbs]
    constructor
    · rintro ⟨b, hb, hk, he⟩
      simp only [List.mem_cons, List.mem_append, List.mem_singleton, List.not_mem_nil,
        or_false] at hb
      rcases hb with rfl | hb | rfl
      · rw [k0] at hk; cases hk
      · exact ⟨b, hb, hk, he⟩
      · rw [k1] at hk; cases hk
    · rintro ⟨b, hb, hk, he⟩
      exact ⟨b, by simp [hb], hk, he⟩
  · intro p n
    rw [hg.rel p n, hbs]
    constructor
    · rintro ⟨b, hb, hk, he⟩
      simp only [List.mem_cons, List.mem_append, List.mem_singleton, List.not_mem_nil,
        or_false] at hb
      rcases hb with rfl | hb | rfl
      · rw [k0] at hk; cases hk
      · exact ⟨b, hb, hk, he⟩
      · rw [k1] at hk; cases hk
    · rintro ⟨b, hb, hk, he⟩
      exact ⟨b, by simp [hb], hk, he⟩

/-- Witness for C19: the pool of `test.c` after `mempool_alloc(101)` and
`mempool_alloc(202)`. -/
theorem C19_block_sizes_tile_arena_witness :
    ∃ l, WellFormed (alloc_state 4 (alloc_state 4 test_pool 101) 202) l ∧
      free_sizes (alloc_state 4 (alloc_state 4 test_pool 101) 202) l +
          live_sizes (alloc_state 4 (alloc_state 4 test_pool 101) 202)
            [(4256, 202), (4128, 101)] =
        (alloc_state 4 (alloc_state 4 test_pool 101) 202).TAIL -
          ((alloc_state 4 (alloc_state 4 test_pool 101) 202).HEAD + MEM_BLOCK_ADMIN_SIZE) ∧
      ∃ mid : List Blk,
        Tiles ((alloc_state 4 (alloc_state 4 test_pool 101) 202).HEAD + MEM_BLOCK_ADMIN_SIZE) mid
          (alloc_state 4 (alloc_state 4 test_pool 101) 202).TAIL ∧
        (∀ b ∈ mid, ((alloc_state 4 (alloc_state 4 test_pool 101) 202).mem b.addr).size = b.size ∧
          0 < b.size ∧ (b.kind = Kind.free ∨ ∃ n, b.kind = Kind.live n)) ∧
        (∀ f, f ∈ l ↔ ∃ b ∈ mid, b.kind = Kind.free ∧ b.addr = f) ∧
        (∀ p n, (p, n) ∈ [(4256, 202), (4128, 101)] ↔
          ∃ b ∈ mid, b.kind = Kind.live n ∧ b.addr + MEM_BLOCK_ADMIN_SIZE = p) :=
  C19_block_sizes_tile_arena test_pool_reachable2

/-- A free block of a well-formed state lies strictly between the sentinels. -/
theorem WellFormed_between {s : Pool} {l : List Nat} (h : WellFormed s l) {f : Nat}
    (hf : f ∈ l) : s.HEAD < f ∧ f < s.TAIL := by
  have hs := h.2.2.1
  simp only [List.Sorted, List.pairwise_cons, List.pairwise_append, List.mem_append,
    List.mem_singleton] at hs
  exact ⟨hs.1 f (Or.inl hf), hs.2.2.2 f hf s.TAIL (by simp)⟩

/-- In a well-formed state the `next` field of `TAIL` is null. -/
theorem WellFormed_tail_next {s : Pool} {l : List Nat} (h : WellFormed s l) :
    (s.mem s.TAIL).next = 0 := by
  have hs := h.2.1
  rw [Seg_append] at hs
  obtain ⟨mid, -, h2⟩ := hs
  simp only [Seg_cons, Seg_nil] at h2
  exact h2.2.2

/-- Two neighbours of the list are two listed blocks of the layout with only
handed-out blocks between them. -/
theorem nodes_pair : ∀ (bs : List Blk) (l1 : List Nat) (f1 f2 : Nat) (l2 : List Nat),
    nodes bs = l1 ++ f1 :: f2 :: l2 →
    ∃ X b1 M b2 Y, bs = X ++ b1 :: (M ++ b2 :: Y) ∧ b1.addr = f1 ∧ b2.addr = f2 ∧
      b1.kind.is_live = false ∧ b2.kind.is_live = false ∧
      ∀ b ∈ M, b.kind.is_live = true := by
  intro bs
  induction bs with
  | nil =>
    intro l1 f1 f2 l2 h
    simp [nodes] at h
  | cons b bs ih =>
    intro l1 f1 f2 l2 h
    cases hb : b.kind.is_live with
    | true =>
      rw [nodes_cons_live _ _ hb] at h
      obtain ⟨X, b1, M, b2, Y, rfl, h1, h2, h3, h4, h5⟩ := ih l1 f1 f2 l2 h
      exact ⟨b :: X, b1, M, b2, Y, rfl, h1, h2, h3, h4, h5⟩
    | false =>
      rw [nodes_cons_listed _ _ hb] at h
      cases l1 with
      | nil =>
        simp only [List.nil_append, List.cons.injEq] at h
        obtain ⟨e1, e2⟩ := h
        have hex : ∃ x ∈ bs, x.kind.is_live = false := by
          have : f2 ∈ nodes bs := by rw [e2]; simp
          obtain ⟨x, hx, hxl, -⟩ := mem_nodes.1 this
          exact ⟨x, hx, hxl⟩
        obtain ⟨M, nx, Y, rfl, hnx, hM⟩ := split_first_listed bs hex
        rw [nodes_run hM hnx] at e2
        simp only [List.cons.injEq] at e2
        exact ⟨[], b, M, nx, Y, rfl, e1, e2.1, hb, hnx, hM⟩
      | cons x l1 =>
        simp only [List.cons_append, List.cons.injEq] at h
        obtain ⟨X, b1, M, b2, Y, rfl, h1, h2, h3, h4, h5⟩ := ih l1 f1 f2 l2 h.2
        exact ⟨b :: X, b1, M, b2, Y, rfl, h1, h2, h3, h4, h5⟩

/-- A listed block of a layout whose address is neither sentinel is free. -/
theorem Layout.listed_free {s : Pool} {bs : List Blk} (hL : Layout s bs) {b : Blk}
    (hb : b ∈ bs) (hl : b.kind.is_live = false) (h1 : b.addr ≠ s.HEAD) (h2 : b.addr ≠ s.TAIL) :
    b.kind = Kind.free := by
  rcases Kind.listed_cases hl with h | h
  · rcases (hL.ok b hb).2.2.1.1 h with e | e
    · exact absurd e h1
    · exact absurd e h2
  · exact h

/-- C14 (shape of the free list). In every state reached under the contract
on aligned storage: `HEAD` and `TAIL` are where `mempool_init` put them and
each is a bare header still; following `next` from `HEAD` visits finitely many
nodes `l` at strictly increasing addresses, then `TAIL`, whose `next` is null;
every `mempool_alloc` within the contract returns, and never returns the
payload address of `HEAD` or of `TAIL`; and every `mempool_free` of a live
pointer returns. -/
theorem C14_free_list_shape {m0 : Mem} {storage size : Nat} {s : Pool}
    {live : List (Nat × Nat)} (h : Reachable m0 storage size s live) :
    s.HEAD = storage ∧ s.TAIL = storage + size / MAX_ALIGN * MAX_ALIGN - MEM_BLOCK_ADMIN_SIZE ∧
    (s.mem s.HEAD).size = MEM_BLOCK_ADMIN_SIZE ∧ (s.mem s.TAIL).size = MEM_BLOCK_ADMIN_SIZE ∧
    (s.mem s.TAIL).next = 0 ∧
    (∃ l, WellFormed s l) ∧
    (∀ n, n < UINT32 → ALIGN_UP n + MEM_BLOCK_ADMIN_SIZE < UINT32 →
      (∃ p s1, AllocReturns s n p s1) ∧
      ∀ p s1, AllocReturns s n p s1 →
        p ≠ s.HEAD + MEM_BLOCK_ADMIN_SIZE ∧ p ≠ s.TAIL + MEM_BLOCK_ADMIN_SIZE) ∧
    (∀ p n, (p, n) ∈ live → ∃ st s1, FreeReturns s p st s1) := by
  obtain ⟨bs, hg⟩ := Reachable_good h
  obtain ⟨l, hwf, -, -⟩ := hg.layout.wellformed
  obtain ⟨b0, mid, t, hbs, a0, -, z0, a1, -, z1, -⟩ := hg.layout.shape
  have hH : (s.mem s.HEAD).size = 16 := by
    rw [← a0, hg.layout.sizes b0 (by rw [hbs]; simp), z0]
  have hpos := hg.layout.head_pos
  have hht := hg.layout.head_tail
  refine ⟨hg.head_eq, hg.tail_eq, hH, hwf.2.2.2.1, WellFormed_tail_next hwf, ⟨l, hwf⟩, ?_, ?_⟩
  · intro n hn32 hreq
    have key : ∃ p s1, AllocReturns s n p s1 ∧
        p ≠ s.HEAD + MEM_BLOCK_ADMIN_SIZE ∧ p ≠ s.TAIL + MEM_BLOCK_ADMIN_SIZE := by
      by_cases hn : n = 0
      · subst hn
        refine ⟨0, s, ⟨0, by simp [mempool_alloc]⟩, ?_, ?_⟩ <;>
          simp only [MEM_BLOCK_ADMIN_SIZE_eq] <;> omega
      · rcases Layout_alloc hg.layout hg.noadj (Nat.pos_of_ne_zero hn) hn32 hreq with
          ⟨h0, -⟩ | ⟨A, c, R, s2, hbs2, hc, -, -, h1, -, -, -, -⟩
        · refine ⟨0, s, h0, ?_, ?_⟩ <;> simp only [MEM_BLOCK_ADMIN_SIZE_eq] <;> omega
        · have hcin : c ∈ bs := by rw [hbs2]; simp
          have hiff := (hg.layout.ok c hcin).2.2.1
          have hns : ¬ (c.addr = s.HEAD ∨ c.addr = s.TAIL) := by
            intro hx
            have := hiff.2 hx
            rw [hc] at this
            cases this
          refine ⟨_, _, h1, ?_, ?_⟩ <;> simp only [MEM_BLOCK_ADMIN_SIZE_eq] <;> omega
    obtain ⟨p, s1, hret, hp1, hp2⟩ := key
    refine ⟨⟨p, s1, hret⟩, ?_⟩
    intro p2 s2 hret2
    obtain ⟨rfl, -⟩ := AllocReturns_unique hret hret2
    exact ⟨hp1, hp2⟩
  · intro p n hp
    obtain ⟨s1, -, hret, -⟩ := Good_free hg hp
    exact ⟨_, s1, hret⟩

/-- Witness for C14: the pool of `test.c` after `mempool_alloc(101)`. -/
theorem C14_free_list_shape_witness :
    (alloc_state 4 test_pool 101).HEAD = 4096 ∧
    (alloc_state 4 test_pool 101).TAIL = 4096 + 2000 / MAX_ALIGN * MAX_ALIGN - MEM_BLOCK_ADMIN_SIZE ∧
    ((alloc_state 4 test_pool 101).mem (alloc_state 4 test_pool 101).HEAD).size =
      MEM_BLOCK_ADMIN_SIZE ∧
    ((alloc_state 4 test_pool 101).mem (alloc_state 4 test_pool 101).TAIL).size =
      MEM_BLOCK_ADMIN_SIZE ∧
    ((alloc_state 4 test_pool 101).mem (alloc_state 4 test_pool 101).TAIL).next = 0 ∧
    (∃ l, WellFormed (alloc_state 4 test_pool 101) l) ∧
    (∀ n, n < UINT32 → ALIGN_UP n + MEM_BLOCK_ADMIN_SIZE < UINT32 →
      (∃ p s1, AllocReturns (alloc_state 4 test_pool 101) n p s1) ∧
      ∀ p s1, AllocReturns (alloc_state 4 test_pool 101) n p s1 →
        p ≠ (alloc_state 4 test_pool 101).HEAD + MEM_BLOCK_ADMIN_SIZE ∧
        p ≠ (alloc_state 4 test_pool 101).TAIL + MEM_BLOCK_ADMIN_SIZE) ∧
    (∀ p n, (p, n) ∈ [(4128, 101)] →
      ∃ st s1, FreeReturns (alloc_state 4 test_pool 101) p st s1) :=
  C14_free_list_shape test_pool_reachable1

/-- C15 (no mergeable neighbours remain). In every state reached under the
contract, with `l` the free list without the sentinels, any two consecutive
blocks `f1`, `f2` of `l` are at least `MIN_MEM_BLOCK_SIZE` bytes apart:
`f1 + f1->size + MIN_MEM_BLOCK_SIZE ≤ f2`. -/
theorem C15_no_mergeable_neighbours {m0 : Mem} {storage size : Nat} {s : Pool}
    {live : List (Nat × Nat)} (h : Reachable m0 storage size s live) :
    ∃ l, WellFormed s l ∧ ∀ l1 f1 f2 l2, l = l1 ++ f1 :: f2 :: l2 →
      f1 + (s.mem f1).size + MIN_MEM_BLOCK_SIZE ≤ f2 := by
  obtain ⟨bs, hg⟩ := Reachable_good h
  obtain ⟨l, hwf, hn, -⟩ := hg.layout.wellformed
  refine ⟨l, hwf, ?_⟩
  intro l1 f1 f2 l2 hl
  have hn2 : nodes bs = (s.HEAD :: l1) ++ f1 :: f2 :: (l2 ++ [s.TAIL]) := by
    rw [hn, hl]; simp
  obtain ⟨X, b1, M, b2, Y, hbs, e1, e2, k1, k2, hM⟩ := nodes_pair bs _ f1 f2 _ hn2
  have hf1 := WellFormed_between hwf (f := f1) (by rw [hl]; simp)
  have hf2 := WellFormed_between hwf (f := f2) (by rw [hl]; simp)
  have hL := hg.layout
  have hna := hg.noadj
  rw [hbs] at hL hna
  have hb1 : b1.kind = Kind.free :=
    hL.listed_free (by simp) k1 (by omega) (by omega)
  have hb2 : b2.kind = Kind.free :=
    hL.listed_free (by simp) k2 (by omega) (by omega)
  have hMne : M ≠ [] := by
    rintro rfl
    rw [List.nil_append, NoAdjFree_split] at hna
    exact (NoAdjFree_cons_cons.1 hna.2).1 ⟨hb1, hb2⟩
  obtain ⟨-, hT, -⟩ := hL.cut
  have hspan := Tiles_span_live hT
    (fun b hb => hL.ok b (by simp [hb])) hM hMne
  have hsz := hL.sizes b1 (by simp)
  rw [e1] at hsz hspan
  rw [e2] at hspan
  rw [hsz]
  simp only [MIN_MEM_BLOCK_SIZE_eq]
  omega

/-- Witness for C15: the pool of `test.c` after `mempool_alloc(101)`,
`mempool_alloc(202)` and `mempool_free` of the first pointer, where the free
list holds the two blocks 4112 and 4464. -/
theorem C15_no_mergeable_neighbours_witness :
    ∃ l, WellFormed (free_state 4 (alloc_state 4 (alloc_state 4 test_pool 101) 202) 4128) l ∧
      ∀ l1 f1 f2 l2, l = l1 ++ f1 :: f2 :: l2 →
        f1 + ((free_state 4 (alloc_state 4 (alloc_state 4 test_pool 101) 202) 4128).mem f1).size +
          MIN_MEM_BLOCK_SIZE ≤ f2 :=
  C15_no_mergeable_neighbours test_pool_reachable3

/-- C17 (the assertions hold under the contract). In every state reached under
the contract on aligned storage, no `MY_ASSERT` evaluated so far was false;
every further `mempool_alloc` within the contract returns with all its
assertions true; every block behind a live pointer has at least
`MIN_MEM_BLOCK_SIZE` bytes and is not on the free list; and `mempool_free` of a
live pointer returns `MEMPOOL_SUCCESS` with all its assertions true, so its
scan finds a place for the block. -/
theorem C17_asserts_hold {m0 : Mem} {storage size : Nat} {s : Pool}
    {live : List (Nat × Nat)} (h : Reachable m0 storage size s live) :
    s.asserts_ok = true ∧
    (∀ n, n < UINT32 → ALIGN_UP n + MEM_BLOCK_ADMIN_SIZE < UINT32 →
      ∃ p s1, AllocReturns s n p s1 ∧ s1.asserts_ok = true) ∧
    (∃ l, WellFormed s l ∧ ∀ p n, (p, n) ∈ live →
      MIN_MEM_BLOCK_SIZE ≤ (s.mem (p - MEM_BLOCK_ADMIN_SIZE)).size ∧
      p - MEM_BLOCK_ADMIN_SIZE ∉ s.HEAD :: (l ++ [s.TAIL]) ∧
      ∃ s1, FreeReturns s p MEMPOOL_SUCCESS s1 ∧ s1.asserts_ok = true) := by
  obtain ⟨bs, hg⟩ := Reachable_good h
  refine ⟨hg.layout.asserts, ?_, ?_⟩
  · intro n hn32 hreq
    by_cases hn : n = 0
    · subst hn
      exact ⟨0, s, ⟨0, by simp [mempool_alloc]⟩, hg.layout.asserts⟩
    · rcases Layout_alloc hg.layout hg.noadj (Nat.pos_of_ne_zero hn) hn32 hreq with
        ⟨h0, -⟩ | ⟨A, c, R, s2, -, -, -, -, h1, -, -, hL2, -⟩
      · exact ⟨0, s, h0, hg.layout.asserts⟩
      · exact ⟨_, s2, h1, hL2.asserts⟩
  · obtain ⟨l, hwf, hn, -⟩ := hg.layout.wellformed
    refine ⟨l, hwf, ?_⟩
    intro p n hp
    obtain ⟨b, hb, hk, he⟩ := (hg.rel p n).1 hp
    have hblk := hg.layout.block hb
    have hlive := (hg.layout.ok b hb).2.2.2.2 n hk
    have hpb : p - MEM_BLOCK_ADMIN_SIZE = b.addr := by
      simp only [MEM_BLOCK_ADMIN_SIZE_eq]; omega
    refine ⟨?_, ?_, ?_⟩
    · rw [hpb, hblk.2.2.2.2.2.1]
      simp only [MIN_MEM_BLOCK_SIZE_eq]
      omega
    · rw [hpb, ← hn]
      intro hmem
      obtain ⟨b2, hb2, hl2, ha2⟩ := mem_nodes.1 hmem
      have := Tiles_addr_inj hg.layout.tiles hg.layout.pos b2 hb2 b hb ha2
      rw [this, Kind.live_is_live hk] at hl2
      cases hl2
    · obtain ⟨s1, bs1, hret, hg1⟩ := Good_free hg hp
      exact ⟨s1, hret, hg1.layout.asserts⟩

/-- Witness for C17: the pool of `test.c` after `mempool_alloc(101)` and
`mempool_alloc(202)`. -/
theorem C17_asserts_hold_witness :
    (alloc_state 4 (alloc_state 4 test_pool 101) 202).asserts_ok = true ∧
    (∀ n, n < UINT32 → ALIGN_UP n + MEM_BLOCK_ADMIN_SIZE < UINT32 →
      ∃ p s1, AllocReturns (alloc_state 4 (alloc_state 4 test_pool 101) 202) n p s1 ∧
        s1.asserts_ok = true) ∧
    (∃ l, WellFormed (alloc_state 4 (alloc_state 4 test_pool 101) 202) l ∧
      ∀ p n, (p, n) ∈ [(4256, 202), (4128, 101)] →
        MIN_MEM_BLOCK_SIZE ≤
          ((alloc_state 4 (alloc_state 4 test_pool 101) 202).mem (p - MEM_BLOCK_ADMIN_SIZE)).size ∧
        p - MEM_BLOCK_ADMIN_SIZE ∉
          (alloc_state 4 (alloc_state 4 test_pool 101) 202).HEAD ::
            (l ++ [(alloc_state 4 (alloc_state 4 test_pool 101) 202).TAIL]) ∧
        ∃ s1, FreeReturns (alloc_state 4 (alloc_state 4 test_pool 101) 202) p MEMPOOL_SUCCESS s1 ∧
          s1.asserts_ok = true) :=
  C17_asserts_hold test_pool_reachable2

/-- Two memories that link the same list from the same start agree on the
`next` field of every node of the list. -/
theorem Seg_next_eq {m m1 : Mem} : ∀ (l : List Nat) (a e : Nat),
    Seg m a l e → Seg m1 a l e → ∀ f ∈ l, (m1 f).next = (m f).next := by
  intro l
  induction l with
  | nil => intro a e _ _ f hf; cases hf
  | cons x l ih =>
    intro a e h h1 f hf
    obtain ⟨-, -, hs⟩ := h
    obtain ⟨-, -, hs1⟩ := h1
    rcases List.mem_cons.1 hf with rfl | hf
    · cases l with
      | nil =>
        simp only [Seg_nil] at hs hs1
        rw [hs, hs1]
      | cons y l =>
        rw [hs.1, hs1.1]
    · cases l with
      | nil => cases hf
      | cons y l =>
        have e1 := hs.1
        have e2 := hs1.1
        rw [e1] at hs
        rw [e2] at hs1
        exact ih y e hs hs1 f hf

/-- Freeing the pointer that `mempool_alloc` has just returned gives back the
layout from before the allocation. -/
theorem Layout_alloc_free {s s1 : Pool} {bs : List Blk} {n p : Nat} (hL : Layout s bs)
    (hna : NoAdjFree bs) (hn : 0 < n) (hn32 : n < UINT32)
    (hreq : ALIGN_UP n + MEM_BLOCK_ADMIN_SIZE < UINT32)
    (hret : AllocReturns s n p s1) (hp : p ≠ 0) :
    ∃ s2, FreeReturns s1 p MEMPOOL_SUCCESS s2 ∧ s2.HEAD = s.HEAD ∧ s2.TAIL = s.TAIL ∧
      Layout s2 bs := by
  rcases Layout_alloc hL hna hn hn32 hreq with
    ⟨h0, -⟩ | ⟨A, c, R, s3, rfl, hc, hfit, -, h1, hH, hT, hL1, hna1⟩
  · exact absurd (AllocReturns_unique h0 hret).1.symm hp
  · obtain ⟨rfl, rfl⟩ := AllocReturns_unique h1 hret
    have hleft : ∀ A1 pv, A = A1 ++ [pv] → pv.kind = Kind.free → False := by
      intro A1 pv hA hpv
      rw [hA, List.append_assoc, List.singleton_append, NoAdjFree_split] at hna
      exact (NoAdjFree_cons_cons.1 hna.2).1 ⟨hpv, hc⟩
    by_cases hsp : ALIGN_UP n + 16 + 32 ≤ c.size
    · have hab : A ++ alloc_blocks (ALIGN_UP n + 16) n c ++ R =
          A ++ (⟨c.addr, ALIGN_UP n + 16, Kind.live n⟩ : Blk) ::
            ((⟨c.addr + (ALIGN_UP n + 16), c.size - (ALIGN_UP n + 16), Kind.free⟩ : Blk) :: R) := by
        simp [alloc_blocks, hsp]
      rw [hab] at hL1 hna1
      obtain ⟨s2, A1, R1, lo, hi, hfree, hH2, hT2, hL2, hna2, hA, hR⟩ :=
        Layout_free hL1 hna1 rfl
      refine ⟨s2, hfree, by rw [hH2, hH], by rw [hT2, hT], ?_⟩
      have hA1 : A1 = A ∧ lo = c.addr := by
        rcases hA with h | ⟨pv, h2, h3, -⟩
        · exact h
        · exact absurd (hleft A1 pv h2 h3) id
      rcases hR with ⟨hR1, -⟩ | ⟨nx, hR1, -, hhi⟩
      · exfalso
        rw [hR1, NoAdjFree_split] at hna2
        exact (NoAdjFree_cons_cons.1 hna2.2).1 ⟨rfl, rfl⟩
      · simp only [List.cons.injEq] at hR1
        obtain ⟨e1, e2⟩ := hR1
        rw [← e1] at hhi
        have hhi2 : hi = c.addr + c.size := by
          rw [hhi]
          show c.addr + (ALIGN_UP n + 16) + (c.size - (ALIGN_UP n + 16)) = c.addr + c.size
          omega
        rw [hA1.1, hA1.2, hhi2, Blk_eta_free hc, ← e2] at hL2
        exact hL2
    · have hab : A ++ alloc_blocks (ALIGN_UP n + 16) n c ++ R =
          A ++ (⟨c.addr, c.size, Kind.live n⟩ : Blk) :: R := by
        simp [alloc_blocks, hsp]
      rw [hab] at hL1 hna1
      obtain ⟨s2, A1, R1, lo, hi, hfree, hH2, hT2, hL2, hna2, hA, hR⟩ :=
        Layout_free hL1 hna1 rfl
      refine ⟨s2, hfree, by rw [hH2, hH], by rw [hT2, hT], ?_⟩
      have hA1 : A1 = A ∧ lo = c.addr := by
        rcases hA with h | ⟨pv, h2, h3, -⟩
        · exact h
        · exact absurd (hleft A1 pv h2 h3) id
      rcases hR with ⟨hR1, hhi⟩ | ⟨nx, hR1, hnx, -⟩
      · have hhi2 : hi = c.addr + c.size := hhi
        rw [hA1.1, hA1.2, hhi2, Blk_eta_free hc, hR1] at hL2
        exact hL2
      · exfalso
        rw [hR1, NoAdjFree_split] at hna
        exact (NoAdjFree_cons_cons.1 hna.2).1 ⟨hc, hnx⟩

/-- C18 (free undoes alloc). In a state reached under the contract on aligned
storage, if `mempool_alloc n` within the contract returns a non-null `p`, then
`mempool_free p` right after returns `MEMPOOL_SUCCESS`, and afterwards the
free list is the one from before the allocation: the same nodes `l` in the
same order between the same `HEAD` and `TAIL`, every node with the `size` and
`next` it had. -/
theorem C18_free_undoes_alloc {m0 : Mem} {storage size : Nat} {s s1 : Pool}
    {live : List (Nat × Nat)} {n p : Nat} (h : Reachable m0 storage size s live)
    (hn32 : n < UINT32) (hreq : ALIGN_UP n + MEM_BLOCK_ADMIN_SIZE < UINT32)
    (hret : AllocReturns s n p s1) (hp : p ≠ 0) :
    ∃ s2 l, FreeReturns s1 p MEMPOOL_SUCCESS s2 ∧ WellFormed s l ∧ WellFormed s2 l ∧
      s2.HEAD = s.HEAD ∧ s2.TAIL = s.TAIL ∧
      ∀ f ∈ s.HEAD :: (l ++ [s.TAIL]),
        (s2.mem f).size = (s.mem f).size ∧ (s2.mem f).next = (s.mem f).next := by
  obtain ⟨bs, hg⟩ := Reachable_good h
  have hn : 0 < n := by
    rcases Nat.eq_zero_or_pos n with h0 | h0
    · subst h0
      have h00 : AllocReturns s 0 0 s := ⟨0, by simp [mempool_alloc]⟩
      exact absurd (AllocReturns_unique h00 hret).1.symm hp
    · exact h0
  obtain ⟨s2, hfree, hH, hT, hL2⟩ := Layout_alloc_free hg.layout hg.noadj hn hn32 hreq hret hp
  obtain ⟨l, hwf, hnodes, -⟩ := hg.layout.wellformed
  obtain ⟨l2, hwf2, hnodes2, -⟩ := hL2.wellformed
  rw [hnodes, hH, hT] at hnodes2
  simp only [List.cons.injEq, true_and] at hnodes2
  have hl : l2 = l := (List.append_cancel_right hnodes2).symm
  rw [hl] at hwf2
  refine ⟨s2, l, hfree, hwf, hwf2, hH, hT, ?_⟩
  intro f hf
  rw [← hnodes] at hf
  constructor
  · obtain ⟨b, hb, -, rfl⟩ := mem_nodes.1 hf
    rw [hL2.sizes b hb, hg.layout.sizes b hb]
  · have k1 := hg.layout.links
    have k2 := hL2.links
    rw [hH] at k2
    exact Seg_next_eq _ _ _ k1 k2 f hf

/-- Witness for C18: in the pool of `test.c` after `mempool_alloc(101)`, the
call `mempool_alloc(202)` returns 4256, and freeing 4256 restores the list. -/
theorem C18_free_undoes_alloc_witness :
    ∃ s2 l, FreeReturns (alloc_state 4 (alloc_state 4 test_pool 101) 202) 4256
        MEMPOOL_SUCCESS s2 ∧
      WellFormed (alloc_state 4 test_pool 101) l ∧ WellFormed s2 l ∧
      s2.HEAD = (alloc_state 4 test_pool 101).HEAD ∧
      s2.TAIL = (alloc_state 4 test_pool 101).TAIL ∧
      ∀ f ∈ (alloc_state 4 test_pool 101).HEAD :: (l ++ [(alloc_state 4 test_pool 101).TAIL]),
        (s2.mem f).size = ((alloc_state 4 test_pool 101).mem f).size ∧
        (s2.mem f).next = ((alloc_state 4 test_pool 101).mem f).next :=
  C18_free_undoes_alloc test_pool_reachable1 (by decide : 202 < UINT32) (by decide)
    (alloc_state_returns (by decide : _ = some 4256)) (by decide)

theorem last_of_mem (p : Nat) (l : List Nat) : last_of p l ∈ p :: l := by
  induction l generalizing p with
  | nil => simp [last_of]
  | cons x l ih =>
    have := ih x
    simp only [last_of]
    exact List.mem_cons_of_mem _ this

/-- Cutting the linked nodes of a tiling at a listed block cuts them where the
block list is cut. -/
theorem nodes_split_at {A R : List Blk} {c : Blk} {a e : Nat} (ht : Tiles a (A ++ c :: R) e)
    (hpos : ∀ b ∈ A ++ c :: R, 0 < b.size) (hc : c.kind.is_live = false) {N1 N2 : List Nat}
    (h : nodes (A ++ c :: R) = N1 ++ c.addr :: N2) : nodes A = N1 ∧ nodes R = N2 := by
  have hs := (nodes_sorted ht hpos).1
  rw [nodes_append, nodes_cons_listed _ _ hc] at h hs
  simp only [List.pairwise_append, List.pairwise_cons, List.mem_cons] at hs
  have h1 : c.addr ∉ nodes A := by
    intro hx
    have := hs.2.2 _ hx c.addr (Or.inl rfl)
    omega
  have h2 : c.addr ∉ nodes R := by
    intro hx
    have := hs.2.1.1 _ hx
    omega
  have := (List.append_cons_inj_of_not_mem h1 h2).1 h
  exact ⟨this.1, this.2.2⟩

/-- The free list after a successful `mempool_alloc` that takes the block `c`:
the remainder of `c` stands where `c` stood if `c` was split, and `c` is gone
from the list otherwise. -/
theorem Good_alloc_list {storage size : Nat} {s s1 : Pool} {live : List (Nat × Nat)}
    {bs : List Blk} {l1 l2 : List Nat} {c n : Nat} (hg : Good storage size s live bs)
    (hwf : WellFormed s (l1 ++ c :: l2)) (hn : 0 < n) (hn32 : n < UINT32)
    (hreq : ALIGN_UP n + MEM_BLOCK_ADMIN_SIZE < UINT32)
    (hret : AllocReturns s n (c + 16) s1) :
    WellFormed s1 (if ALIGN_UP n + 16 + 32 ≤ (s.mem c).size
      then l1 ++ (c + (ALIGN_UP n + 16)) :: l2 else l1 ++ l2) := by
  obtain ⟨l, hwf0, hnodes, -⟩ := hg.layout.wellformed
  have hl := WellFormed_unique hwf0 hwf
  subst hl
  rcases Layout_alloc hg.layout hg.noadj hn hn32 hreq with
    ⟨h0, -⟩ | ⟨A, b, R, s3, rfl, hb, hfit, -, h1, hH, hT, hL1, -⟩
  · have := (AllocReturns_unique h0 hret).1
    omega
  · obtain ⟨hbc, rfl⟩ := AllocReturns_unique h1 hret
    have hbc2 : b.addr = c := by omega
    have hcut : nodes (A ++ b :: R) = (s.HEAD :: l1) ++ b.addr :: (l2 ++ [s.TAIL]) := by
      rw [hnodes, hbc2]; simp
    obtain ⟨nA, nR⟩ := nodes_split_at hg.layout.tiles hg.layout.pos (Kind.free_not_live hb) hcut
    have hsz : (s.mem c).size = b.size := by
      rw [← hbc2]; exact hg.layout.sizes b (by simp)
    obtain ⟨l3, hwf3, hnodes3, -⟩ := hL1.wellformed
    rw [hH, hT] at hnodes3
    rw [hsz]
    by_cases hsp : ALIGN_UP n + 16 + 32 ≤ b.size
    · rw [if_pos hsp]
      have hn3 : nodes (A ++ alloc_blocks (ALIGN_UP n + 16) n b ++ R) =
          s.HEAD :: ((l1 ++ (c + (ALIGN_UP n + 16)) :: l2) ++ [s.TAIL]) := by
        simp only [alloc_blocks, if_pos hsp, nodes_append, nA, nR, nodes, Kind.is_live]
        simp [hbc2]
      rw [hn3] at hnodes3
      simp only [List.cons.injEq, true_and] at hnodes3
      rw [List.append_cancel_right hnodes3]
      exact hwf3
    · rw [if_neg hsp]
      have hn3 : nodes (A ++ alloc_blocks (ALIGN_UP n + 16) n b ++ R) =
          s.HEAD :: ((l1 ++ l2) ++ [s.TAIL]) := by
        simp only [alloc_blocks, if_neg hsp, nodes_append, nA, nR, nodes, Kind.is_live]
        simp
      rw [hn3] at hnodes3
      simp only [List.cons.injEq, true_and] at hnodes3
      rw [List.append_cancel_right hnodes3]
      exact hwf3

/-- C16 (split or consume). In a state reached under the contract on aligned
storage, with free list `l = l1 ++ c :: l2`, let `mempool_alloc n` (with
`n > 0` and a required size `req = ALIGN_UP n + MEM_BLOCK_ADMIN_SIZE` that does
not wrap) select `c`: no block of `l1` has `req` bytes and `c` has.  Then the
call returns `c + MEM_BLOCK_ADMIN_SIZE`, and with `pred` the node before `c`:
if `c->size - req ≥ MIN_MEM_BLOCK_SIZE`, afterwards `c->size = req`, a block at
`c + req` of size `c->size - req` stands in the list where `c` stood
(`pred->next` is the new block, whose `next` is the old `c->next`), and no
other header changed but for `pred->next`; otherwise `c` keeps its size and is
unlinked (`pred->next` is the old `c->next`), and nothing else changed. -/
theorem C16_split_or_consume {m0 : Mem} {storage size : Nat} {s : Pool}
    {live : List (Nat × Nat)} (h : Reachable m0 storage size s live)
    (l1 l2 : List Nat) (c n : Nat) (hwf : WellFormed s (l1 ++ c :: l2))
    (hn : 0 < n) (hn32 : n < UINT32) (hreq : ALIGN_UP n + MEM_BLOCK_ADMIN_SIZE < UINT32)
    (hsmall : ∀ x ∈ l1, (s.mem x).size < ALIGN_UP n + MEM_BLOCK_ADMIN_SIZE)
    (hfit : ALIGN_UP n + MEM_BLOCK_ADMIN_SIZE ≤ (s.mem c).size) :
    ∃ s1, AllocReturns s n (c + MEM_BLOCK_ADMIN_SIZE) s1 ∧ s1.HEAD = s.HEAD ∧
      s1.TAIL = s.TAIL ∧
      (MIN_MEM_BLOCK_SIZE ≤ (s.mem c).size - (ALIGN_UP n + MEM_BLOCK_ADMIN_SIZE) →
        (s1.mem c).size = ALIGN_UP n + MEM_BLOCK_ADMIN_SIZE ∧
        (s1.mem (c + (ALIGN_UP n + MEM_BLOCK_ADMIN_SIZE))).size =
          (s.mem c).size - (ALIGN_UP n + MEM_BLOCK_ADMIN_SIZE) ∧
        (s1.mem (last_of s.HEAD l1)).next = c + (ALIGN_UP n + MEM_BLOCK_ADMIN_SIZE) ∧
        (s1.mem (c + (ALIGN_UP n + MEM_BLOCK_ADMIN_SIZE))).next = (s.mem c).next ∧
        WellFormed s1 (l1 ++ (c + (ALIGN_UP n + MEM_BLOCK_ADMIN_SIZE)) :: l2) ∧
        ∀ x, x ≠ c → x ≠ c + (ALIGN_UP n + MEM_BLOCK_ADMIN_SIZE) →
          (s1.mem x).size = (s.mem x).size ∧
          (x ≠ last_of s.HEAD l1 → (s1.mem x).next = (s.mem x).next)) ∧
      ((s.mem c).size - (ALIGN_UP n + MEM_BLOCK_ADMIN_SIZE) < MIN_MEM_BLOCK_SIZE →
        (s1.mem c).size = (s.mem c).size ∧
        (s1.mem (last_of s.HEAD l1)).next = (s.mem c).next ∧
        WellFormed s1 (l1 ++ l2) ∧
        ∀ x, (s1.mem x).size = (s.mem x).size ∧
          (x ≠ last_of s.HEAD l1 → (s1.mem x).next = (s.mem x).next)) := by
  obtain ⟨bs, hg⟩ := Reachable_good h
  obtain ⟨l, hwf0, hnodes, hmem⟩ := hg.layout.wellformed
  have hl := WellFormed_unique hwf0 hwf
  subst hl
  have hcm : c ∈ l1 ++ c :: l2 := by simp
  obtain ⟨b, hb, hbk, hba⟩ := (hmem c).1 hcm
  have hbt := WellFormed_between hwf hcm
  obtain ⟨k1, k2, k3, k4, k5, k6, k7⟩ := hg.layout.block hb
  have hbelow := hg.layout.below_tail hb (by omega)
  have htop := hg.layout.tail_top
  rw [hba] at k3 k6 hbelow
  obtain ⟨r16, rn, r32⟩ := alloc_req_facts hn hn32
  simp only [MEM_BLOCK_ADMIN_SIZE_eq, MIN_MEM_BLOCK_SIZE_eq] at hsmall hfit ⊢
  have hseg : Seg s.mem (s.mem s.HEAD).next (l1 ++ c :: (l2 ++ [s.TAIL])) 0 := by
    have := hwf.2.1
    rw [List.append_assoc, List.cons_append] at this
    exact this
  have hfound := mempool_alloc_found hn hreq hseg hsmall hfit (by omega)
  have hlt : last_of s.HEAD l1 < c := by
    have hm := last_of_mem s.HEAD l1
    have hs := hwf.2.2.1
    simp only [List.Sorted, List.pairwise_cons, List.pairwise_append, List.mem_append,
      List.mem_cons, List.mem_singleton] at hs
    rcases List.mem_cons.1 hm with e | e
    · omega
    · have := hs.2.1.2.2 _ e c (Or.inl rfl)
      omega
  have hpc : last_of s.HEAD l1 ≠ c := by omega
  have hret : AllocReturns s n (c + 16) (take_memblock s (ALIGN_UP n + 16) (last_of s.HEAD l1) c) :=
    ⟨_, hfound⟩
  have hlist := Good_alloc_list hg hwf hn hn32 hreq hret
  refine ⟨_, hret, by simp, by simp, ?_, ?_⟩
  · intro hsp
    have hsz : ALIGN_UP n + 16 + 32 ≤ (s.mem c).size := by omega
    rw [if_pos hsz] at hlist
    obtain ⟨-, hsize, hnext⟩ := @take_memblock_split s (ALIGN_UP n + 16) (last_of s.HEAD l1) c k3 r16 hsz
      (by omega) (by omega) hpc (by omega)
    refine ⟨?_, ?_, ?_, ?_, hlist, ?_⟩
    · rw [hsize]; simp
    · rw [hsize, if_neg (by omega), if_pos rfl]
    · rw [hnext, if_neg (by omega), if_pos rfl]
    · rw [hnext, if_pos rfl]
    · intro x hx1 hx2
      refine ⟨?_, ?_⟩
      · rw [hsize, if_neg hx1, if_neg hx2]
      · intro hx3
        rw [hnext, if_neg hx2, if_neg hx3]
  · intro hsp
    have hsz : ¬ ALIGN_UP n + 16 + 32 ≤ (s.mem c).size := by omega
    rw [if_neg hsz] at hlist
    have hw := @take_memblock_whole s (ALIGN_UP n + 16) (last_of s.HEAD l1) c hfit (by omega)
      (by omega)
    rw [hw] at hlist ⊢
    refine ⟨?_, ?_, hlist, ?_⟩
    · simp
    · simp
    · intro x
      refine ⟨by simp, ?_⟩
      intro hx
      simp [hx]

/-- Witness for C16: in the pool of `test.c` right after `mempool_init`, where
the free list is the single block 4112 of 1968 bytes, `mempool_alloc(101)`
selects that block and splits it. -/
theorem C16_split_or_consume_witness :
    ∃ s1, AllocReturns test_pool 101 (4112 + MEM_BLOCK_ADMIN_SIZE) s1 ∧ s1.HEAD = test_pool.HEAD ∧
      s1.TAIL = test_pool.TAIL ∧
      (MIN_MEM_BLOCK_SIZE ≤ (test_pool.mem 4112).size - (ALIGN_UP 101 + MEM_BLOCK_ADMIN_SIZE) →
        (s1.mem 4112).size = ALIGN_UP 101 + MEM_BLOCK_ADMIN_SIZE ∧
        (s1.mem (4112 + (ALIGN_UP 101 + MEM_BLOCK_ADMIN_SIZE))).size =
          (test_pool.mem 4112).size - (ALIGN_UP 101 + MEM_BLOCK_ADMIN_SIZE) ∧
        (s1.mem (last_of test_pool.HEAD [])).next = 4112 + (ALIGN_UP 101 + MEM_BLOCK_ADMIN_SIZE) ∧
        (s1.mem (4112 + (ALIGN_UP 101 + MEM_BLOCK_ADMIN_SIZE))).next = (test_pool.mem 4112).next ∧
        WellFormed s1 ([] ++ (4112 + (ALIGN_UP 101 + MEM_BLOCK_ADMIN_SIZE)) :: []) ∧
        ∀ x, x ≠ 4112 → x ≠ 4112 + (ALIGN_UP 101 + MEM_BLOCK_ADMIN_SIZE) →
          (s1.mem x).size = (test_pool.mem x).size ∧
          (x ≠ last_of test_pool.HEAD [] → (s1.mem x).next = (test_pool.mem x).next)) ∧
      ((test_pool.mem 4112).size - (ALIGN_UP 101 + MEM_BLOCK_ADMIN_SIZE) < MIN_MEM_BLOCK_SIZE →
        (s1.mem 4112).size = (test_pool.mem 4112).size ∧
        (s1.mem (last_of test_pool.HEAD [])).next = (test_pool.mem 4112).next ∧
        WellFormed s1 ([] ++ []) ∧
        ∀ x, (s1.mem x).size = (test_pool.mem x).size ∧
          (x ≠ last_of test_pool.HEAD [] → (s1.mem x).next = (test_pool.mem x).next)) :=
  C16_split_or_consume test_pool_reachable [] [] 4112 101 (by decide) (by decide) (by decide)
    (by decide) (by intro x hx; cases hx) (by decide)

/-- Where the two headers of the range test may be read, `mempool_free_mapped`
is `mempool_free`. -/
theorem mempool_free_mapped_readable (readable : Nat → Bool) (fuel : Nat) (s : Pool) (loc : Nat)
    (hH : readable s.HEAD = true) (hB : readable (uptr_sub loc MEM_BLOCK_ADMIN_SIZE) = true) :
    mempool_free_mapped readable fuel s loc = Outcome.ret (mempool_free fuel s loc) := by
  simp only [mempool_free_mapped, mempool_free, hH, hB, Bool.true_eq_false, if_false]
  by_cases h1 : loc = 0 ∨ loc % MAX_ALIGN ≠ 0
  · rw [if_pos h1, if_pos h1]
  · rw [if_neg h1, if_neg h1]
    by_cases h2 : uptr_sub loc MEM_BLOCK_ADMIN_SIZE < uptr_add s.HEAD (s.mem s.HEAD).size
    · rw [if_pos h2, if_pos (Or.inl h2)]
    · rw [if_neg h2]
      by_cases h3 : uptr_add (uptr_sub loc MEM_BLOCK_ADMIN_SIZE)
          (s.mem (uptr_sub loc MEM_BLOCK_ADMIN_SIZE)).size > s.TAIL
      · rw [if_pos h3, if_pos (Or.inr h3)]
      · rw [if_neg h3, if_neg (by rintro (h | h); exact h2 h; exact h3 h)]

end Mempool
